import Mathlib

/-!
Verification of the flow-network core of `src/Proyecto6.py` (class `MaximoFLujo`).

Embedding conventions:
* A Python `dict` is an insertion-ordered association list `AL α := List (Int × α)`
  with unique keys; `dict.get(k, d)` is `AL.getD`, `d[k] = v` is `AL.set`
  (update in place when the key is present, append otherwise), `dict.pop(k, None)`
  is `AL.pop`.
* A Python `set` of ints is a duplicate-free `List Int` in insertion order
  (`sadd` / `sdisc`).
* A `defaultdict` read such as `self.capacidad[u].get(v, 0)` is modelled as the
  pure lookup `getD (getD t u []) v 0`: the Python read would also insert an empty
  row for `u` as a side effect, but an empty row holds no (key, value) entries and
  is invisible to every enumeration and lookup the class performs, so it is
  omitted.
* `assert cap >= 0` raises before any mutation, so the negative-capacity case is
  modelled as returning the state unchanged.
* The `while True` augmenting loops of `ford_fulkerson_dfs` / `edmonds_karp_bfs`
  and the recursive/queue searches are modelled with an explicit fuel parameter;
  `none` means the fuel ran out (in particular, a run of the Python code that
  never terminates is a function that returns `none` for every fuel).
* `float("inf")`, used to seed the bottleneck, is modelled by `Option Int` with
  `none` for infinity (`minOpt`); `min(inf, x) = x` for any int `x`.
-/

set_option synthInstance.maxSize 512

namespace Proyecto6

/-- Association list with integer keys: the model of a Python `dict` keyed by ints,
in insertion order. -/
abbrev AL (α : Type) := List (Int × α)

namespace AL

/-- `dict.get(k)` as an `Option`. -/
def get? : AL α → Int → Option α
  | [], _ => none
  | (k', v) :: l, k => if k = k' then some v else get? l k

/-- `dict.get(k, d)`. -/
def getD (l : AL α) (k : Int) (d : α) : α := (get? l k).getD d

/-- `d[k] = v`: replace in place if the key is present, append otherwise. -/
def set : AL α → Int → α → AL α
  | [], k, v => [(k, v)]
  | (k', v') :: l, k, v => if k = k' then (k, v) :: l else (k', v') :: set l k v

/-- `d.pop(k, None)` / `del d[k]` (guarded): drop the entry for `k`. -/
def pop : AL α → Int → AL α
  | [], _ => []
  | (k', v') :: l, k => if k = k' then l else (k', v') :: pop l k

/-- The keys, in insertion order. -/
def keys (l : AL α) : List Int := l.map Prod.fst

end AL

/-- `s.add(x)` on a Python set modelled as a dup-free list. -/
def sadd (l : List Int) (x : Int) : List Int := if x ∈ l then l else l ++ [x]

/-- `s.discard(x)`. -/
def sdisc (l : List Int) (x : Int) : List Int := l.filter (· ≠ x)

/-- Equality of solver outcomes is decidable (needed to evaluate concrete runs). -/
instance {e a : Type} [DecidableEq e] [DecidableEq a] : DecidableEq (Except e a) :=
  fun x y =>
    match x, y with
    | .error e1, .error e2 =>
      if h : e1 = e2 then isTrue (by rw [h]) else isFalse (by
        intro hc
        cases hc
        exact h rfl)
    | .ok x1, .ok y1 =>
      if h : x1 = y1 then isTrue (by rw [h]) else isFalse (by
        intro hc
        cases hc
        exact h rfl)
    | .error _, .ok _ => isFalse (by intro hc; cases hc)
    | .ok _, .error _ => isFalse (by intro hc; cases hc)

/-- The state of a `MaximoFLujo` object: capacity table, flow table, adjacency
index and node set, exactly the four attributes set up by `__init__`. -/
structure Net where
  capacidad : AL (AL Int)
  flujo : AL (AL Int)
  ady : AL (List Int)
  nodos : List Int
deriving Repr, DecidableEq

namespace Net

/-- `MaximoFLujo()`: the empty network. -/
def empty : Net := ⟨[], [], [], []⟩

/-- `agregar_nodo`. -/
def agregar_nodo (g : Net) (u : Int) : Net := { g with nodos := sadd g.nodos u }

/-- `eliminar_nodo`: discard `u` from the node set, drop its capacity and flow
rows, drop `u` as an inner key of every remaining row, drop its adjacency set,
discard it from every other adjacency set, and prune adjacency sets left empty. -/
def eliminar_nodo (g : Net) (u : Int) : Net :=
  { nodos := sdisc g.nodos u
    capacidad := (AL.pop g.capacidad u).map (fun p => (p.1, AL.pop p.2 u))
    flujo := (AL.pop g.flujo u).map (fun p => (p.1, AL.pop p.2 u))
    ady := ((AL.pop g.ady u).map (fun p => (p.1, sdisc p.2 u))).filter
      (fun p => p.2 ≠ []) }

/-- `eliminar_arista`: `self.capacidad[u].pop(v, None)`. -/
def eliminar_arista (g : Net) (u v : Int) : Net :=
  { g with capacidad :=
      g.capacidad.map (fun p => if p.1 = u then (p.1, AL.pop p.2 v) else p) }

/-- `establecer_capacidad`. `cap < 0` trips the assert before any mutation;
`cap == 0` delegates to `eliminar_arista`; otherwise store the capacity,
initialize the two flow entries to 0 when absent, record adjacency both ways and
add both endpoints to the node set. -/
def establecer_capacidad (g : Net) (u v cap : Int) : Net :=
  if cap < 0 then g
  else if cap = 0 then eliminar_arista g u v
  else
    let capTab := g.capacidad.set u (AL.set (g.capacidad.getD u []) v cap)
    let fl := g.flujo
    let fl := if (AL.get? (fl.getD u []) v).isSome then fl
      else fl.set u (AL.set (fl.getD u []) v 0)
    let fl := if (AL.get? (fl.getD v []) u).isSome then fl
      else fl.set v (AL.set (fl.getD v []) u 0)
    let ady := g.ady.set u (sadd (g.ady.getD u []) v)
    let ady := ady.set v (sadd (ady.getD v []) u)
    { capacidad := capTab, flujo := fl, ady := ady,
      nodos := sadd (sadd g.nodos u) v }

/-- `agregar_arista`: add `cap` to the current capacity (0 when absent). The
assert rejects a negative delta before any mutation. -/
def agregar_arista (g : Net) (u v cap : Int) : Net :=
  if cap < 0 then g
  else establecer_capacidad g u v (AL.getD (g.capacidad.getD u []) v 0 + cap)

/-- `nodos()`: `sorted(self._nodos)`. -/
def nodosOrd (g : Net) : List Int := g.nodos.insertionSort (· ≤ ·)

/-- Lexicographic order on the `(u, v, cap)` triples, as Python's `sorted`
compares tuples. -/
def tripLe (a b : Int × Int × Int) : Prop :=
  a.1 < b.1 ∨ (a.1 = b.1 ∧ (a.2.1 < b.2.1 ∨ (a.2.1 = b.2.1 ∧ a.2.2 ≤ b.2.2)))

instance : DecidableRel tripLe := fun a b => by
  unfold tripLe; infer_instance

instance : IsTotal (Int × Int × Int) tripLe :=
  ⟨by intro a b; unfold tripLe; omega⟩

instance : IsTrans (Int × Int × Int) tripLe :=
  ⟨by intro a b c; unfold tripLe; omega⟩

/-- Strictly ascending by the `(u, v)` key pair. -/
def pairLt (a b : Int × Int × Int) : Prop :=
  a.1 < b.1 ∨ (a.1 = b.1 ∧ a.2.1 < b.2.1)

/-- `aristas()`: every `(u, v, cap)` with `cap > 0`, sorted. -/
def aristas (g : Net) : List (Int × Int × Int) :=
  (g.capacidad.flatMap (fun p =>
    p.2.filterMap (fun q => if q.2 > 0 then some (p.1, q.1, q.2) else none))).insertionSort
    tripLe

/-- `reiniciar_flujos()`: every stored flow entry becomes 0. -/
def reiniciar_flujos (g : Net) : Net :=
  { g with flujo := g.flujo.map (fun p => (p.1, p.2.map (fun q => (q.1, (0 : Int))))) }

/-- `self.flujo[u].get(v, 0)` (and the same shape for capacities). -/
def tabGet (t : AL (AL Int)) (u v : Int) : Int := AL.getD (t.getD u []) v 0

/-- `t[u][v] = x` on a dict-of-dict table. -/
def tabSet (t : AL (AL Int)) (u v x : Int) : AL (AL Int) :=
  t.set u (AL.set (t.getD u []) v x)

/-- `self.ady[u]`, as the searches read it (empty when the row is absent). -/
def adyOf (g : Net) (u : Int) : List Int := g.ady.getD u []

/-- Presence-level view of a dict-of-dict table entry. -/
def tabEnt (t : AL (AL Int)) (u v : Int) : Option Int := AL.get? (t.getD u []) v

/-- `_residual_adelante`. -/
def residual_adelante (g : Net) (u v : Int) : Int :=
  tabGet g.capacidad u v - tabGet g.flujo u v

/-- `_residual_atras`. -/
def residual_atras (g : Net) (u v : Int) : Int := tabGet g.flujo v u

/-- The residual capacity a search step uses: direction `+1` reads
`_residual_adelante`, any other direction tag reads `_residual_atras`. -/
def residual (g : Net) (u v d : Int) : Int :=
  if d = 1 then residual_adelante g u v else residual_atras g u v

/-- The body of `for vecino in self.ady[actual]` performs, for each neighbor,
first a forward-residual attempt and then a backward-residual attempt; both
searches are phrased over this flattened attempt list `(vecino, direction)`. -/
def intentos (l : List Int) : List (Int × Int) :=
  l.flatMap (fun v => [(v, 1), (v, -1)])

/-- The predecessor map `padre`: node to `(parent, direction)`. In the breadth
first search Python pre-fills every node with `None`; a key that is absent here
models a key that is absent or still `None` there (`padre.get(v) is None`). -/
abbrev PMap := AL (Int × Int)

/-- The neighbor loop of `_dfs_aumento`: try each `(vecino, direction)` attempt
in order; on a hit, record the predecessor and recurse through `rec` (the
depth-first call one fuel level down); a failed recursion keeps its visited-set
and predecessor-map mutations. -/
def dfs_intenta (g : Net) (rec : Int → List Int → PMap → Option (Bool × List Int × PMap)) :
    List (Int × Int) → Int → List Int → PMap → Option (Bool × List Int × PMap)
  | [], _, visitado, padre => some (false, visitado, padre)
  | (vecino, d) :: rest, actual, visitado, padre =>
    if vecino ∉ visitado ∧ 0 < Net.residual g actual vecino d then
      match rec vecino visitado (AL.set padre vecino (actual, d)) with
      | none => none
      | some (true, vis2, padre2) => some (true, vis2, padre2)
      | some (false, vis2, padre2) => dfs_intenta g rec rest actual vis2 padre2
    else dfs_intenta g rec rest actual visitado padre

/-- `_dfs_aumento`. The fuel bounds the recursion depth; each recursive call
runs on one unit less, and `none` means the fuel ran out. -/
def dfs_aumento (g : Net) (sumidero : Int) :
    Nat → Int → List Int → PMap → Option (Bool × List Int × PMap)
  | 0, _, _, _ => none
  | fuel + 1, actual, visitado, padre =>
    if actual = sumidero then some (true, visitado, padre)
    else
      dfs_intenta g (dfs_aumento g sumidero fuel) (intentos (adyOf g actual))
        actual (sadd visitado actual) padre

/-- The neighbor loop of `_bfs_aumento` for one dequeued node `u`: a hit records
the predecessor, returns at once when the sink is reached (`Sum.inl`), and
otherwise enqueues the neighbor. -/
def bfs_explora (g : Net) (sumidero u : Int) :
    List (Int × Int) → List Int → PMap → Sum PMap (List Int × PMap)
  | [], q, padre => .inr (q, padre)
  | (v, d) :: rest, q, padre =>
    if (AL.get? padre v).isNone ∧ 0 < Net.residual g u v d then
      let padre' := AL.set padre v (u, d)
      if v = sumidero then .inl padre'
      else bfs_explora g sumidero u rest (q ++ [v]) padre'
    else bfs_explora g sumidero u rest q padre

/-- The `while q:` loop of `_bfs_aumento`. `some (some padre)` is
`return True, padre`; `some none` is `return False, None`; `none` is fuel out. -/
def bfs_bucle (g : Net) (sumidero : Int) :
    Nat → List Int → PMap → Option (Option PMap)
  | 0, _, _ => none
  | fuel + 1, q, padre =>
    match q with
    | [] => some none
    | u :: q' =>
      if u = sumidero then some (some padre)
      else
        match bfs_explora g sumidero u (intentos (adyOf g u)) q' padre with
        | .inl padre' => some (some padre')
        | .inr (q'', padre') => bfs_bucle g sumidero fuel q'' padre'

/-- `_bfs_aumento`: queue seeded with the source, which gets the sentinel
predecessor `(fuente, 0)`. -/
def bfs_aumento (g : Net) (fuente sumidero : Int) (fuel : Nat) : Option (Option PMap) :=
  bfs_bucle g sumidero fuel [fuente] (AL.set [] fuente (fuente, 0))

/-- The `while v != fuente: u, dir_ = padre[v]; ...; v = u` walk shared by both
solvers, read off once as the list of `(u, v, dir)` steps from the sink back to
the source. `none` models a walk that never reaches the source (a lookup the
Python code would crash or loop on); it cannot happen for the maps the searches
produce. -/
def camino (padre : PMap) (fuente : Int) : Nat → Int → Option (List (Int × Int × Int))
  | 0, _ => none
  | fuel + 1, v =>
    if v = fuente then some []
    else
      match AL.get? padre v with
      | none => none
      | some (u, d) => (camino padre fuente fuel u).map (fun s => (u, v, d) :: s)

/-- `min` against a bottleneck that starts as `float("inf")` (`none`). -/
def minOpt (b : Option Int) (x : Int) : Option Int :=
  some (match b with | none => x | some y => min y x)

/-- `botella`: fold `min` over the residuals of the walk, seeded with infinity. -/
def cuello (g : Net) (steps : List (Int × Int × Int)) : Option Int :=
  steps.foldl (fun b s => minOpt b (Net.residual g s.1 s.2.1 s.2.2)) none

/-- `total + botella` where either side may be `float("inf")` (`none`). -/
def addOpt (a b : Option Int) : Option Int :=
  match a, b with
  | some x, some y => some (x + y)
  | _, _ => none

/-- The second walk of the loop body: apply the bottleneck along the path;
a forward step raises `flujo[u][v]`, a backward step lowers `flujo[v][u]`. -/
def aplicar (fl : AL (AL Int)) (steps : List (Int × Int × Int)) (b : Int) : AL (AL Int) :=
  steps.foldl (fun fl s =>
    if s.2.2 = 1 then Net.tabSet fl s.1 s.2.1 (Net.tabGet fl s.1 s.2.1 + b)
    else Net.tabSet fl s.2.1 s.1 (Net.tabGet fl s.2.1 s.1 - b)) fl

/-- Fuel for one depth-first search: more than the number of nodes the adjacency
index can ever hand to it, so the depth bound can never be hit. -/
def dfsFuel (g : Net) : Nat :=
  (g.ady.flatMap (fun p => p.1 :: p.2)).length + 2

/-- When the bottleneck is infinite the walk was empty and the update pass
writes nothing; otherwise apply the finite bottleneck along the walk. -/
def aplicarOpt (fl : AL (AL Int)) (steps : List (Int × Int × Int)) :
    Option Int → AL (AL Int)
  | none => fl
  | some b => aplicar fl steps b

/-- `while True:` of `ford_fulkerson_dfs`: search, stop when no augmenting path
is found, otherwise walk the path, take the bottleneck, update the flows and
accumulate. The outer fuel counts loop iterations. -/
def ff_bucle (g : Net) (fuente sumidero : Int) :
    Nat → AL (AL Int) → Option Int → Option (Option Int × AL (AL Int))
  | 0, _, _ => none
  | fuel + 1, fl, total =>
    let g' := { g with flujo := fl }
    match dfs_aumento g' sumidero g'.dfsFuel fuente [] [] with
    | none => none
    | some (false, _, _) => some (total, fl)
    | some (true, _, padre) =>
      match camino padre fuente (padre.length + 1) sumidero with
      | none => none
      | some steps =>
        let b := cuello g' steps
        ff_bucle g fuente sumidero fuel (aplicarOpt fl steps b) (addOpt total b)

/-- `while True:` of `edmonds_karp_bfs`, same loop body over the BFS search. -/
def ek_bucle (g : Net) (fuente sumidero : Int) :
    Nat → AL (AL Int) → Option Int → Option (Option Int × AL (AL Int))
  | 0, _, _ => none
  | fuel + 1, fl, total =>
    let g' := { g with flujo := fl }
    match bfs_aumento g' fuente sumidero g'.dfsFuel with
    | none => none
    | some none => some (total, fl)
    | some (some padre) =>
      match camino padre fuente (padre.length + 1) sumidero with
      | none => none
      | some steps =>
        let b := cuello g' steps
        ek_bucle g fuente sumidero fuel (aplicarOpt fl steps b) (addOpt total b)

/-- The result-shaping pass both solvers end with: one entry per stored
capacity pair, the flow clamped to `[0, cap]`. -/
def mapa_flujo (cap fl : AL (AL Int)) : List ((Int × Int) × Int) :=
  cap.flatMap (fun p =>
    p.2.map (fun q => ((p.1, q.1), max 0 (min q.2 (Net.tabGet fl p.1 q.1)))))

/-- `ford_fulkerson_dfs`. Returns the final object state next to the outcome:
`Except.error` is the `ValueError` raised before any mutation, `.ok none` is a
run whose loop fuel ran out (covering a non-terminating run), and
`.ok (some (total, map))` a completed run. -/
def ford_fulkerson_dfs (g : Net) (fuente sumidero : Int) (fuel : Nat) :
    Net × Except String (Option (Option Int × List ((Int × Int) × Int))) :=
  if fuente ∈ g.nodos ∧ sumidero ∈ g.nodos then
    let g0 := g.reiniciar_flujos
    match ff_bucle g0 fuente sumidero fuel g0.flujo (some 0) with
    | none => (g0, .ok none)
    | some (total, fl) =>
      let gf := { g0 with flujo := fl }
      (gf, .ok (some (total, mapa_flujo gf.capacidad gf.flujo)))
  else (g, .error "La Fuente o el Sumidero no existen en el grafo.")

/-- `edmonds_karp_bfs`, identical shell over the BFS loop. -/
def edmonds_karp_bfs (g : Net) (fuente sumidero : Int) (fuel : Nat) :
    Net × Except String (Option (Option Int × List ((Int × Int) × Int))) :=
  if fuente ∈ g.nodos ∧ sumidero ∈ g.nodos then
    let g0 := g.reiniciar_flujos
    match ek_bucle g0 fuente sumidero fuel g0.flujo (some 0) with
    | none => (g0, .ok none)
    | some (total, fl) =>
      let gf := { g0 with flujo := fl }
      (gf, .ok (some (total, mapa_flujo gf.capacidad gf.flujo)))
  else (g, .error "La Fuente o el Sumidero no existen en el grafo.")

/-- Structural well-formedness of a network state: positive stored capacities,
duplicate-free dictionary keys and sets, a symmetric adjacency index, and
adjacency coverage of every stored capacity edge. Every state reachable through
the public mutation methods satisfies it. -/
structure WF (g : Net) : Prop where
  capPos : ∀ p ∈ g.capacidad, ∀ q ∈ p.2, 0 < q.2
  capKeys : (AL.keys g.capacidad).Nodup
  capRows : ∀ p ∈ g.capacidad, (AL.keys p.2).Nodup
  flKeys : (AL.keys g.flujo).Nodup
  flRows : ∀ p ∈ g.flujo, (AL.keys p.2).Nodup
  adyKeys : (AL.keys g.ady).Nodup
  adyRows : ∀ p ∈ g.ady, p.2.Nodup
  nodosNodup : g.nodos.Nodup
  adySym : ∀ p ∈ g.ady, ∀ v ∈ p.2, p.1 ∈ adyOf g v
  capAdy : ∀ p ∈ g.capacidad, ∀ q ∈ p.2, q.1 ∈ adyOf g p.1

/-- The stored capacity table flattened to `(u, v, cap)` triples, in storage
order, before any filtering or sorting. -/
def storedTriples (g : Net) : List (Int × Int × Int) :=
  g.capacidad.flatMap (fun p => p.2.map (fun q => (p.1, q.1, q.2)))

/-- Sum of the returned edge-flow map over the edges leaving `w`. -/
def outSum (m : List ((Int × Int) × Int)) (w : Int) : Int :=
  ((m.filter (fun e => e.1.1 = w)).map Prod.snd).sum

/-- Sum of the returned edge-flow map over the edges entering `w`. -/
def inSum (m : List ((Int × Int) × Int)) (w : Int) : Int :=
  ((m.filter (fun e => e.1.2 = w)).map Prod.snd).sum

/-- Every stored flow lies between 0 and the stored capacity (both read as 0
when absent). -/
def FlowOk (cap fl : AL (AL Int)) : Prop :=
  ∀ u v, 0 ≤ tabGet fl u v ∧ tabGet fl u v ≤ tabGet cap u v

/-- A finite universe containing every node the capacity table or node set
mentions. -/
def univNodes (g : Net) : Finset Int :=
  (g.nodos ++ AL.keys g.capacidad ++ g.capacidad.flatMap (fun p => AL.keys p.2)).toFinset

/-- Net outflow of `w` in a flow table, summed over a finite universe. -/
def excessT (fl : AL (AL Int)) (V : Finset Int) (w : Int) : Int :=
  ∑ v ∈ V, (tabGet fl w v - tabGet fl v w)

/-- The ordered pair a walk step writes: a forward step raises `flujo[u][v]`,
a backward step lowers `flujo[v][u]`. -/
def tocados (s : Int × Int × Int) : Int × Int :=
  if s.2.2 = 1 then (s.1, s.2.1) else (s.2.1, s.1)

/-- The additive change a single walk step makes to the flow entry `(x, y)`. -/
def contrib (s : Int × Int × Int) (b x y : Int) : Int :=
  if s.2.2 = 1 then (if x = s.1 ∧ y = s.2.1 then b else 0)
  else (if x = s.2.1 ∧ y = s.1 then -b else 0)

/-- A step list is a predecessor chain from `v` back to `fuente`: step
`(u, w, d)` records that `w`'s parent is `u`. -/
def Cadena (fuente : Int) : Int → List (Int × Int × Int) → Prop
  | v, [] => v = fuente
  | v, (u, w, _) :: rest => w = v ∧ Cadena fuente u rest

/-- `R` is closed under the residual edges the searches can traverse out of
`u`: every adjacency neighbor with positive forward or backward residual is
already in `R`. -/
def cerrado (g : Net) (R : List Int) : Prop :=
  ∀ u ∈ R, ∀ v ∈ adyOf g u,
    (0 < residual_adelante g u v ∨ 0 < residual_atras g u v) → v ∈ R

/-- Total stored capacity on the edges leaving `w`, over a finite universe. -/
def capOut (cap : AL (AL Int)) (V : Finset Int) (w : Int) : Int :=
  ∑ v ∈ V, tabGet cap w v

/-- Flow conservation away from the two endpoints. -/
def Conserva (fl : AL (AL Int)) (V : Finset Int) (fuente sumidero : Int) : Prop :=
  ∀ w, w ≠ fuente → w ≠ sumidero → excessT fl V w = 0

/-- Total capacity of the cut `S` against the rest of the universe `V`. -/
def cutCap (cap : AL (AL Int)) (V S : Finset Int) : Int :=
  ∑ u ∈ S, ∑ v ∈ V \ S, tabGet cap u v

/-- Every recorded predecessor entry for a node other than the source was
written under a positive-residual check (the searches only write such entries;
the breadth-first seed entry for the source itself is exempt). -/
def PadreOk (g : Net) (fuente : Int) (padre : PMap) : Prop :=
  ∀ v u d, v ≠ fuente → AL.get? padre v = some (u, d) → 0 < residual g u v d

/-- Every node the search entered beyond `vis` has had all its
positive-residual neighbors pushed into `vis2`. -/
def explorado (g : Net) (vis vis2 : List Int) : Prop :=
  ∀ u ∈ vis2, u ∉ vis → ∀ v ∈ adyOf g u,
    (0 < residual_adelante g u v ∨ 0 < residual_atras g u v) → v ∈ vis2

/-- The candidate pool a search run can ever visit: the start node plus every
node the adjacency index mentions; `dfsFuel` exceeds its length. -/
def poolDFS (g : Net) (fuente : Int) : List Int :=
  fuente :: g.ady.flatMap (fun p => p.1 :: p.2)

/-- The returned map without the final clamp: one entry per stored capacity
pair carrying the raw stored flow (the spec says the clamp never changes a
value, i.e. that `mapa_flujo` and `mapa_crudo` agree). -/
def mapa_crudo (cap fl : AL (AL Int)) : List ((Int × Int) × Int) :=
  cap.flatMap (fun p => p.2.map (fun q => ((p.1, q.1), Net.tabGet fl p.1 q.1)))

/-- What one pass of the breadth-first neighbor loop preserves and produces
when it ends without hitting the sink (`.inr`): key discipline of the
predecessor map, entry monotonicity, queue bookkeeping, walks to the source
for every recorded node, the residual guard on every entry, and the
termination measure. -/
structure BfsStep (g : Net) (L : List Int) (fuente sumidero : Int)
    (q : List Int) (padre : Net.PMap) (q2 : List Int) (padre2 : Net.PMap) : Prop where
  nodup : (AL.keys padre2).Nodup
  sub : ∀ x ∈ AL.keys padre2, x ∈ L
  ext : ∀ k x, AL.get? padre k = some x → AL.get? padre2 k = some x
  keysMono : ∀ x ∈ AL.keys padre, x ∈ AL.keys padre2
  newq : ∀ x ∈ AL.keys padre2, x ∈ AL.keys padre ∨ x ∈ q2
  qsub : ∀ x ∈ q2, x ∈ AL.keys padre2
  qmono : ∀ x ∈ q, x ∈ q2
  walks : ∀ w ∈ AL.keys padre2, ∃ f steps, Net.camino padre2 fuente f w = some steps
  padreOk : Net.PadreOk g fuente padre2
  measure : q2.length + (L.length - (AL.keys padre2).length)
      ≤ q.length + (L.length - (AL.keys padre).length)
  sink : sumidero ∉ AL.keys padre → sumidero ∉ AL.keys padre2

end Net

/-- One call to a public mutation method, with its arguments. -/
inductive Op where
  | addNode (u : Int)
  | removeNode (u : Int)
  | setCap (u v cap : Int)
  | addE (u v cap : Int)
  | removeEdge (u v : Int)

/-- Run one mutation call against the state. -/
def aplicarOp (g : Net) : Op → Net
  | .addNode u => g.agregar_nodo u
  | .removeNode u => g.eliminar_nodo u
  | .setCap u v c => g.establecer_capacidad u v c
  | .addE u v c => g.agregar_arista u v c
  | .removeEdge u v => g.eliminar_arista u v

/-- Run a sequence of mutation calls from a starting state. -/
def aplicarOps (g : Net) (ops : List Op) : Net := ops.foldl aplicarOp g

/-- The capacity arguments of the call are non-negative. -/
def opNonNeg : Op → Prop
  | .setCap _ _ c => 0 ≤ c
  | .addE _ _ c => 0 ≤ c
  | _ => True

instance : DecidablePred opNonNeg := fun o => by
  cases o <;> unfold opNonNeg <;> infer_instance

/-- The network of the specification's Scenario A: nodes 0..3 with edges
(0,1,10), (0,2,10), (1,3,8), (2,3,8), (1,2,1); its maximum 0-to-3 flow is 16. -/
def ejemploA : Net :=
  (((((Net.empty.establecer_capacidad 0 1 10).establecer_capacidad 0 2 10).establecer_capacidad
    1 3 8).establecer_capacidad 2 3 8).establecer_capacidad 1 2 1)

/-- A network holding the single isolated node 0. -/
def ejemploUno : Net := Net.empty.agregar_nodo 0


/-! ## Lemmas about the dictionary and set models -/

namespace AL

theorem isSome_get?_iff (l : AL α) (k : Int) :
    (get? l k).isSome ↔ k ∈ keys l := by
  induction l with
  | nil => simp [get?, keys]
  | cons a l ih =>
    obtain ⟨ak, av⟩ := a
    by_cases h : k = ak <;> simp [get?, keys, h, ih]

theorem get?_eq_none_iff (l : AL α) (k : Int) :
    get? l k = none ↔ k ∉ keys l := by
  rw [← isSome_get?_iff]
  cases get? l k <;> simp

theorem mem_of_get?_eq_some {l : AL α} {k : Int} {v : α}
    (h : get? l k = some v) : (k, v) ∈ l := by
  induction l with
  | nil => simp [get?] at h
  | cons a l ih =>
    obtain ⟨ak, av⟩ := a
    simp only [get?] at h
    by_cases hk : k = ak
    · subst hk
      rw [if_pos rfl] at h
      cases h
      exact List.mem_cons_self _ _
    · rw [if_neg hk] at h
      exact List.mem_cons_of_mem _ (ih h)

theorem get?_set (l : AL α) (k k' : Int) (v : α) :
    get? (set l k v) k' = if k' = k then some v else get? l k' := by
  induction l with
  | nil => simp [set, get?]
  | cons a l ih =>
    obtain ⟨ak, av⟩ := a
    by_cases hka : k = ak
    · subst hka
      simp only [set, if_pos rfl, get?]
      by_cases hk : k' = k <;> simp [hk]
    · simp only [set, if_neg hka, get?, ih]
      by_cases hk : k' = ak
      · rw [if_pos hk, if_neg (by rw [hk]; exact fun h => hka h.symm), if_pos hk]
      · rw [if_neg hk, if_neg hk]

theorem get?_pop (l : AL α) (k k' : Int) (hl : (keys l).Nodup) :
    get? (pop l k) k' = if k' = k then none else get? l k' := by
  induction l with
  | nil => simp [pop, get?]
  | cons a l ih =>
    obtain ⟨ak, av⟩ := a
    simp only [keys, List.map_cons, List.nodup_cons] at hl
    by_cases hka : k = ak
    · subst hka
      simp only [pop, if_pos rfl]
      by_cases hk : k' = k
      · subst hk
        rw [if_pos rfl, get?_eq_none_iff]
        exact hl.1
      · rw [if_neg hk]
        simp [get?, hk]
    · simp only [pop, if_neg hka, get?]
      by_cases hk : k' = ak
      · rw [if_pos hk, if_neg (by rw [hk]; exact fun h => hka h.symm), if_pos hk]
      · rw [if_neg hk, if_neg hk, ih hl.2]

theorem keys_set (l : AL α) (k : Int) (v : α) :
    keys (set l k v) = if k ∈ keys l then keys l else keys l ++ [k] := by
  induction l with
  | nil => simp [set, keys]
  | cons a l ih =>
    obtain ⟨ak, av⟩ := a
    by_cases hka : k = ak
    · subst hka; simp [set, keys]
    · simp only [set, if_neg hka, keys, List.map_cons] at ih ⊢
      rw [ih]
      by_cases hm : k ∈ List.map Prod.fst l
      · rw [if_pos hm, if_pos (by simp [hm])]
      · rw [if_neg hm, if_neg (by simp [hm, hka]), List.cons_append]

theorem nodup_keys_set (l : AL α) (k : Int) (v : α)
    (hl : (keys l).Nodup) : (keys (set l k v)).Nodup := by
  rw [keys_set]
  by_cases hm : k ∈ keys l
  · rwa [if_pos hm]
  · rw [if_neg hm, List.nodup_append]
    exact ⟨hl, List.nodup_singleton _, by simpa using hm⟩

theorem sublist_keys_pop (l : AL α) (k : Int) : (keys (pop l k)).Sublist (keys l) := by
  induction l with
  | nil => simp [pop]
  | cons a l ih =>
    obtain ⟨ak, av⟩ := a
    by_cases h : k = ak
    · simp only [pop, if_pos h, keys, List.map_cons]
      exact List.sublist_cons_self _ _
    · simp only [pop, if_neg h, keys, List.map_cons]
      exact ih.cons₂ _

theorem nodup_keys_pop (l : AL α) (k : Int) (hl : (keys l).Nodup) :
    (keys (pop l k)).Nodup := (sublist_keys_pop l k).nodup hl

theorem mem_set (l : AL α) (k : Int) (v : α) {p : Int × α} (hp : p ∈ set l k v) :
    p ∈ l ∨ p = (k, v) := by
  induction l with
  | nil =>
    rw [set] at hp
    exact Or.inr (List.mem_singleton.mp hp)
  | cons a l ih =>
    obtain ⟨ak, av⟩ := a
    by_cases hka : k = ak
    · subst hka
      simp only [set, if_pos rfl] at hp
      rcases List.mem_cons.mp hp with h | h
      · exact Or.inr h
      · exact Or.inl (List.mem_cons_of_mem _ h)
    · simp only [set, if_neg hka] at hp
      rcases List.mem_cons.mp hp with h | h
      · exact Or.inl (h ▸ List.mem_cons_self _ _)
      · rcases ih h with h2 | h2
        · exact Or.inl (List.mem_cons_of_mem _ h2)
        · exact Or.inr h2

theorem mem_pop (l : AL α) (k : Int) {p : Int × α} (hp : p ∈ pop l k) : p ∈ l := by
  induction l with
  | nil => simp [pop] at hp
  | cons a l ih =>
    obtain ⟨ak, av⟩ := a
    by_cases h : k = ak
    · simp only [pop, if_pos h] at hp
      exact List.mem_cons_of_mem _ hp
    · simp only [pop, if_neg h] at hp
      rcases List.mem_cons.mp hp with h2 | h2
      · exact h2 ▸ List.mem_cons_self _ _
      · exact List.mem_cons_of_mem _ (ih h2)

theorem get?_mapVal (f : Int → α → β) (l : AL α) (k : Int) :
    get? (l.map fun p => (p.1, f p.1 p.2)) k = (get? l k).map (f k) := by
  induction l with
  | nil => simp [get?]
  | cons a l ih =>
    obtain ⟨ak, av⟩ := a
    by_cases h : k = ak
    · subst h; simp [get?]
    · simp [get?, h, ih]

theorem get?_of_mem_nodup {l : AL α} {k : Int} {v : α}
    (hl : (keys l).Nodup) (hm : (k, v) ∈ l) : get? l k = some v := by
  induction l with
  | nil => simp at hm
  | cons a l ih =>
    obtain ⟨ak, av⟩ := a
    simp only [keys, List.map_cons, List.nodup_cons] at hl
    rcases List.mem_cons.mp hm with h | h
    · cases h
      simp [get?]
    · have hka : k ≠ ak := by
        rintro rfl
        exact hl.1 (List.mem_map_of_mem Prod.fst h)
      simp only [get?, if_neg hka]
      exact ih hl.2 h

theorem get?_filter (P : Int × α → Bool) {l : AL α} (k : Int)
    (hl : (keys l).Nodup) :
    get? (l.filter P) k =
      (get? l k).bind (fun v => if P (k, v) then some v else none) := by
  induction l with
  | nil => simp [get?]
  | cons a l ih =>
    obtain ⟨ak, av⟩ := a
    simp only [keys, List.map_cons, List.nodup_cons] at hl
    by_cases hka : k = ak
    · subst hka
      by_cases hp : P (k, av)
      · simp [List.filter_cons, hp, get?]
      · have h1 : get? (List.filter P l) k = none := by
          rw [get?_eq_none_iff]
          intro hmem
          rcases List.mem_map.mp hmem with ⟨p, hpmem, hpk⟩
          exact hl.1 (hpk ▸ List.mem_map_of_mem Prod.fst (List.mem_filter.mp hpmem).1)
        simp [List.filter_cons, hp, get?, h1]
    · by_cases hp : P (ak, av)
      · simp only [List.filter_cons, hp, if_pos, get?, if_neg hka]
        exact ih hl.2
      · simp only [List.filter_cons, hp, Bool.false_eq_true, if_neg (fun h => h),
          get?, if_neg hka]
        exact ih hl.2

end AL

theorem mem_sadd {l : List Int} {x y : Int} : y ∈ sadd l x ↔ y ∈ l ∨ y = x := by
  unfold sadd
  by_cases h : x ∈ l
  · simp only [if_pos h]
    constructor
    · exact Or.inl
    · rintro (h2 | rfl) <;> [exact h2; exact h]
  · simp [if_neg h]

theorem nodup_sadd {l : List Int} (x : Int) (hl : l.Nodup) : (sadd l x).Nodup := by
  unfold sadd
  by_cases h : x ∈ l
  · simpa [if_pos h] using hl
  · rw [if_neg h, List.nodup_append]
    exact ⟨hl, List.nodup_singleton _, by simpa using h⟩

theorem mem_sdisc {l : List Int} {x y : Int} : y ∈ sdisc l x ↔ y ∈ l ∧ y ≠ x := by
  simp [sdisc]

theorem nodup_sdisc {l : List Int} (x : Int) (hl : l.Nodup) : (sdisc l x).Nodup :=
  hl.filter _



/-! ## Entry-level views of the mutation methods -/

namespace AL

theorem get?_map_pop (l : AL (AL Int)) (u k : Int) :
    get? (l.map (fun p => (p.1, pop p.2 u))) k
      = (get? l k).map (fun r => pop r u) := by
  induction l with
  | nil => simp [get?]
  | cons a l ih =>
    obtain ⟨ak, av⟩ := a
    by_cases h : k = ak <;> simp [get?, h, ih]

theorem get?_map_zero (l : AL (AL Int)) (k : Int) :
    get? (l.map (fun p => (p.1, p.2.map (fun q => (q.1, (0 : Int)))))) k
      = (get? l k).map (fun r => r.map (fun q => (q.1, (0 : Int)))) := by
  induction l with
  | nil => simp [get?]
  | cons a l ih =>
    obtain ⟨ak, av⟩ := a
    by_cases h : k = ak <;> simp [get?, h, ih]

theorem get?_map_sdisc (l : AL (List Int)) (u k : Int) :
    get? (l.map (fun p => (p.1, sdisc p.2 u))) k
      = (get? l k).map (fun r => sdisc r u) := by
  induction l with
  | nil => simp [get?]
  | cons a l ih =>
    obtain ⟨ak, av⟩ := a
    by_cases h : k = ak <;> simp [get?, h, ih]

theorem get?_map_const0 (l : AL Int) (k : Int) :
    get? (l.map (fun q => (q.1, (0 : Int)))) k
      = (get? l k).map (fun _ => (0 : Int)) := by
  induction l with
  | nil => simp [get?]
  | cons a l ih =>
    obtain ⟨ak, av⟩ := a
    by_cases h : k = ak <;> simp [get?, h, ih]

theorem get?_map_ifpop (l : AL (AL Int)) (u v k : Int) :
    get? (l.map (fun p => if p.1 = u then (p.1, pop p.2 v) else p)) k
      = if k = u then (get? l k).map (fun r => pop r v) else get? l k := by
  induction l with
  | nil => simp [get?]
  | cons a l ih =>
    obtain ⟨ak, av⟩ := a
    simp only [List.map_cons]
    by_cases hau : ak = u
    · rw [if_pos hau]
      by_cases hk : k = ak
      · subst hk
        simp [get?, hau]
      · simp [get?, hk, ih]
    · rw [if_neg hau]
      by_cases hk : k = ak
      · subst hk
        simp [get?, hau]
      · simp [get?, hk, ih]

end AL

namespace Net

theorem tabEnt_tabSet (t : AL (AL Int)) (u v x a b : Int) :
    tabEnt (tabSet t u v x) a b
      = if a = u ∧ b = v then some x else tabEnt t a b := by
  unfold tabEnt tabSet AL.getD
  rw [AL.get?_set]
  by_cases ha : a = u
  · subst ha
    rw [if_pos rfl]
    simp only [Option.getD_some]
    rw [AL.get?_set]
    by_cases hb : b = v
    · simp [hb]
    · simp [hb]
  · rw [if_neg ha, if_neg (fun h => ha h.1)]

theorem tabGet_eq_ent (t : AL (AL Int)) (u v : Int) :
    tabGet t u v = (tabEnt t u v).getD 0 := rfl

theorem tabGet_tabSet (t : AL (AL Int)) (u v x a b : Int) :
    tabGet (tabSet t u v x) a b
      = if a = u ∧ b = v then x else tabGet t a b := by
  rw [tabGet_eq_ent, tabEnt_tabSet, tabGet_eq_ent]
  by_cases h : a = u ∧ b = v <;> simp [h]

theorem tabGet_reiniciar (g : Net) (u v : Int) :
    tabGet (reiniciar_flujos g).flujo u v = 0 := by
  unfold reiniciar_flujos tabGet AL.getD
  simp only
  rw [AL.get?_map_zero]
  rcases h : AL.get? g.flujo u with _ | row
  · simp [AL.get?]
  · simp only [Option.map_some', Option.getD_some]
    rw [AL.get?_map_const0]
    rcases AL.get? row v with _ | x <;> simp

theorem capEnt_eliminar_arista (g : Net) (u v a b : Int)
    (hrows : ∀ p ∈ g.capacidad, (AL.keys p.2).Nodup) :
    tabEnt (eliminar_arista g u v).capacidad a b
      = if a = u ∧ b = v then none else tabEnt g.capacidad a b := by
  unfold eliminar_arista tabEnt AL.getD
  simp only
  rw [AL.get?_map_ifpop]
  by_cases ha : a = u
  · rw [if_pos ha]
    rcases h : AL.get? g.capacidad a with _ | row
    · simp only [Option.map_none', Option.getD_none, AL.get?]
      split <;> rfl
    · simp only [Option.map_some', Option.getD_some]
      rw [AL.get?_pop _ _ _ (hrows _ (AL.mem_of_get?_eq_some h))]
      subst ha
      by_cases hb : b = v
      · rw [if_pos hb, if_pos ⟨rfl, hb⟩]
      · rw [if_neg hb, if_neg (fun hx => hb hx.2)]
  · rw [if_neg ha, if_neg (fun hx => ha hx.1)]

theorem tabEnt_popNode (t : AL (AL Int)) (u a b : Int)
    (hkeys : (AL.keys t).Nodup) (hrows : ∀ p ∈ t, (AL.keys p.2).Nodup) :
    tabEnt ((AL.pop t u).map (fun p => (p.1, AL.pop p.2 u))) a b
      = if a = u ∨ b = u then none else tabEnt t a b := by
  unfold tabEnt AL.getD
  rw [AL.get?_map_pop, AL.get?_pop _ _ _ hkeys]
  by_cases ha : a = u
  · simp [ha, AL.get?]
  · rw [if_neg ha]
    rcases h : AL.get? t a with _ | row
    · simp only [Option.map_none', Option.getD_none, AL.get?]
      split <;> rfl
    · simp only [Option.map_some', Option.getD_some]
      rw [AL.get?_pop _ _ _ (hrows _ (AL.mem_of_get?_eq_some h))]
      by_cases hb : b = u
      · simp [hb]
      · simp [hb, ha]

theorem mem_adyOf_eliminar_nodo (g : Net) (u a b : Int)
    (hk : (AL.keys g.ady).Nodup) :
    b ∈ adyOf (g.eliminar_nodo u) a ↔ b ∈ adyOf g a ∧ a ≠ u ∧ b ≠ u := by
  have hknd : (AL.keys ((AL.pop g.ady u).map (fun p => (p.1, sdisc p.2 u)))).Nodup := by
    have he : AL.keys ((AL.pop g.ady u).map (fun p => (p.1, sdisc p.2 u)))
        = AL.keys (AL.pop g.ady u) := by
      unfold AL.keys
      rw [List.map_map]
      rfl
    rw [he]
    exact AL.nodup_keys_pop _ _ hk
  unfold eliminar_nodo adyOf AL.getD
  simp only
  rw [AL.get?_filter _ _ hknd, AL.get?_map_sdisc, AL.get?_pop _ _ _ hk]
  by_cases ha : a = u
  · simp [ha]
  · rw [if_neg ha]
    rcases h : AL.get? g.ady a with _ | row
    · simp [ha]
    · simp only [Option.map_some', Option.some_bind]
      by_cases hrow : sdisc row u = []
      · rw [if_neg (by simpa using hrow)]
        simp only [Option.getD_none, Option.getD_some, List.not_mem_nil, false_iff]
        rintro ⟨hb, -, hbu⟩
        rw [List.eq_nil_iff_forall_not_mem] at hrow
        exact hrow b (mem_sdisc.mpr ⟨hb, hbu⟩)
      · rw [if_pos (by simpa using hrow)]
        simp only [Option.getD_some, mem_sdisc]
        constructor
        · rintro ⟨hb, hbu⟩
          exact ⟨hb, ha, hbu⟩
        · rintro ⟨hb, -, hbu⟩
          exact ⟨hb, hbu⟩

theorem mem_getD_set (l : AL (List Int)) (k a b : Int) (r : List Int) :
    b ∈ AL.getD (AL.set l k r) a [] ↔ (a = k ∧ b ∈ r) ∨ (a ≠ k ∧ b ∈ AL.getD l a []) := by
  unfold AL.getD
  rw [AL.get?_set]
  by_cases h : a = k <;> simp [h]

theorem mem_adyOf_establecer (g : Net) (u v c a b : Int) (hc : 0 < c) :
    b ∈ adyOf (establecer_capacidad g u v c) a
      ↔ b ∈ adyOf g a ∨ (a = u ∧ b = v) ∨ (a = v ∧ b = u) := by
  have h0 : adyOf (establecer_capacidad g u v c) a
      = AL.getD ((AL.set g.ady u (sadd (AL.getD g.ady u []) v)).set v
          (sadd (AL.getD (AL.set g.ady u (sadd (AL.getD g.ady u []) v)) v []) u)) a [] := by
    unfold establecer_capacidad adyOf
    rw [if_neg (by omega), if_neg (by omega)]
  have e1 : AL.getD (AL.set g.ady u (sadd (AL.getD g.ady u []) v)) v []
      = if v = u then sadd (AL.getD g.ady u []) v else AL.getD g.ady v [] := by
    unfold AL.getD
    rw [AL.get?_set]
    by_cases h : v = u <;> simp [h]
  rw [h0, mem_getD_set, e1, mem_getD_set]
  simp only [adyOf, mem_sadd]
  by_cases hvu : v = u <;> by_cases hav : a = v <;> by_cases hau : a = u <;>
    simp_all [mem_sadd]

theorem capEnt_establecer (g : Net) (u v c a b : Int) (hc : 0 < c) :
    tabEnt (establecer_capacidad g u v c).capacidad a b
      = if a = u ∧ b = v then some c else tabEnt g.capacidad a b := by
  unfold establecer_capacidad
  rw [if_neg (by omega), if_neg (by omega)]
  exact tabEnt_tabSet g.capacidad u v c a b

theorem tabGet_initZero (t : AL (AL Int)) (u v a b : Int) :
    tabGet (if (AL.get? (t.getD u []) v).isSome then t
      else t.set u (AL.set (t.getD u []) v 0)) a b = tabGet t a b := by
  by_cases hs : (AL.get? (t.getD u []) v).isSome
  · rw [if_pos hs]
  · rw [if_neg hs]
    have hnone : AL.get? (t.getD u []) v = none := by
      rcases h : AL.get? (t.getD u []) v with _ | w
      · rfl
      · rw [h] at hs
        simp at hs
    rw [show AL.set t u (AL.set (t.getD u []) v 0) = tabSet t u v 0 from rfl,
      tabGet_tabSet]
    by_cases h : a = u ∧ b = v
    · obtain ⟨rfl, rfl⟩ := h
      rw [if_pos ⟨rfl, rfl⟩, tabGet_eq_ent]
      unfold tabEnt
      rw [hnone]
      rfl
    · rw [if_neg h]

theorem tabGet_flujo_establecer (g : Net) (u v c a b : Int) :
    tabGet (establecer_capacidad g u v c).flujo a b = tabGet g.flujo a b := by
  unfold establecer_capacidad
  by_cases h1 : c < 0
  · rw [if_pos h1]
  rw [if_neg h1]
  by_cases h2 : c = 0
  · rw [if_pos h2]
    rfl
  rw [if_neg h2]
  dsimp only
  rw [tabGet_initZero, tabGet_initZero]

end Net


/-! ## Well-formedness: semantic corollaries and preservation -/

namespace AL

theorem keys_map_ifpop (l : AL (AL Int)) (u v : Int) :
    keys (l.map (fun p => if p.1 = u then (p.1, pop p.2 v) else p)) = keys l := by
  induction l with
  | nil => rfl
  | cons a l ih =>
    obtain ⟨ak, av⟩ := a
    by_cases h : ak = u <;> simp [keys, h] <;> simpa [keys] using ih

theorem keys_map_snd (f : Int → AL Int → AL Int) (l : AL (AL Int)) :
    keys (l.map (fun p => (p.1, f p.1 p.2))) = keys l := by
  unfold keys
  rw [List.map_map]
  rfl

theorem keys_map_snd_ady (f : Int → List Int → List Int) (l : AL (List Int)) :
    keys (l.map (fun p => (p.1, f p.1 p.2))) = keys l := by
  unfold keys
  rw [List.map_map]
  rfl

end AL

namespace Net

theorem adyOf_eq_of_mem {g : Net} (hk : (AL.keys g.ady).Nodup) {p : Int × List Int}
    (hp : p ∈ g.ady) : adyOf g p.1 = p.2 := by
  unfold adyOf AL.getD
  rw [AL.get?_of_mem_nodup hk hp]
  rfl

theorem tabEnt_of_mem {t : AL (AL Int)} (hk : (AL.keys t).Nodup)
    (hr : ∀ p ∈ t, (AL.keys p.2).Nodup) {p : Int × AL Int} {q : Int × Int}
    (hp : p ∈ t) (hq : q ∈ p.2) : tabEnt t p.1 q.1 = some q.2 := by
  unfold tabEnt AL.getD
  rw [AL.get?_of_mem_nodup hk hp]
  exact AL.get?_of_mem_nodup (hr p hp) hq

theorem mem_of_tabEnt {t : AL (AL Int)} {a b c : Int}
    (h : tabEnt t a b = some c) : ∃ row, (a, row) ∈ t ∧ (b, c) ∈ row := by
  unfold tabEnt AL.getD at h
  rcases hrow : AL.get? t a with _ | row
  · rw [hrow] at h
    simp [AL.get?] at h
  · rw [hrow] at h
    exact ⟨row, AL.mem_of_get?_eq_some hrow, AL.mem_of_get?_eq_some h⟩

theorem WF.adyMem {g : Net} (hg : WF g) {u v : Int} (h : v ∈ adyOf g u) :
    u ∈ adyOf g v := by
  unfold adyOf AL.getD at h
  rcases hrow : AL.get? g.ady u with _ | row
  · rw [hrow] at h
    simp at h
  · rw [hrow] at h
    exact hg.adySym _ (AL.mem_of_get?_eq_some hrow) v h

theorem WF.capEntPos {g : Net} (hg : WF g) {u v c : Int}
    (h : tabEnt g.capacidad u v = some c) : 0 < c := by
  rcases mem_of_tabEnt h with ⟨row, hrow, hent⟩
  exact hg.capPos _ hrow _ hent

theorem WF.capEntAdy {g : Net} (hg : WF g) {u v c : Int}
    (h : tabEnt g.capacidad u v = some c) : v ∈ adyOf g u := by
  rcases mem_of_tabEnt h with ⟨row, hrow, hent⟩
  exact hg.capAdy _ hrow _ hent

theorem WF.capGetNonneg {g : Net} (hg : WF g) (u v : Int) :
    0 ≤ tabGet g.capacidad u v := by
  rw [tabGet_eq_ent]
  rcases h : tabEnt g.capacidad u v with _ | c
  · simp
  · simpa using le_of_lt (hg.capEntPos h)

theorem WF.capGetAdy {g : Net} (hg : WF g) {u v : Int}
    (h : 0 < tabGet g.capacidad u v) : v ∈ adyOf g u := by
  rw [tabGet_eq_ent] at h
  rcases he : tabEnt g.capacidad u v with _ | c
  · rw [he] at h
    simp at h
  · exact hg.capEntAdy he

theorem wf_empty : WF Net.empty := by
  constructor <;> simp [Net.empty, AL.keys]

theorem wf_agregar_nodo {g : Net} (hg : WF g) (u : Int) : WF (g.agregar_nodo u) := by
  refine ⟨hg.capPos, hg.capKeys, hg.capRows, hg.flKeys, hg.flRows, hg.adyKeys,
    hg.adyRows, nodup_sadd u hg.nodosNodup, hg.adySym, hg.capAdy⟩

theorem wf_eliminar_arista {g : Net} (hg : WF g) (u v : Int) :
    WF (g.eliminar_arista u v) := by
  have hmem : ∀ p ∈ (g.eliminar_arista u v).capacidad,
      ∃ p0 ∈ g.capacidad, p.1 = p0.1 ∧ ∀ q ∈ p.2, q ∈ p0.2 := by
    intro p hp
    unfold eliminar_arista at hp
    simp only at hp
    rcases List.mem_map.mp hp with ⟨p0, hp0, hf⟩
    by_cases h : p0.1 = u
    · rw [if_pos h] at hf
      exact ⟨p0, hp0, by rw [← hf], by rw [← hf]; exact fun q hq => AL.mem_pop _ _ hq⟩
    · rw [if_neg h] at hf
      exact ⟨p0, hp0, by rw [← hf], by rw [← hf]; exact fun q hq => hq⟩
  constructor
  · intro p hp q hq
    rcases hmem p hp with ⟨p0, hp0, -, hsub⟩
    exact hg.capPos p0 hp0 q (hsub q hq)
  · show (AL.keys (g.capacidad.map _)).Nodup
    rw [AL.keys_map_ifpop]
    exact hg.capKeys
  · intro p hp
    unfold eliminar_arista at hp
    simp only at hp
    rcases List.mem_map.mp hp with ⟨p0, hp0, hf⟩
    by_cases h : p0.1 = u
    · rw [if_pos h] at hf
      rw [← hf]
      exact AL.nodup_keys_pop _ _ (hg.capRows p0 hp0)
    · rw [if_neg h] at hf
      rw [← hf]
      exact hg.capRows p0 hp0
  · exact hg.flKeys
  · exact hg.flRows
  · exact hg.adyKeys
  · exact hg.adyRows
  · exact hg.nodosNodup
  · exact hg.adySym
  · intro p hp q hq
    rcases hmem p hp with ⟨p0, hp0, he, hsub⟩
    rw [he]
    exact hg.capAdy p0 hp0 q (hsub q hq)

theorem wf_eliminar_nodo {g : Net} (hg : WF g) (u : Int) :
    WF (g.eliminar_nodo u) := by
  have hmemT : ∀ (t : AL (AL Int)), ∀ p ∈ (AL.pop t u).map (fun p => (p.1, AL.pop p.2 u)),
      ∃ p0 ∈ t, p.1 = p0.1 ∧ ∀ q ∈ p.2, q ∈ p0.2 := by
    intro t p hp
    rcases List.mem_map.mp hp with ⟨p0, hp0, hf⟩
    exact ⟨p0, AL.mem_pop _ _ hp0, by rw [← hf], by
      rw [← hf]; exact fun q hq => AL.mem_pop _ _ hq⟩
  have hkeysT : ∀ (t : AL (AL Int)), (AL.keys t).Nodup →
      (AL.keys ((AL.pop t u).map (fun p => (p.1, AL.pop p.2 u)))).Nodup := by
    intro t ht
    have he : AL.keys ((AL.pop t u).map (fun p => (p.1, AL.pop p.2 u)))
        = AL.keys (AL.pop t u) := by
      unfold AL.keys
      rw [List.map_map]
      rfl
    rw [he]
    exact AL.nodup_keys_pop _ _ ht
  have hsem : ∀ a b, b ∈ adyOf (g.eliminar_nodo u) a → a ∈ adyOf (g.eliminar_nodo u) b := by
    intro a b h
    rw [mem_adyOf_eliminar_nodo _ _ _ _ hg.adyKeys] at h ⊢
    exact ⟨hg.adyMem h.1, h.2.2, h.2.1⟩
  have hadyK : (AL.keys (g.eliminar_nodo u).ady).Nodup := by
    show (AL.keys (List.filter _ _)).Nodup
    have hsub : (AL.keys (List.filter (fun p => p.2 ≠ [])
        ((AL.pop g.ady u).map (fun p => (p.1, sdisc p.2 u))))).Sublist
        (AL.keys ((AL.pop g.ady u).map (fun p => (p.1, sdisc p.2 u)))) := by
      unfold AL.keys
      exact (List.filter_sublist _).map _
    refine hsub.nodup ?_
    have he : AL.keys ((AL.pop g.ady u).map (fun p => (p.1, sdisc p.2 u)))
        = AL.keys (AL.pop g.ady u) := by
      unfold AL.keys
      rw [List.map_map]
      rfl
    rw [he]
    exact AL.nodup_keys_pop _ _ hg.adyKeys
  constructor
  · intro p hp q hq
    rcases hmemT g.capacidad p hp with ⟨p0, hp0, -, hsub⟩
    exact hg.capPos p0 hp0 q (hsub q hq)
  · exact hkeysT g.capacidad hg.capKeys
  · intro p hp
    rcases List.mem_map.mp hp with ⟨p0, hp0, hf⟩
    rw [← hf]
    exact AL.nodup_keys_pop _ _ (hg.capRows p0 (AL.mem_pop _ _ hp0))
  · exact hkeysT g.flujo hg.flKeys
  · intro p hp
    rcases List.mem_map.mp hp with ⟨p0, hp0, hf⟩
    rw [← hf]
    exact AL.nodup_keys_pop _ _ (hg.flRows p0 (AL.mem_pop _ _ hp0))
  · exact hadyK
  · intro p hp
    rcases List.mem_filter.mp hp with ⟨hp1, -⟩
    rcases List.mem_map.mp hp1 with ⟨p0, hp0, hf⟩
    rw [← hf]
    exact nodup_sdisc _ (hg.adyRows p0 (AL.mem_pop _ _ hp0))
  · exact nodup_sdisc _ hg.nodosNodup
  · intro p hp x hx
    have hx2 : x ∈ adyOf (g.eliminar_nodo u) p.1 := by
      rw [adyOf_eq_of_mem hadyK hp]
      exact hx
    exact hsem p.1 x hx2
  · intro p hp q hq
    have hent : tabEnt (g.eliminar_nodo u).capacidad p.1 q.1 = some q.2 := by
      refine tabEnt_of_mem (hkeysT g.capacidad hg.capKeys) ?_ hp hq
      intro r hr
      rcases List.mem_map.mp hr with ⟨p0, hp0, hf⟩
      rw [← hf]
      exact AL.nodup_keys_pop _ _ (hg.capRows p0 (AL.mem_pop _ _ hp0))
    rw [show (g.eliminar_nodo u).capacidad
        = (AL.pop g.capacidad u).map (fun p => (p.1, AL.pop p.2 u)) from rfl] at hent
    rw [tabEnt_popNode _ _ _ _ hg.capKeys hg.capRows] at hent
    by_cases hcase : p.1 = u ∨ q.1 = u
    · rw [if_pos hcase] at hent
      exact absurd hent (by simp)
    · rw [if_neg hcase] at hent
      push_neg at hcase
      rw [mem_adyOf_eliminar_nodo _ _ _ _ hg.adyKeys]
      exact ⟨hg.capEntAdy hent, hcase.1, hcase.2⟩

theorem wf_initZero (t : AL (AL Int)) (u v : Int)
    (hk : (AL.keys t).Nodup) (hr : ∀ p ∈ t, (AL.keys p.2).Nodup) :
    (AL.keys (if (AL.get? (t.getD u []) v).isSome then t
      else t.set u (AL.set (t.getD u []) v 0))).Nodup
    ∧ ∀ p ∈ (if (AL.get? (t.getD u []) v).isSome then t
      else t.set u (AL.set (t.getD u []) v 0)), (AL.keys p.2).Nodup := by
  split
  · exact ⟨hk, hr⟩
  · constructor
    · exact AL.nodup_keys_set _ _ _ hk
    · intro p hp
      rcases AL.mem_set _ _ _ hp with h | h
      · exact hr p h
      · rw [h]
        refine AL.nodup_keys_set _ _ _ ?_
        unfold AL.getD
        rcases hrow : AL.get? t u with _ | row
        · simp [AL.keys]
        · exact hr _ (AL.mem_of_get?_eq_some hrow)

theorem wf_establecer {g : Net} (hg : WF g) (u v c : Int) :
    WF (g.establecer_capacidad u v c) := by
  by_cases h1 : c < 0
  · unfold establecer_capacidad
    rw [if_pos h1]
    exact hg
  by_cases h2 : c = 0
  · unfold establecer_capacidad
    rw [if_neg h1, if_pos h2]
    exact wf_eliminar_arista hg u v
  have hc : 0 < c := by omega
  have hrowc : ∀ q ∈ AL.getD g.capacidad u [], 0 < q.2 := by
    unfold AL.getD
    rcases hrow : AL.get? g.capacidad u with _ | row
    · simp
    · exact hg.capPos _ (AL.mem_of_get?_eq_some hrow)
  have hrowndC : (AL.keys (AL.getD g.capacidad u [])).Nodup := by
    unfold AL.getD
    rcases hrow : AL.get? g.capacidad u with _ | row
    · simp [AL.keys]
    · exact hg.capRows _ (AL.mem_of_get?_eq_some hrow)
  have hadyrow : ∀ w, (AL.getD g.ady w []).Nodup := by
    intro w
    unfold AL.getD
    rcases hrow : AL.get? g.ady w with _ | row
    · simp
    · exact hg.adyRows _ (AL.mem_of_get?_eq_some hrow)
  have hcapE : ∀ a b x, tabEnt (g.establecer_capacidad u v c).capacidad a b = some x →
      (a = u ∧ b = v) ∨ tabEnt g.capacidad a b = some x := by
    intro a b x h
    rw [capEnt_establecer _ _ _ _ _ _ hc] at h
    by_cases hab : a = u ∧ b = v
    · exact Or.inl hab
    · rw [if_neg hab] at h
      exact Or.inr h
  have hflu := wf_initZero g.flujo u v hg.flKeys hg.flRows
  have hady1 : (AL.keys (g.establecer_capacidad u v c).ady).Nodup := by
    have : (g.establecer_capacidad u v c).ady
        = (AL.set g.ady u (sadd (AL.getD g.ady u []) v)).set v
            (sadd (AL.getD (AL.set g.ady u (sadd (AL.getD g.ady u []) v)) v []) u) := by
      unfold establecer_capacidad
      rw [if_neg h1, if_neg h2]
    rw [this]
    exact AL.nodup_keys_set _ _ _ (AL.nodup_keys_set _ _ _ hg.adyKeys)
  have hsem : ∀ a b, b ∈ adyOf (g.establecer_capacidad u v c) a →
      a ∈ adyOf (g.establecer_capacidad u v c) b := by
    intro a b h
    rw [mem_adyOf_establecer _ _ _ _ _ _ hc] at h ⊢
    rcases h with h | ⟨rfl, rfl⟩ | ⟨rfl, rfl⟩
    · exact Or.inl (hg.adyMem h)
    · exact Or.inr (Or.inr ⟨rfl, rfl⟩)
    · exact Or.inr (Or.inl ⟨rfl, rfl⟩)
  have hcapK : (AL.keys (g.establecer_capacidad u v c).capacidad).Nodup := by
    have : (g.establecer_capacidad u v c).capacidad
        = g.capacidad.set u (AL.set (g.capacidad.getD u []) v c) := by
      unfold establecer_capacidad
      rw [if_neg h1, if_neg h2]
    rw [this]
    exact AL.nodup_keys_set _ _ _ hg.capKeys
  have hcapR : ∀ p ∈ (g.establecer_capacidad u v c).capacidad, (AL.keys p.2).Nodup := by
    have he : (g.establecer_capacidad u v c).capacidad
        = g.capacidad.set u (AL.set (g.capacidad.getD u []) v c) := by
      unfold establecer_capacidad
      rw [if_neg h1, if_neg h2]
    rw [he]
    intro p hp
    rcases AL.mem_set _ _ _ hp with h | h
    · exact hg.capRows p h
    · rw [h]
      exact AL.nodup_keys_set _ _ _ hrowndC
  constructor
  · have he : (g.establecer_capacidad u v c).capacidad
        = g.capacidad.set u (AL.set (g.capacidad.getD u []) v c) := by
      unfold establecer_capacidad
      rw [if_neg h1, if_neg h2]
    rw [he]
    intro p hp q hq
    rcases AL.mem_set _ _ _ hp with h | h
    · exact hg.capPos p h q hq
    · rw [h] at hq
      rcases AL.mem_set _ _ _ hq with h3 | h3
      · exact hrowc q h3
      · rw [h3]
        exact hc
  · exact hcapK
  · exact hcapR
  · have he : (g.establecer_capacidad u v c).flujo
        = (if (AL.get? ((if (AL.get? (g.flujo.getD u []) v).isSome then g.flujo
            else g.flujo.set u (AL.set (g.flujo.getD u []) v 0)).getD v []) u).isSome
          then (if (AL.get? (g.flujo.getD u []) v).isSome then g.flujo
            else g.flujo.set u (AL.set (g.flujo.getD u []) v 0))
          else (if (AL.get? (g.flujo.getD u []) v).isSome then g.flujo
            else g.flujo.set u (AL.set (g.flujo.getD u []) v 0)).set v
            (AL.set ((if (AL.get? (g.flujo.getD u []) v).isSome then g.flujo
            else g.flujo.set u (AL.set (g.flujo.getD u []) v 0)).getD v []) u 0)) := by
      unfold establecer_capacidad
      rw [if_neg h1, if_neg h2]
    rw [he]
    exact (wf_initZero _ v u hflu.1 hflu.2).1
  · have he : (g.establecer_capacidad u v c).flujo
        = (if (AL.get? ((if (AL.get? (g.flujo.getD u []) v).isSome then g.flujo
            else g.flujo.set u (AL.set (g.flujo.getD u []) v 0)).getD v []) u).isSome
          then (if (AL.get? (g.flujo.getD u []) v).isSome then g.flujo
            else g.flujo.set u (AL.set (g.flujo.getD u []) v 0))
          else (if (AL.get? (g.flujo.getD u []) v).isSome then g.flujo
            else g.flujo.set u (AL.set (g.flujo.getD u []) v 0)).set v
            (AL.set ((if (AL.get? (g.flujo.getD u []) v).isSome then g.flujo
            else g.flujo.set u (AL.set (g.flujo.getD u []) v 0)).getD v []) u 0)) := by
      unfold establecer_capacidad
      rw [if_neg h1, if_neg h2]
    rw [he]
    exact (wf_initZero _ v u hflu.1 hflu.2).2
  · exact hady1
  · have he : (g.establecer_capacidad u v c).ady
        = (AL.set g.ady u (sadd (AL.getD g.ady u []) v)).set v
            (sadd (AL.getD (AL.set g.ady u (sadd (AL.getD g.ady u []) v)) v []) u) := by
      unfold establecer_capacidad
      rw [if_neg h1, if_neg h2]
    rw [he]
    intro p hp
    rcases AL.mem_set _ _ _ hp with h | h
    · rcases AL.mem_set _ _ _ h with h3 | h3
      · exact hg.adyRows p h3
      · rw [h3]
        exact nodup_sadd _ (hadyrow u)
    · rw [h]
      refine nodup_sadd _ ?_
      unfold AL.getD
      rw [AL.get?_set]
      by_cases hvu : v = u
      · rw [if_pos hvu]
        exact nodup_sadd _ (hadyrow u)
      · rw [if_neg hvu]
        exact hadyrow v
  · have he : (g.establecer_capacidad u v c).nodos = sadd (sadd g.nodos u) v := by
      unfold establecer_capacidad
      rw [if_neg h1, if_neg h2]
    rw [he]
    exact nodup_sadd _ (nodup_sadd _ hg.nodosNodup)
  · intro p hp x hx
    have hx2 : x ∈ adyOf (g.establecer_capacidad u v c) p.1 := by
      rw [adyOf_eq_of_mem hady1 hp]
      exact hx
    exact hsem p.1 x hx2
  · intro p hp q hq
    have hent : tabEnt (g.establecer_capacidad u v c).capacidad p.1 q.1 = some q.2 :=
      tabEnt_of_mem hcapK hcapR hp hq
    rcases hcapE _ _ _ hent with ⟨ha, hb⟩ | hold
    · rw [ha, hb, mem_adyOf_establecer _ _ _ _ _ _ hc]
      exact Or.inr (Or.inl ⟨rfl, rfl⟩)
    · rw [mem_adyOf_establecer _ _ _ _ _ _ hc]
      exact Or.inl (hg.capEntAdy hold)

theorem wf_agregar_arista {g : Net} (hg : WF g) (u v c : Int) :
    WF (g.agregar_arista u v c) := by
  unfold agregar_arista
  split
  · exact hg
  · exact wf_establecer hg u v _

theorem wf_aplicarOp {g : Net} (hg : WF g) (o : Op) : WF (aplicarOp g o) := by
  cases o with
  | addNode u => exact wf_agregar_nodo hg u
  | removeNode u => exact wf_eliminar_nodo hg u
  | setCap u v c => exact wf_establecer hg u v c
  | addE u v c => exact wf_agregar_arista hg u v c
  | removeEdge u v => exact wf_eliminar_arista hg u v

theorem wf_aplicarOps {g : Net} (hg : WF g) (ops : List Op) : WF (aplicarOps g ops) := by
  induction ops generalizing g with
  | nil => exact hg
  | cons o ops ih => exact ih (wf_aplicarOp hg o)

end Net


/-! ## `aristas`: permutation with the stored table and sortedness -/

namespace Net

theorem filterMap_pos_row (u : Int) (row : AL Int) (hpos : ∀ q ∈ row, 0 < q.2) :
    row.filterMap (fun q => if q.2 > 0 then some (u, q.1, q.2) else none)
      = row.map (fun q => (u, q.1, q.2)) := by
  induction row with
  | nil => rfl
  | cons q l ih =>
    have hq : 0 < q.2 := hpos q (List.mem_cons_self _ _)
    simp only [List.filterMap_cons, List.map_cons, if_pos hq]
    rw [ih (fun r hr => hpos r (List.mem_cons_of_mem _ hr))]

theorem flatMap_pos (t : AL (AL Int)) (hpos : ∀ p ∈ t, ∀ q ∈ p.2, 0 < q.2) :
    t.flatMap (fun p =>
        p.2.filterMap (fun q => if q.2 > 0 then some (p.1, q.1, q.2) else none))
      = t.flatMap (fun p => p.2.map (fun q => (p.1, q.1, q.2))) := by
  induction t with
  | nil => rfl
  | cons p l ih =>
    simp only [List.flatMap_cons]
    rw [filterMap_pos_row p.1 p.2 (hpos p (List.mem_cons_self _ _)),
      ih (fun r hr => hpos r (List.mem_cons_of_mem _ hr))]

theorem aristas_perm_stored (g : Net)
    (hpos : ∀ p ∈ g.capacidad, ∀ q ∈ p.2, 0 < q.2) :
    (aristas g).Perm (storedTriples g) := by
  unfold aristas storedTriples
  refine (List.perm_insertionSort _ _).trans ?_
  rw [flatMap_pos g.capacidad hpos]

theorem aristas_sorted (g : Net) : (aristas g).Sorted tripLe :=
  List.sorted_insertionSort tripLe _

/-- The `(u, v)` pairs produced by flattening a table with duplicate-free outer
keys and duplicate-free row keys form a duplicate-free list. -/
theorem pairs_nodup (t : AL (AL Int))
    (hk : (AL.keys t).Nodup) (hr : ∀ p ∈ t, (AL.keys p.2).Nodup) :
    (t.flatMap (fun p => p.2.map (fun q => (p.1, q.1)))).Nodup := by
  induction t with
  | nil => simp
  | cons p l ih =>
    obtain ⟨pk, prow⟩ := p
    simp only [List.flatMap_cons, List.nodup_append]
    simp only [AL.keys, List.map_cons, List.nodup_cons] at hk
    have hrow : (AL.keys prow).Nodup := hr (pk, prow) (List.mem_cons_self _ _)
    refine ⟨?_, ih hk.2 (fun r hr2 => hr r (List.mem_cons_of_mem _ hr2)), ?_⟩
    · have hinj := List.inj_on_of_nodup_map (f := Prod.fst) hrow
      rw [List.nodup_map_iff_inj_on (hrow.of_map Prod.fst)]
      intro q1 h1 q2 h2 hq
      exact hinj h1 h2 (congrArg Prod.snd hq)
    · intro x hx1 hx2
      rcases List.mem_map.mp hx1 with ⟨q, -, hq⟩
      rcases List.mem_flatMap.mp hx2 with ⟨p2, hp2, hx3⟩
      rcases List.mem_map.mp hx3 with ⟨q2, -, hq2⟩
      apply hk.1
      have heq : pk = p2.1 := by
        rw [← hq] at hq2
        exact (congrArg Prod.fst hq2).symm
      rw [heq]
      exact List.mem_map_of_mem Prod.fst hp2

end Net


namespace AL

theorem not_mem_keys_pop (l : AL α) (u : Int) (hl : (keys l).Nodup) :
    u ∉ keys (pop l u) := by
  rw [← isSome_get?_iff, get?_pop _ _ _ hl, if_pos rfl]
  simp

end AL

namespace Net

theorem map_pairs_stored (t : AL (AL Int)) :
    (t.flatMap (fun p => p.2.map (fun q => (p.1, q.1, q.2)))).map (fun e => (e.1, e.2.1))
      = t.flatMap (fun p => p.2.map (fun q => (p.1, q.1))) := by
  induction t with
  | nil => rfl
  | cons p l ih =>
    simp only [List.flatMap_cons, List.map_append, List.map_map]
    rw [ih]
    rfl

theorem aristas_pairwise_lt (g : Net) (hg : WF g) : (aristas g).Pairwise pairLt := by
  have hs := aristas_sorted g
  have hnd : ((aristas g).map (fun e => (e.1, e.2.1))).Nodup := by
    have hperm : ((aristas g).map (fun e => (e.1, e.2.1))).Perm
        ((storedTriples g).map (fun e => (e.1, e.2.1))) :=
      (aristas_perm_stored g hg.capPos).map _
    rw [hperm.nodup_iff]
    rw [show (storedTriples g).map (fun e => (e.1, e.2.1))
        = g.capacidad.flatMap (fun p => p.2.map (fun q => (p.1, q.1))) from
      map_pairs_stored g.capacidad]
    exact pairs_nodup _ hg.capKeys hg.capRows
  have hne : (aristas g).Pairwise (fun a b => (a.1, a.2.1) ≠ (b.1, b.2.1)) :=
    (List.pairwise_map).mp hnd
  have hcomb := hs.and hne
  refine hcomb.imp ?_
  intro a b h
  rcases h with ⟨h1, h2⟩
  unfold tripLe at h1
  unfold pairLt
  rw [Ne, Prod.ext_iff] at h2
  simp only [not_and] at h2
  by_cases he : a.1 = b.1
  · rcases h1 with h1 | ⟨-, h3⟩
    · exact Or.inl h1
    · rcases h3 with h3 | ⟨h4, -⟩
      · exact Or.inr ⟨he, h3⟩
      · exact absurd h4 (by simpa using h2 he)
  · rcases h1 with h1 | ⟨h1, -⟩
    · exact Or.inl h1
    · exact absurd h1 he

theorem wf_ejemploA : WF ejemploA :=
  wf_aplicarOps wf_empty
    [.setCap 0 1 10, .setCap 0 2 10, .setCap 1 3 8, .setCap 2 3 8, .setCap 1 2 1]

/-- C7: after every sequence of `addNode`/`removeNode`/`setCapacity`/`addEdge`/
`removeEdge` calls with non-negative capacity arguments, starting from the empty
network, the capacity table stores no value that is not positive, and `aristas`
(`listEdges`) returns exactly the stored edge triples — all of them with
positive capacity — sorted strictly ascending by the `(u, v)` key. -/
theorem C7_listEdges_positive_sorted (ops : List Op)
    (hops : ∀ o ∈ ops, opNonNeg o) :
    (∀ p ∈ (aplicarOps Net.empty ops).capacidad, ∀ q ∈ p.2, 0 < q.2)
    ∧ (aristas (aplicarOps Net.empty ops)).Perm
        (storedTriples (aplicarOps Net.empty ops))
    ∧ (aristas (aplicarOps Net.empty ops)).Pairwise pairLt := by
  have hg := wf_aplicarOps wf_empty ops
  exact ⟨hg.capPos, aristas_perm_stored _ hg.capPos, aristas_pairwise_lt _ hg⟩

theorem C7_witness :
    (∀ o ∈ [Op.setCap 0 1 10, Op.addE 0 1 5, Op.removeEdge 0 1,
        Op.setCap 2 3 4, Op.addNode 7, Op.removeNode 3], opNonNeg o)
    ∧ ((∀ p ∈ (aplicarOps Net.empty [Op.setCap 0 1 10, Op.addE 0 1 5, Op.removeEdge 0 1,
        Op.setCap 2 3 4, Op.addNode 7, Op.removeNode 3]).capacidad, ∀ q ∈ p.2, 0 < q.2)
    ∧ (aristas (aplicarOps Net.empty [Op.setCap 0 1 10, Op.addE 0 1 5, Op.removeEdge 0 1,
        Op.setCap 2 3 4, Op.addNode 7, Op.removeNode 3])).Perm
        (storedTriples (aplicarOps Net.empty [Op.setCap 0 1 10, Op.addE 0 1 5, Op.removeEdge 0 1,
        Op.setCap 2 3 4, Op.addNode 7, Op.removeNode 3]))
    ∧ (aristas (aplicarOps Net.empty [Op.setCap 0 1 10, Op.addE 0 1 5, Op.removeEdge 0 1,
        Op.setCap 2 3 4, Op.addNode 7, Op.removeNode 3])).Pairwise pairLt) :=
  ⟨by decide, C7_listEdges_positive_sorted _ (by decide)⟩

/-- C8: after `eliminar_nodo u` (`removeNode`), `u` is gone from the ordered
node list, no listed edge touches `u` as either endpoint, the flow table holds
no row keyed `u` and no inner entry keyed `u`, and no adjacency row is keyed
`u`, contains `u`, or is empty. -/
theorem C8_removeNode_purges (g : Net) (u : Int) (hg : WF g) :
    u ∉ nodosOrd (g.eliminar_nodo u)
    ∧ (∀ e ∈ aristas (g.eliminar_nodo u), e.1 ≠ u ∧ e.2.1 ≠ u)
    ∧ (∀ p ∈ (g.eliminar_nodo u).flujo, p.1 ≠ u ∧ ∀ q ∈ p.2, q.1 ≠ u)
    ∧ (∀ p ∈ (g.eliminar_nodo u).ady, p.1 ≠ u ∧ u ∉ p.2 ∧ p.2 ≠ []) := by
  have hg2 := wf_eliminar_nodo hg u
  refine ⟨?_, ?_, ?_, ?_⟩
  · intro hmem
    unfold nodosOrd at hmem
    rw [(List.perm_insertionSort _ _).mem_iff] at hmem
    rcases mem_sdisc.mp hmem with ⟨-, h⟩
    exact h rfl
  · intro e hmem
    rw [(aristas_perm_stored _ hg2.capPos).mem_iff] at hmem
    unfold storedTriples at hmem
    rcases List.mem_flatMap.mp hmem with ⟨p, hp, he⟩
    rcases List.mem_map.mp he with ⟨q, hq, he2⟩
    rcases List.mem_map.mp hp with ⟨p0, hp0, hf⟩
    have hp1 : p.1 = p0.1 := by rw [← hf]
    have hp2 : p.2 = AL.pop p0.2 u := by rw [← hf]
    have hkey : p.1 ≠ u := by
      rw [hp1]
      intro hcontra
      have hm : p0.1 ∈ AL.keys (AL.pop g.capacidad u) :=
        List.mem_map_of_mem Prod.fst hp0
      rw [hcontra] at hm
      exact AL.not_mem_keys_pop g.capacidad u hg.capKeys hm
    rw [hp2] at hq
    have hq2 : q.1 ≠ u := by
      intro hcontra
      have hm : q.1 ∈ AL.keys (AL.pop p0.2 u) := List.mem_map_of_mem Prod.fst hq
      rw [hcontra] at hm
      exact AL.not_mem_keys_pop p0.2 u (hg.capRows p0 (AL.mem_pop _ _ hp0)) hm
    constructor
    · rw [← he2]
      exact hkey
    · rw [← he2]
      exact hq2
  · intro p hp
    rcases List.mem_map.mp hp with ⟨p0, hp0, hf⟩
    have hp1 : p.1 = p0.1 := by rw [← hf]
    have hp2 : p.2 = AL.pop p0.2 u := by rw [← hf]
    constructor
    · rw [hp1]
      intro hcontra
      have hm : p0.1 ∈ AL.keys (AL.pop g.flujo u) :=
        List.mem_map_of_mem Prod.fst hp0
      rw [hcontra] at hm
      exact AL.not_mem_keys_pop g.flujo u hg.flKeys hm
    · intro q hq hcontra
      rw [hp2] at hq
      have hm : q.1 ∈ AL.keys (AL.pop p0.2 u) := List.mem_map_of_mem Prod.fst hq
      rw [hcontra] at hm
      exact AL.not_mem_keys_pop p0.2 u (hg.flRows p0 (AL.mem_pop _ _ hp0)) hm
  · intro p hp
    rcases List.mem_filter.mp hp with ⟨hp1, hp2⟩
    rcases List.mem_map.mp hp1 with ⟨p0, hp0, hf⟩
    have hq1 : p.1 = p0.1 := by rw [← hf]
    have hq2 : p.2 = sdisc p0.2 u := by rw [← hf]
    refine ⟨?_, ?_, by simpa using hp2⟩
    · rw [hq1]
      intro hcontra
      have hm : p0.1 ∈ AL.keys (AL.pop g.ady u) :=
        List.mem_map_of_mem Prod.fst hp0
      rw [hcontra] at hm
      exact AL.not_mem_keys_pop g.ady u hg.adyKeys hm
    · intro hcontra
      rw [hq2] at hcontra
      exact (mem_sdisc.mp hcontra).2 rfl

theorem C8_witness :
    (WF ejemploA)
    ∧ ((1 : Int) ∉ nodosOrd (ejemploA.eliminar_nodo 1)
    ∧ (∀ e ∈ aristas (ejemploA.eliminar_nodo 1), e.1 ≠ 1 ∧ e.2.1 ≠ 1)
    ∧ (∀ p ∈ (ejemploA.eliminar_nodo 1).flujo, p.1 ≠ 1 ∧ ∀ q ∈ p.2, q.1 ≠ 1)
    ∧ (∀ p ∈ (ejemploA.eliminar_nodo 1).ady, p.1 ≠ 1 ∧ (1 : Int) ∉ p.2 ∧ p.2 ≠ [])) :=
  ⟨wf_ejemploA, C8_removeNode_purges ejemploA 1 wf_ejemploA⟩

/-- C10: `establecer_capacidad u v 0` (and `agregar_arista u v 0` when no edge
`u → v` is stored) leaves the node set, the flow table and the adjacency index
untouched and removes exactly the capacity entry `u → v`; in particular it
never adds `u` or `v` to the node set. -/
theorem C10_setCapacity_zero_is_remove_only (g : Net) (u v : Int)
    (hrows : ∀ p ∈ g.capacidad, (AL.keys p.2).Nodup) :
    ((establecer_capacidad g u v 0).nodos = g.nodos
    ∧ (establecer_capacidad g u v 0).flujo = g.flujo
    ∧ (establecer_capacidad g u v 0).ady = g.ady
    ∧ ∀ a b, tabEnt (establecer_capacidad g u v 0).capacidad a b
        = if a = u ∧ b = v then none else tabEnt g.capacidad a b)
    ∧ (tabEnt g.capacidad u v = none →
        agregar_arista g u v 0 = establecer_capacidad g u v 0) := by
  have h0 : establecer_capacidad g u v 0 = eliminar_arista g u v := by
    unfold establecer_capacidad
    rw [if_neg (by omega), if_pos rfl]
  constructor
  · rw [h0]
    exact ⟨rfl, rfl, rfl, fun a b => capEnt_eliminar_arista g u v a b hrows⟩
  · intro hnone
    unfold agregar_arista
    rw [if_neg (by omega)]
    congr 1
    have he : AL.getD (g.capacidad.getD u []) v 0 = 0 := by
      have h2 : AL.get? (AL.getD g.capacidad u []) v = none := hnone
      unfold AL.getD at h2 ⊢
      rw [h2]
      rfl
    rw [he]
    rfl

theorem C10_witness :
    ((∀ p ∈ ejemploA.capacidad, (AL.keys p.2).Nodup) ∧ tabEnt ejemploA.capacidad 0 3 = none)
    ∧ ((establecer_capacidad ejemploA 0 3 0).nodos = ejemploA.nodos
    ∧ (establecer_capacidad ejemploA 0 3 0).flujo = ejemploA.flujo
    ∧ (establecer_capacidad ejemploA 0 3 0).ady = ejemploA.ady
    ∧ (∀ a b, tabEnt (establecer_capacidad ejemploA 0 3 0).capacidad a b
        = if a = 0 ∧ b = 3 then none else tabEnt ejemploA.capacidad a b))
    ∧ agregar_arista ejemploA 0 3 0 = establecer_capacidad ejemploA 0 3 0 :=
  ⟨⟨by decide, by decide⟩,
    (C10_setCapacity_zero_is_remove_only ejemploA 0 3 (by decide)).1,
    (C10_setCapacity_zero_is_remove_only ejemploA 0 3 (by decide)).2 (by decide)⟩

/-- C4: calling either solver with a source or sink outside the node set
returns the `ValueError` and leaves the object state — flow values from a prior
run included — exactly as it was: the membership check runs before the flow
reset. -/
theorem C4_invalid_endpoint_error_no_mutation (g : Net) (fuente sumidero : Int)
    (fuel : Nat) (h : ¬(fuente ∈ g.nodos ∧ sumidero ∈ g.nodos)) :
    ford_fulkerson_dfs g fuente sumidero fuel
        = (g, .error "La Fuente o el Sumidero no existen en el grafo.")
    ∧ edmonds_karp_bfs g fuente sumidero fuel
        = (g, .error "La Fuente o el Sumidero no existen en el grafo.") := by
  unfold ford_fulkerson_dfs edmonds_karp_bfs
  rw [if_neg h, if_neg h]
  exact ⟨rfl, rfl⟩

theorem C4_witness :
    (¬((7 : Int) ∈ (ford_fulkerson_dfs ejemploA 0 3 20).1.nodos
        ∧ (3 : Int) ∈ (ford_fulkerson_dfs ejemploA 0 3 20).1.nodos))
    ∧ ford_fulkerson_dfs (ford_fulkerson_dfs ejemploA 0 3 20).1 7 3 20
        = ((ford_fulkerson_dfs ejemploA 0 3 20).1,
            .error "La Fuente o el Sumidero no existen en el grafo.")
    ∧ edmonds_karp_bfs (ford_fulkerson_dfs ejemploA 0 3 20).1 7 3 20
        = ((ford_fulkerson_dfs ejemploA 0 3 20).1,
            .error "La Fuente o el Sumidero no existen en el grafo.") :=
  ⟨by decide,
    (C4_invalid_endpoint_error_no_mutation _ 7 3 20 (by decide)).1,
    (C4_invalid_endpoint_error_no_mutation _ 7 3 20 (by decide)).2⟩

end Net


/-! ## Source equal to sink: the augmenting loop never terminates -/

namespace Net

theorem dfs_aumento_self (g : Net) (s : Int) (k : Nat) (vis : List Int) (padre : PMap) :
    dfs_aumento g s (k + 1) s vis padre = some (true, vis, padre) := by
  unfold dfs_aumento
  rw [if_pos rfl]

theorem camino_self (padre : PMap) (s : Int) (k : Nat) :
    camino padre s (k + 1) s = some [] := by
  unfold camino
  rw [if_pos rfl]

theorem addOpt_none (a : Option Int) : addOpt a none = none := by
  cases a <;> rfl

theorem ff_bucle_self (g : Net) (s : Int) (fuel : Nat) (fl : AL (AL Int))
    (total : Option Int) : ff_bucle g s s fuel fl total = none := by
  induction fuel generalizing fl total with
  | zero => rfl
  | succ n ih =>
    have hd : dfs_aumento { g with flujo := fl } s
        (dfsFuel { g with flujo := fl }) s [] [] = some (true, [], []) := by
      unfold dfsFuel
      exact dfs_aumento_self _ _ _ _ _
    unfold ff_bucle
    dsimp only
    rw [hd]
    dsimp only
    rw [camino_self]
    dsimp only
    rw [show cuello { g with flujo := fl } [] = none from rfl]
    rw [show aplicarOpt fl [] none = fl from rfl, addOpt_none]
    exact ih fl none

theorem bfs_bucle_found_self (g : Net) (s : Int) (k : Nat) (q' : List Int)
    (padre : PMap) : bfs_bucle g s (k + 1) (s :: q') padre = some (some padre) := by
  change (if s = s then some (some padre)
    else match bfs_explora g s s (intentos (adyOf g s)) q' padre with
      | Sum.inl padre2 => some (some padre2)
      | Sum.inr (q2, padre2) => bfs_bucle g s k q2 padre2) = some (some padre)
  rw [if_pos rfl]

theorem ek_bucle_self (g : Net) (s : Int) (fuel : Nat) (fl : AL (AL Int))
    (total : Option Int) : ek_bucle g s s fuel fl total = none := by
  induction fuel generalizing fl total with
  | zero => rfl
  | succ n ih =>
    have hd : bfs_aumento { g with flujo := fl } s s
        (dfsFuel { g with flujo := fl })
        = some (some (AL.set [] s (s, 0))) := by
      unfold bfs_aumento dfsFuel
      exact bfs_bucle_found_self _ _ _ _ _
    unfold ek_bucle
    dsimp only
    rw [hd]
    dsimp only
    rw [camino_self]
    dsimp only
    rw [show cuello { g with flujo := fl } [] = none from rfl]
    rw [show aplicarOpt fl [] none = fl from rfl, addOpt_none]
    exact ih fl none

theorem solver_self_none (g : Net) (s : Int) (hs : s ∈ g.nodos) (fuel : Nat) :
    (ford_fulkerson_dfs g s s fuel).2 = .ok none
    ∧ (edmonds_karp_bfs g s s fuel).2 = .ok none := by
  unfold ford_fulkerson_dfs edmonds_karp_bfs
  rw [if_pos ⟨hs, hs⟩, if_pos ⟨hs, hs⟩]
  dsimp only
  rw [ff_bucle_self, ek_bucle_self]
  exact ⟨rfl, rfl⟩

/-- C1 fails on the code: with source equal to sink the depth-first search
returns `True` immediately (`actual == sumidero` is checked first), the
bottleneck walk is empty so the bottleneck stays `float("inf")`, and the
`while True` loop never exits; neither solver ever returns a result on the
one-node network, for any amount of fuel. -/
theorem C1_counterexample :
    ¬ ∃ (fuel : Nat) (r : Option Int × List ((Int × Int) × Int)),
      (ford_fulkerson_dfs ejemploUno 0 0 fuel).2 = .ok (some r)
      ∨ (edmonds_karp_bfs ejemploUno 0 0 fuel).2 = .ok (some r) := by
  rintro ⟨fuel, r, h | h⟩
  · rw [(solver_self_none ejemploUno 0 (by decide) fuel).1] at h
    cases h
  · rw [(solver_self_none ejemploUno 0 (by decide) fuel).2] at h
    cases h

/-- C1, amended: for every network whose node set contains `s`, calling
`maxFlowDFS(s, s)` or `maxFlowBFS(s, s)` passes validation but never
terminates — the search reports the trivial augmenting path at once (the
source is the sink), so the loop spins with an infinite bottleneck and an
unchanged flow table; in the fuel model both calls return `none` ("still
running") for every fuel. -/
theorem C1_source_equals_sink_never_terminates (g : Net) (s : Int)
    (hs : s ∈ g.nodos) (fuel : Nat) :
    (ford_fulkerson_dfs g s s fuel).2 = .ok none
    ∧ (edmonds_karp_bfs g s s fuel).2 = .ok none :=
  solver_self_none g s hs fuel

theorem C1_witness :
    ((0 : Int) ∈ ejemploUno.nodos)
    ∧ (ford_fulkerson_dfs ejemploUno 0 0 7).2 = .ok none
    ∧ (edmonds_karp_bfs ejemploUno 0 0 7).2 = .ok none :=
  ⟨by decide, C1_source_equals_sink_never_terminates ejemploUno 0 (by decide) 7⟩

end Net


/-! ## Inverting a successful solver run -/

namespace Net

theorem ff_ok_inv (g : Net) (fuente sumidero : Int) (fuel : Nat)
    (total : Option Int) (m : List ((Int × Int) × Int)) (gf : Net)
    (h : ford_fulkerson_dfs g fuente sumidero fuel = (gf, .ok (some (total, m)))) :
    (fuente ∈ g.nodos ∧ sumidero ∈ g.nodos)
    ∧ ∃ fl, ff_bucle (reiniciar_flujos g) fuente sumidero fuel
        (reiniciar_flujos g).flujo (some 0) = some (total, fl)
      ∧ gf = { reiniciar_flujos g with flujo := fl }
      ∧ m = mapa_flujo g.capacidad fl := by
  unfold ford_fulkerson_dfs at h
  split at h
  case isTrue hv =>
    dsimp only at h
    split at h
    case h_1 heq =>
      simp at h
    case h_2 t2 fl2 heq =>
      rw [Prod.mk.injEq] at h
      obtain ⟨hgf, hok⟩ := h
      simp only [Except.ok.injEq, Option.some.injEq, Prod.mk.injEq] at hok
      obtain ⟨ht, hm⟩ := hok
      exact ⟨hv, fl2, ht ▸ heq, hgf.symm, hm.symm⟩
  case isFalse hv =>
    rw [Prod.mk.injEq] at h
    simp at h

theorem ek_ok_inv (g : Net) (fuente sumidero : Int) (fuel : Nat)
    (total : Option Int) (m : List ((Int × Int) × Int)) (gf : Net)
    (h : edmonds_karp_bfs g fuente sumidero fuel = (gf, .ok (some (total, m)))) :
    (fuente ∈ g.nodos ∧ sumidero ∈ g.nodos)
    ∧ ∃ fl, ek_bucle (reiniciar_flujos g) fuente sumidero fuel
        (reiniciar_flujos g).flujo (some 0) = some (total, fl)
      ∧ gf = { reiniciar_flujos g with flujo := fl }
      ∧ m = mapa_flujo g.capacidad fl := by
  unfold edmonds_karp_bfs at h
  split at h
  case isTrue hv =>
    dsimp only at h
    split at h
    case h_1 heq =>
      simp at h
    case h_2 t2 fl2 heq =>
      rw [Prod.mk.injEq] at h
      obtain ⟨hgf, hok⟩ := h
      simp only [Except.ok.injEq, Option.some.injEq, Prod.mk.injEq] at hok
      obtain ⟨ht, hm⟩ := hok
      exact ⟨hv, fl2, ht ▸ heq, hgf.symm, hm.symm⟩
  case isFalse hv =>
    rw [Prod.mk.injEq] at h
    simp at h

theorem map_fst_mapa_flujo (cap fl : AL (AL Int)) :
    (mapa_flujo cap fl).map Prod.fst
      = cap.flatMap (fun p => p.2.map (fun q => (p.1, q.1))) := by
  unfold mapa_flujo
  induction cap with
  | nil => rfl
  | cons p l ih =>
    simp only [List.flatMap_cons, List.map_append, List.map_map]
    rw [ih]
    rfl

/-- The shape of the returned edge-flow map, as a function of the capacity
table it was built from: exactly one entry per stored pair, clamped values. -/
theorem mapa_flujo_spec (cap fl : AL (AL Int))
    (hk : (AL.keys cap).Nodup) (hr : ∀ p ∈ cap, (AL.keys p.2).Nodup)
    (hpos : ∀ p ∈ cap, ∀ q ∈ p.2, 0 < q.2) :
    ((mapa_flujo cap fl).map Prod.fst).Nodup
    ∧ (∀ a b : Int, (a, b) ∈ (mapa_flujo cap fl).map Prod.fst
        ↔ ∃ c, tabEnt cap a b = some c)
    ∧ ∀ e ∈ mapa_flujo cap fl,
        ∃ c, tabEnt cap e.1.1 e.1.2 = some c ∧ 0 < c ∧ 0 ≤ e.2 ∧ e.2 ≤ c := by
  have hkeys := map_fst_mapa_flujo cap fl
  refine ⟨?_, ?_, ?_⟩
  · rw [hkeys]
    exact pairs_nodup cap hk hr
  · intro a b
    rw [hkeys]
    constructor
    · intro hmem
      rcases List.mem_flatMap.mp hmem with ⟨p, hp, hmem2⟩
      rcases List.mem_map.mp hmem2 with ⟨q, hq, he⟩
      refine ⟨q.2, ?_⟩
      rw [show a = p.1 from (congrArg Prod.fst he).symm,
        show b = q.1 from (congrArg Prod.snd he).symm]
      exact tabEnt_of_mem hk hr hp hq
    · rintro ⟨c, hc⟩
      rcases mem_of_tabEnt hc with ⟨row, hrow, hent⟩
      refine List.mem_flatMap.mpr ⟨(a, row), hrow, ?_⟩
      exact List.mem_map.mpr ⟨(b, c), hent, rfl⟩
  · intro e hmem
    unfold mapa_flujo at hmem
    rcases List.mem_flatMap.mp hmem with ⟨p, hp, hmem2⟩
    rcases List.mem_map.mp hmem2 with ⟨q, hq, he⟩
    have hcpos : 0 < q.2 := hpos p hp q hq
    refine ⟨q.2, ?_, hcpos, ?_, ?_⟩
    · rw [show e.1.1 = p.1 by rw [← he], show e.1.2 = q.1 by rw [← he]]
      exact tabEnt_of_mem hk hr hp hq
    · rw [show e.2 = max 0 (min q.2 (tabGet fl p.1 q.1)) by rw [← he]]
      exact le_max_left 0 _
    · rw [show e.2 = max 0 (min q.2 (tabGet fl p.1 q.1)) by rw [← he]]
      omega

/-- C6: every terminating solver run, with either algorithm, returns an
edge-flow map holding exactly one entry per stored positive-capacity pair
`(u, v)`, each value clamped to `0 ≤ flow ≤ capacity(u, v)`. -/
theorem C6_map_complete_and_clamped (g : Net) (hg : WF g)
    (fuente sumidero : Int) (fuel : Nat) (total : Option Int)
    (m : List ((Int × Int) × Int)) (gf : Net)
    (h : ford_fulkerson_dfs g fuente sumidero fuel = (gf, .ok (some (total, m)))
      ∨ edmonds_karp_bfs g fuente sumidero fuel = (gf, .ok (some (total, m)))) :
    (m.map Prod.fst).Nodup
    ∧ (∀ a b : Int, (a, b) ∈ m.map Prod.fst ↔ ∃ c, tabEnt g.capacidad a b = some c)
    ∧ ∀ e ∈ m, ∃ c, tabEnt g.capacidad e.1.1 e.1.2 = some c ∧ 0 < c ∧ 0 ≤ e.2 ∧ e.2 ≤ c := by
  have hm : ∃ fl, m = mapa_flujo g.capacidad fl := by
    rcases h with h | h
    · exact ⟨(ff_ok_inv g fuente sumidero fuel total m gf h).2.choose,
        (ff_ok_inv g fuente sumidero fuel total m gf h).2.choose_spec.2.2⟩
    · exact ⟨(ek_ok_inv g fuente sumidero fuel total m gf h).2.choose,
        (ek_ok_inv g fuente sumidero fuel total m gf h).2.choose_spec.2.2⟩
  rcases hm with ⟨fl, rfl⟩
  exact mapa_flujo_spec g.capacidad fl hg.capKeys hg.capRows hg.capPos

theorem C6_witness :
    (WF ejemploA
      ∧ ford_fulkerson_dfs ejemploA 0 3 20
          = ((ford_fulkerson_dfs ejemploA 0 3 20).1,
            .ok (some (some 16,
              [((0, 1), 9), ((0, 2), 7), ((1, 3), 8), ((1, 2), 1), ((2, 3), 8)]))))
    ∧ ((([((0, 1), 9), ((0, 2), 7), ((1, 3), 8), ((1, 2), 1),
          ((2, 3), 8)] : List ((Int × Int) × Int)).map Prod.fst).Nodup
    ∧ (∀ a b : Int, (a, b) ∈ ([((0, 1), 9), ((0, 2), 7), ((1, 3), 8), ((1, 2), 1),
          ((2, 3), 8)] : List ((Int × Int) × Int)).map Prod.fst
        ↔ ∃ c, tabEnt ejemploA.capacidad a b = some c)
    ∧ ∀ e ∈ ([((0, 1), 9), ((0, 2), 7), ((1, 3), 8), ((1, 2), 1),
          ((2, 3), 8)] : List ((Int × Int) × Int)),
        ∃ c, tabEnt ejemploA.capacidad e.1.1 e.1.2 = some c ∧ 0 < c ∧ 0 ≤ e.2 ∧ e.2 ≤ c) :=
  ⟨⟨wf_ejemploA, by decide⟩,
    C6_map_complete_and_clamped ejemploA wf_ejemploA 0 3 20 (some 16)
      [((0, 1), 9), ((0, 2), 7), ((1, 3), 8), ((1, 2), 1), ((2, 3), 8)]
      (ford_fulkerson_dfs ejemploA 0 3 20).1 (Or.inl (by decide))⟩

end Net


/-! ## Properties of the backtrack walk `camino` -/

namespace Net

theorem nodup_subset_length {l l2 : List Int} (h : l.Nodup)
    (hs : ∀ x ∈ l, x ∈ l2) : l.length ≤ l2.length := by
  calc l.length = l.toFinset.card := (List.toFinset_card_of_nodup h).symm
  _ ≤ l2.toFinset.card :=
    Finset.card_le_card (fun x hx => List.mem_toFinset.mpr (hs x (List.mem_toFinset.mp hx)))
  _ ≤ l2.length := l2.toFinset_card_le

theorem camino_det (padre : PMap) (fuente : Int) :
    ∀ (f1 f2 : Nat) (v : Int) (s1 s2 : List (Int × Int × Int)),
      camino padre fuente f1 v = some s1 →
      camino padre fuente f2 v = some s2 → s1 = s2 := by
  intro f1
  induction f1 with
  | zero =>
    intro f2 v s1 s2 h1
    cases h1
  | succ n ih =>
    intro f2 v s1 s2 h1 h2
    cases f2 with
    | zero => cases h2
    | succ m =>
      unfold camino at h1 h2
      by_cases hv : v = fuente
      · rw [if_pos hv] at h1 h2
        cases h1
        cases h2
        rfl
      · rw [if_neg hv] at h1 h2
        rcases hp : AL.get? padre v with _ | ud
        · rw [hp] at h1
          cases h1
        · obtain ⟨u, d⟩ := ud
          rw [hp] at h1 h2
          dsimp only at h1 h2
          rcases hr1 : camino padre fuente n u with _ | r1
          · rw [hr1] at h1
            cases h1
          rcases hr2 : camino padre fuente m u with _ | r2
          · rw [hr2] at h2
            cases h2
          rw [hr1] at h1
          rw [hr2] at h2
          simp only [Option.map_some'] at h1 h2
          cases h1
          cases h2
          rw [ih m u r1 r2 hr1 hr2]

theorem camino_mono (padre : PMap) (fuente : Int) :
    ∀ (f k : Nat) (v : Int) (steps : List (Int × Int × Int)),
      camino padre fuente f v = some steps →
      camino padre fuente (f + k) v = some steps := by
  intro f
  induction f with
  | zero =>
    intro k v steps h
    cases h
  | succ n ih =>
    intro k v steps h
    rw [show n + 1 + k = (n + k) + 1 from by omega]
    unfold camino at h ⊢
    by_cases hv : v = fuente
    · rwa [if_pos hv] at h ⊢
    · rw [if_neg hv] at h ⊢
      rcases hp : AL.get? padre v with _ | ud
      · rw [hp] at h
        cases h
      · obtain ⟨u, d⟩ := ud
        rw [hp] at h
        dsimp only at h ⊢
        rcases hr : camino padre fuente n u with _ | r
        · rw [hr] at h
          cases h
        · rw [hr] at h
          rw [ih k u r hr]
          exact h

theorem camino_minfuel (padre : PMap) (fuente : Int) :
    ∀ (f : Nat) (v : Int) (steps : List (Int × Int × Int)),
      camino padre fuente f v = some steps →
      camino padre fuente (steps.length + 1) v = some steps := by
  intro f
  induction f with
  | zero =>
    intro v steps h
    cases h
  | succ n ih =>
    intro v steps h
    unfold camino at h
    by_cases hv : v = fuente
    · rw [if_pos hv] at h
      cases h
      unfold camino
      rw [if_pos hv]
    · rw [if_neg hv] at h
      rcases hp : AL.get? padre v with _ | ud
      · rw [hp] at h
        cases h
      · obtain ⟨u, d⟩ := ud
        rw [hp] at h
        dsimp only at h
        rcases hr : camino padre fuente n u with _ | r
        · rw [hr] at h
          cases h
        · rw [hr] at h
          simp only [Option.map_some'] at h
          cases h
          show camino padre fuente (r.length + 1 + 1) v = _
          unfold camino
          rw [if_neg hv, hp]
          dsimp only
          rw [ih u r hr]
          rfl

theorem camino_mem (padre : PMap) (fuente : Int) :
    ∀ (f : Nat) (v : Int) (steps : List (Int × Int × Int)),
      camino padre fuente f v = some steps →
      ∀ s ∈ steps, AL.get? padre s.2.1 = some (s.1, s.2.2) := by
  intro f
  induction f with
  | zero =>
    intro v steps h
    cases h
  | succ n ih =>
    intro v steps h s hs
    unfold camino at h
    by_cases hv : v = fuente
    · rw [if_pos hv] at h
      cases h
      cases hs
    · rw [if_neg hv] at h
      rcases hp : AL.get? padre v with _ | ud
      · rw [hp] at h
        cases h
      · obtain ⟨u, d⟩ := ud
        rw [hp] at h
        dsimp only at h
        rcases hr : camino padre fuente n u with _ | r
        · rw [hr] at h
          cases h
        · rw [hr] at h
          simp only [Option.map_some'] at h
          cases h
          rcases List.mem_cons.mp hs with h2 | h2
          · rw [h2]
            exact hp
          · exact ih u r hr s h2

theorem camino_cadena (padre : PMap) (fuente : Int) :
    ∀ (f : Nat) (v : Int) (steps : List (Int × Int × Int)),
      camino padre fuente f v = some steps → Cadena fuente v steps := by
  intro f
  induction f with
  | zero =>
    intro v steps h
    cases h
  | succ n ih =>
    intro v steps h
    unfold camino at h
    by_cases hv : v = fuente
    · rw [if_pos hv] at h
      cases h
      exact hv
    · rw [if_neg hv] at h
      rcases hp : AL.get? padre v with _ | ud
      · rw [hp] at h
        cases h
      · obtain ⟨u, d⟩ := ud
        rw [hp] at h
        dsimp only at h
        rcases hr : camino padre fuente n u with _ | r
        · rw [hr] at h
          cases h
        · rw [hr] at h
          simp only [Option.map_some'] at h
          cases h
          exact ⟨rfl, ih u r hr⟩

theorem camino_nodup (padre : PMap) (fuente : Int) :
    ∀ (f : Nat) (v : Int) (steps : List (Int × Int × Int)),
      camino padre fuente f v = some steps →
      (steps.map (fun s => s.2.1)).Nodup
      ∧ fuente ∉ steps.map (fun s => s.2.1)
      ∧ ∀ w ∈ steps.map (fun s => s.2.1), ∃ f2 s2,
          camino padre fuente f2 w = some s2 ∧ s2.length ≤ steps.length := by
  intro f
  induction f with
  | zero =>
    intro v steps h
    cases h
  | succ n ih =>
    intro v steps h
    have horig := h
    unfold camino at h
    by_cases hv : v = fuente
    · rw [if_pos hv] at h
      cases h
      exact ⟨List.nodup_nil, by simp, by simp⟩
    · rw [if_neg hv] at h
      rcases hp : AL.get? padre v with _ | ud
      · rw [hp] at h
        cases h
      · obtain ⟨u, d⟩ := ud
        rw [hp] at h
        dsimp only at h
        rcases hr : camino padre fuente n u with _ | r
        · rw [hr] at h
          cases h
        · rw [hr] at h
          simp only [Option.map_some'] at h
          cases h
          obtain ⟨hnd, hfu, hle⟩ := ih u r hr
          have hvnotin : v ∉ r.map (fun s => s.2.1) := by
            intro hmem
            rcases hle v hmem with ⟨f2, s2, hs2, hlen⟩
            have := camino_det padre fuente (n + 1) f2 v _ _ horig hs2
            rw [← this] at hlen
            simp at hlen
          refine ⟨?_, ?_, ?_⟩
          · rw [List.map_cons]
            exact List.nodup_cons.mpr ⟨hvnotin, hnd⟩
          · simp only [List.map_cons, List.mem_cons]
            rintro (h2 | h2)
            · exact hv h2.symm
            · exact hfu h2
          · intro w hw
            simp only [List.map_cons, List.mem_cons] at hw
            rcases hw with rfl | hw
            · exact ⟨n + 1, _, horig, le_refl _⟩
            · rcases hle w hw with ⟨f2, s2, hs2, hlen⟩
              exact ⟨f2, s2, hs2, by simpa using Nat.le_succ_of_le hlen⟩

theorem camino_retarget (padre : PMap) (t1 t2 d0 : Int)
    (hp0 : AL.get? padre t1 = some (t2, d0)) :
    ∀ (f : Nat) (v : Int) (steps : List (Int × Int × Int)),
      camino padre t1 f v = some steps →
      ∃ f2 steps2, camino padre t2 f2 v = some steps2 := by
  intro f
  induction f with
  | zero =>
    intro v steps h
    cases h
  | succ n ih =>
    intro v steps h
    by_cases hv2 : v = t2
    · refine ⟨1, [], ?_⟩
      unfold camino
      rw [if_pos hv2]
    · unfold camino at h
      by_cases hv1 : v = t1
      · rw [if_pos hv1] at h
        refine ⟨2, [(t2, t1, d0)], ?_⟩
        unfold camino
        rw [if_neg hv2, hv1, hp0]
        dsimp only
        unfold camino
        rw [if_pos rfl]
        rfl
      · rw [if_neg hv1] at h
        rcases hp : AL.get? padre v with _ | ud
        · rw [hp] at h
          cases h
        · obtain ⟨u, d⟩ := ud
          rw [hp] at h
          dsimp only at h
          rcases hr : camino padre t1 n u with _ | r
          · rw [hr] at h
            cases h
          · rcases ih u r hr with ⟨f2, s2, hs2⟩
            refine ⟨f2 + 1, (u, v, d) :: s2, ?_⟩
            unfold camino
            rw [if_neg hv2, hp]
            dsimp only
            rw [hs2]
            rfl

theorem camino_ext (padre padre2 : PMap) (fuente : Int)
    (hext : ∀ k x, AL.get? padre k = some x → AL.get? padre2 k = some x) :
    ∀ (f : Nat) (v : Int) (steps : List (Int × Int × Int)),
      camino padre fuente f v = some steps →
      camino padre2 fuente f v = some steps := by
  intro f
  induction f with
  | zero =>
    intro v steps h
    cases h
  | succ n ih =>
    intro v steps h
    unfold camino at h ⊢
    by_cases hv : v = fuente
    · rwa [if_pos hv] at h ⊢
    · rw [if_neg hv] at h ⊢
      rcases hp : AL.get? padre v with _ | ud
      · rw [hp] at h
        cases h
      · obtain ⟨u, d⟩ := ud
        rw [hp] at h
        rw [hext v (u, d) hp]
        dsimp only at h ⊢
        rcases hr : camino padre fuente n u with _ | r
        · rw [hr] at h
          cases h
        · rw [hr] at h
          rw [ih u r hr]
          exact h

end Net


/-! ## The bottleneck fold and the flow update pass -/

namespace Net

theorem minOpt_none (x : Int) : minOpt none x = some x := rfl

theorem minOpt_some (y x : Int) : minOpt (some y) x = some (min y x) := rfl

theorem cuello_fold_some (g : Net) :
    ∀ (steps : List (Int × Int × Int)) (c : Int),
      steps.foldl (fun b s => minOpt b (residual g s.1 s.2.1 s.2.2)) (some c)
        = some (steps.foldl (fun b s => min b (residual g s.1 s.2.1 s.2.2)) c) := by
  intro steps
  induction steps with
  | nil => intro c; rfl
  | cons s rest ih =>
    intro c
    rw [List.foldl_cons, List.foldl_cons, minOpt_some]
    exact ih _

theorem cuello_cons (g : Net) (s : Int × Int × Int) (rest : List (Int × Int × Int)) :
    cuello g (s :: rest)
      = some (rest.foldl (fun b t => min b (residual g t.1 t.2.1 t.2.2))
          (residual g s.1 s.2.1 s.2.2)) := by
  unfold cuello
  rw [List.foldl_cons, minOpt_none, cuello_fold_some]

theorem fold_min_le_init (g : Net) :
    ∀ (rest : List (Int × Int × Int)) (c : Int),
      rest.foldl (fun b t => min b (residual g t.1 t.2.1 t.2.2)) c ≤ c := by
  intro rest
  induction rest with
  | nil => intro c; exact le_refl c
  | cons t rest ih =>
    intro c
    rw [List.foldl_cons]
    exact le_trans (ih _) (min_le_left _ _)

theorem fold_min_le_mem (g : Net) :
    ∀ (rest : List (Int × Int × Int)) (c : Int), ∀ t ∈ rest,
      rest.foldl (fun b t => min b (residual g t.1 t.2.1 t.2.2)) c
        ≤ residual g t.1 t.2.1 t.2.2 := by
  intro rest
  induction rest with
  | nil => intro c t ht; cases ht
  | cons t0 rest ih =>
    intro c t ht
    rw [List.foldl_cons]
    rcases List.mem_cons.mp ht with rfl | ht2
    · exact le_trans (fold_min_le_init g rest _) (min_le_right _ _)
    · exact ih _ t ht2

theorem fold_min_ge (g : Net) (c0 : Int) :
    ∀ (rest : List (Int × Int × Int)) (c : Int), c0 ≤ c →
      (∀ t ∈ rest, c0 ≤ residual g t.1 t.2.1 t.2.2) →
      c0 ≤ rest.foldl (fun b t => min b (residual g t.1 t.2.1 t.2.2)) c := by
  intro rest
  induction rest with
  | nil => intro c hc _; exact hc
  | cons t rest ih =>
    intro c hc hrest
    rw [List.foldl_cons]
    exact ih _ (le_min hc (hrest t (List.mem_cons_self _ _)))
      (fun u hu => hrest u (List.mem_cons_of_mem _ hu))

/-- The bottleneck of a nonempty walk whose residuals are all positive: finite,
at least 1, and below every residual on the walk. -/
theorem cuello_pos (g : Net) (steps : List (Int × Int × Int)) (hne : steps ≠ [])
    (hres : ∀ s ∈ steps, 0 < residual g s.1 s.2.1 s.2.2) :
    ∃ b, cuello g steps = some b ∧ 1 ≤ b ∧
      ∀ s ∈ steps, b ≤ residual g s.1 s.2.1 s.2.2 := by
  rcases steps with _ | ⟨s, rest⟩
  · exact absurd rfl hne
  refine ⟨_, cuello_cons g s rest, ?_, ?_⟩
  · refine fold_min_ge g 1 rest _ ?_ ?_
    · have := hres s (List.mem_cons_self _ _)
      omega
    · intro t ht
      have := hres t (List.mem_cons_of_mem _ ht)
      omega
  · intro t ht
    rcases List.mem_cons.mp ht with rfl | ht2
    · exact fold_min_le_init g rest _
    · exact fold_min_le_mem g rest _ t ht2

theorem tabGet_aplicar (fl : AL (AL Int)) (b x y : Int) :
    ∀ (steps : List (Int × Int × Int)),
      tabGet (aplicar fl steps b) x y
        = tabGet fl x y + (steps.map (fun s => contrib s b x y)).sum := by
  suffices h : ∀ (steps : List (Int × Int × Int)) (fl0 : AL (AL Int)),
      tabGet (aplicar fl0 steps b) x y
        = tabGet fl0 x y + (steps.map (fun s => contrib s b x y)).sum by
    intro steps
    exact h steps fl
  intro steps
  induction steps with
  | nil =>
    intro fl0
    simp [aplicar, contrib]
  | cons s rest ih =>
    intro fl0
    have hstep : aplicar fl0 (s :: rest) b
        = aplicar (if s.2.2 = 1 then tabSet fl0 s.1 s.2.1 (tabGet fl0 s.1 s.2.1 + b)
            else tabSet fl0 s.2.1 s.1 (tabGet fl0 s.2.1 s.1 - b)) rest b := by
      unfold aplicar
      rw [List.foldl_cons]
    rw [hstep, ih, List.map_cons, List.sum_cons]
    have hone : tabGet (if s.2.2 = 1 then tabSet fl0 s.1 s.2.1 (tabGet fl0 s.1 s.2.1 + b)
        else tabSet fl0 s.2.1 s.1 (tabGet fl0 s.2.1 s.1 - b)) x y
          = tabGet fl0 x y + contrib s b x y := by
      unfold contrib
      by_cases hd : s.2.2 = 1
      · rw [if_pos hd, if_pos hd, tabGet_tabSet]
        by_cases hxy : x = s.1 ∧ y = s.2.1
        · rw [if_pos hxy, if_pos hxy]
          obtain ⟨rfl, rfl⟩ := hxy
          rfl
        · rw [if_neg hxy, if_neg hxy, add_zero]
      · rw [if_neg hd, if_neg hd, tabGet_tabSet]
        by_cases hxy : x = s.2.1 ∧ y = s.1
        · rw [if_pos hxy, if_pos hxy]
          obtain ⟨rfl, rfl⟩ := hxy
          ring
        · rw [if_neg hxy, if_neg hxy, add_zero]
    rw [hone]
    ring

theorem contrib_sum_untouched (b x y : Int) :
    ∀ (steps : List (Int × Int × Int)), (x, y) ∉ steps.map tocados →
      (steps.map (fun s => contrib s b x y)).sum = 0 := by
  intro steps
  induction steps with
  | nil => intro h; rfl
  | cons s rest ih =>
    intro h
    simp only [List.map_cons, List.mem_cons, not_or] at h
    rw [List.map_cons, List.sum_cons, ih h.2]
    have hc : contrib s b x y = 0 := by
      unfold contrib
      unfold tocados at h
      by_cases hd : s.2.2 = 1
      · rw [if_pos hd]
        rw [if_pos hd] at h
        rw [if_neg]
        rintro ⟨rfl, rfl⟩
        exact h.1 rfl
      · rw [if_neg hd]
        rw [if_neg hd] at h
        rw [if_neg]
        rintro ⟨rfl, rfl⟩
        exact h.1 rfl
    rw [hc]
    rfl

theorem flowOk_aplicar (cap : AL (AL Int)) (b : Int) (hb : 1 ≤ b) :
    ∀ (steps : List (Int × Int × Int)) (fl : AL (AL Int)),
      FlowOk cap fl →
      (∀ s ∈ steps, s.2.2 = 1 →
        b ≤ tabGet cap s.1 s.2.1 - tabGet fl s.1 s.2.1) →
      (∀ s ∈ steps, s.2.2 ≠ 1 → b ≤ tabGet fl s.2.1 s.1) →
      (steps.map tocados).Nodup →
      FlowOk cap (aplicar fl steps b) := by
  intro steps
  induction steps with
  | nil =>
    intro fl hok _ _ _
    exact hok
  | cons s rest ih =>
    intro fl hok hfwd hbwd hnd
    have hstep : aplicar fl (s :: rest) b
        = aplicar (if s.2.2 = 1 then tabSet fl s.1 s.2.1 (tabGet fl s.1 s.2.1 + b)
            else tabSet fl s.2.1 s.1 (tabGet fl s.2.1 s.1 - b)) rest b := by
      unfold aplicar
      rw [List.foldl_cons]
    rw [hstep]
    simp only [List.map_cons, List.nodup_cons] at hnd
    have htoc : ∀ x y, (x, y) ≠ tocados s →
        tabGet (if s.2.2 = 1 then tabSet fl s.1 s.2.1 (tabGet fl s.1 s.2.1 + b)
          else tabSet fl s.2.1 s.1 (tabGet fl s.2.1 s.1 - b)) x y = tabGet fl x y := by
      intro x y hxy
      unfold tocados at hxy
      by_cases hd : s.2.2 = 1
      · rw [if_pos hd]
        rw [if_pos hd] at hxy
        rw [tabGet_tabSet, if_neg]
        rintro ⟨rfl, rfl⟩
        exact hxy rfl
      · rw [if_neg hd]
        rw [if_neg hd] at hxy
        rw [tabGet_tabSet, if_neg]
        rintro ⟨rfl, rfl⟩
        exact hxy rfl
    refine ih _ ?_ ?_ ?_ hnd.2
    · intro x y
      by_cases hxy : (x, y) = tocados s
      · unfold tocados at hxy
        by_cases hd : s.2.2 = 1
        · rw [if_pos hd] at hxy
          rw [if_pos hd, tabGet_tabSet]
          cases hxy
          rw [if_pos ⟨rfl, rfl⟩]
          have h1 := hfwd s (List.mem_cons_self _ _) hd
          have h2 := hok s.1 s.2.1
          omega
        · rw [if_neg hd] at hxy
          rw [if_neg hd, tabGet_tabSet]
          cases hxy
          rw [if_pos ⟨rfl, rfl⟩]
          have h1 := hbwd s (List.mem_cons_self _ _) hd
          have h2 := hok s.2.1 s.1
          omega
      · rw [htoc x y hxy]
        exact hok x y
    · intro t ht hd1
      have htt : tocados t ≠ tocados s := by
        intro hcontra
        exact hnd.1 (hcontra ▸ List.mem_map_of_mem tocados ht)
      have : (t.1, t.2.1) = tocados t := by
        unfold tocados
        rw [if_pos hd1]
      rw [htoc t.1 t.2.1 (this ▸ htt)]
      exact hfwd t (List.mem_cons_of_mem _ ht) hd1
    · intro t ht hd1
      have htt : tocados t ≠ tocados s := by
        intro hcontra
        exact hnd.1 (hcontra ▸ List.mem_map_of_mem tocados ht)
      have : (t.2.1, t.1) = tocados t := by
        unfold tocados
        rw [if_neg hd1]
      rw [htoc t.2.1 t.1 (this ▸ htt)]
      exact hbwd t (List.mem_cons_of_mem _ ht) hd1

end Net


/-! ## Effect of one augmentation on the node excesses -/

namespace Net

theorem contrib_eq_ind (s : Int × Int × Int) (b x y : Int) :
    contrib s b x y
      = if (x, y) = tocados s then (if s.2.2 = 1 then b else -b) else 0 := by
  unfold contrib tocados
  by_cases hd : s.2.2 = 1 <;> simp [hd, Prod.ext_iff]

theorem netContrib_step (V : Finset Int) (s : Int × Int × Int) (b : Int)
    (hu : s.1 ∈ V) (hv : s.2.1 ∈ V) (w : Int) :
    ∑ x ∈ V, (contrib s b w x - contrib s b x w)
      = (if w = s.1 then b else 0) - (if w = s.2.1 then b else 0) := by
  rcases htoc : tocados s with ⟨t1, t2⟩
  have ht1 : t1 ∈ V := by
    unfold tocados at htoc
    by_cases hd : s.2.2 = 1
    · rw [if_pos hd] at htoc
      cases htoc
      exact hu
    · rw [if_neg hd] at htoc
      cases htoc
      exact hv
  have ht2 : t2 ∈ V := by
    unfold tocados at htoc
    by_cases hd : s.2.2 = 1
    · rw [if_pos hd] at htoc
      cases htoc
      exact hv
    · rw [if_neg hd] at htoc
      cases htoc
      exact hu
  rw [Finset.sum_sub_distrib]
  have h1 : (∑ x ∈ V, contrib s b w x)
      = if w = t1 then (if s.2.2 = 1 then b else -b) else 0 := by
    simp only [contrib_eq_ind, htoc, Prod.mk.injEq]
    by_cases hw : w = t1
    · simp only [hw, true_and]
      rw [Finset.sum_ite_eq' V t2 (fun _ => if s.2.2 = 1 then b else -b), if_pos ht2]
      simp
    · simp [hw]
  have h2 : (∑ x ∈ V, contrib s b x w)
      = if w = t2 then (if s.2.2 = 1 then b else -b) else 0 := by
    simp only [contrib_eq_ind, htoc, Prod.mk.injEq]
    by_cases hw : w = t2
    · simp only [hw, and_true]
      rw [Finset.sum_ite_eq' V t1 (fun _ => if s.2.2 = 1 then b else -b), if_pos ht1]
      simp
    · simp [hw]
  rw [h1, h2]
  unfold tocados at htoc
  by_cases hd : s.2.2 = 1
  · rw [if_pos hd] at htoc
    cases htoc
    rw [if_pos hd]
  · rw [if_neg hd] at htoc
    cases htoc
    rw [if_neg hd]
    split_ifs <;> omega

theorem netContrib_chain (V : Finset Int) (b fuente : Int) :
    ∀ (steps : List (Int × Int × Int)) (v : Int), Cadena fuente v steps →
      (∀ s ∈ steps, s.1 ∈ V ∧ s.2.1 ∈ V) → ∀ w,
      (∑ x ∈ V, ((steps.map (fun s => contrib s b w x)).sum
        - (steps.map (fun s => contrib s b x w)).sum))
      = (if w = fuente then b else 0) - (if w = v then b else 0) := by
  intro steps
  induction steps with
  | nil =>
    intro v hch _ w
    have hv : v = fuente := hch
    subst hv
    simp
  | cons s rest ih =>
    intro v hch hmem w
    obtain ⟨u, w0, d⟩ := s
    obtain ⟨hw0, hch2⟩ := hch
    subst hw0
    have hpt : ∀ x : Int,
        ((List.map (fun s => contrib s b w x) ((u, w0, d) :: rest)).sum
          - (List.map (fun s => contrib s b x w) ((u, w0, d) :: rest)).sum)
        = (contrib (u, w0, d) b w x - contrib (u, w0, d) b x w)
          + ((rest.map (fun s => contrib s b w x)).sum
              - (rest.map (fun s => contrib s b x w)).sum) := by
      intro x
      rw [List.map_cons, List.map_cons, List.sum_cons, List.sum_cons]
      ring
    rw [Finset.sum_congr rfl (fun x _ => hpt x), Finset.sum_add_distrib]
    have hu : (u, w0, d).1 ∈ V := (hmem _ (List.mem_cons_self _ _)).1
    have hw0m : (u, w0, d).2.1 ∈ V := (hmem _ (List.mem_cons_self _ _)).2
    rw [netContrib_step V (u, w0, d) b hu hw0m w,
      ih u hch2 (fun t ht => hmem t (List.mem_cons_of_mem _ ht)) w]
    dsimp only
    ring

theorem excessT_aplicar (fl : AL (AL Int)) (V : Finset Int) (b fuente v : Int)
    (steps : List (Int × Int × Int)) (hch : Cadena fuente v steps)
    (hmem : ∀ s ∈ steps, s.1 ∈ V ∧ s.2.1 ∈ V) (w : Int) :
    excessT (aplicar fl steps b) V w
      = excessT fl V w + ((if w = fuente then b else 0) - (if w = v then b else 0)) := by
  unfold excessT
  simp only [tabGet_aplicar]
  have hpt : ∀ x : Int,
      tabGet fl w x + (steps.map (fun s => contrib s b w x)).sum
        - (tabGet fl x w + (steps.map (fun s => contrib s b x w)).sum)
      = (tabGet fl w x - tabGet fl x w)
        + ((steps.map (fun s => contrib s b w x)).sum
            - (steps.map (fun s => contrib s b x w)).sum) := by
    intro x
    ring
  rw [Finset.sum_congr rfl (fun x _ => hpt x), Finset.sum_add_distrib,
    netContrib_chain V b fuente steps v hch hmem w]

theorem cadena_parents (fuente : Int) :
    ∀ (steps : List (Int × Int × Int)) (v : Int), Cadena fuente v steps →
      ∀ t ∈ steps, t.1 ∈ steps.map (fun s => s.2.1) ∨ t.1 = fuente := by
  intro steps
  induction steps with
  | nil =>
    intro v _ t ht
    cases ht
  | cons s rest ih =>
    intro v hch t ht
    obtain ⟨u, w0, d⟩ := s
    obtain ⟨hw0, hch2⟩ := hch
    rcases List.mem_cons.mp ht with rfl | ht2
    · rcases rest with _ | ⟨⟨p, c, d2⟩, rest2⟩
      · right
        exact hch2
      · left
        obtain ⟨hc, _⟩ := hch2
        subst hc
        simp
    · rcases ih u hch2 t ht2 with h | h
      · left
        rw [List.map_cons]
        exact List.mem_cons_of_mem _ h
      · right
        exact h

theorem cadena_tocados_nodup (fuente : Int) :
    ∀ (steps : List (Int × Int × Int)) (v : Int), Cadena fuente v steps →
      (steps.map (fun s => s.2.1)).Nodup →
      fuente ∉ steps.map (fun s => s.2.1) →
      (steps.map tocados).Nodup := by
  intro steps
  induction steps with
  | nil =>
    intro v _ _ _
    exact List.nodup_nil
  | cons s rest ih =>
    intro v hch hnd hfn
    obtain ⟨u, w0, d⟩ := s
    obtain ⟨hw0, hch2⟩ := hch
    subst hw0
    rw [List.map_cons] at hnd hfn
    dsimp only at hnd hfn
    have hvn : w0 ∉ rest.map (fun s => s.2.1) := (List.nodup_cons.mp hnd).1
    have hnd2 : (rest.map (fun s => s.2.1)).Nodup := (List.nodup_cons.mp hnd).2
    have hfn2 : fuente ∉ rest.map (fun s => s.2.1) :=
      fun h => hfn (List.mem_cons_of_mem _ h)
    have hfw : fuente ≠ w0 := fun h => hfn (by rw [h]; exact List.mem_cons_self _ _)
    rw [List.map_cons]
    refine List.nodup_cons.mpr ⟨?_, ih u hch2 hnd2 hfn2⟩
    intro hmem
    obtain ⟨t, ht, htoc⟩ := List.mem_map.mp hmem
    have hw0cases : w0 = t.2.1 ∨ w0 = t.1 := by
      unfold tocados at htoc
      by_cases h1 : t.2.2 = 1 <;> by_cases h2 : d = 1 <;>
        simp only [h1, h2, if_true, if_false, if_pos, if_neg, Prod.mk.injEq] at htoc <;>
          [skip; skip; skip; skip] <;> omega
    rcases hw0cases with h | h
    · exact hvn (by rw [h]; exact List.mem_map_of_mem _ ht)
    · rcases cadena_parents fuente rest u hch2 t ht with hc | hc
      · exact hvn (by rw [h]; exact hc)
      · exact hfw (h.trans hc).symm

theorem mem_univNodes_of_capNonzero (g : Net) (u v : Int)
    (h : tabGet g.capacidad u v ≠ 0) :
    u ∈ univNodes g ∧ v ∈ univNodes g := by
  unfold tabGet AL.getD at h
  rcases hrow : AL.get? g.capacidad u with _ | row
  · rw [hrow] at h
    simp [AL.get?] at h
  rw [hrow] at h
  simp only [Option.getD_some] at h
  rcases hent : AL.get? row v with _ | c
  · rw [hent] at h
    simp at h
  have hpmem := AL.mem_of_get?_eq_some hrow
  have hqmem := AL.mem_of_get?_eq_some hent
  constructor
  · unfold univNodes
    simp only [List.mem_toFinset, List.mem_append]
    left
    right
    exact List.mem_map_of_mem Prod.fst hpmem
  · unfold univNodes
    simp only [List.mem_toFinset, List.mem_append, List.mem_flatMap]
    right
    exact ⟨(u, row), hpmem, List.mem_map_of_mem Prod.fst hqmem⟩

end Net


/-! ## Depth-first search: basic frame and invariants -/

namespace Net

theorem mem_fst_intentos {l : List Int} {a : Int × Int} (h : a ∈ intentos l) :
    a.1 ∈ l := by
  unfold intentos at h
  rw [List.mem_flatMap] at h
  obtain ⟨v, hv, hmem⟩ := h
  rcases List.mem_cons.mp hmem with rfl | hmem2
  · exact hv
  · rcases List.mem_cons.mp hmem2 with rfl | hmem3
    · exact hv
    · cases hmem3

theorem intentos_cover {l : List Int} {v : Int} (h : v ∈ l) :
    (v, 1) ∈ intentos l ∧ (v, -1) ∈ intentos l := by
  unfold intentos
  constructor <;>
    exact List.mem_flatMap.mpr ⟨v, h, by simp⟩

theorem mem_poolDFS_of_ady (g : Net) (fuente u v : Int) (h : v ∈ adyOf g u) :
    v ∈ poolDFS g fuente := by
  unfold poolDFS
  refine List.mem_cons_of_mem _ ?_
  unfold adyOf AL.getD at h
  rcases hrow : AL.get? g.ady u with _ | row
  · rw [hrow] at h
    simp at h
  · rw [hrow] at h
    simp only [Option.getD_some] at h
    exact List.mem_flatMap.mpr ⟨(u, row), AL.mem_of_get?_eq_some hrow,
      List.mem_cons_of_mem _ h⟩

theorem dfsFuel_eq_pool (g : Net) (fuente : Int) :
    dfsFuel g = (poolDFS g fuente).length + 1 := by
  unfold dfsFuel poolDFS
  simp

theorem length_sadd_not_mem {l : List Int} {x : Int} (h : x ∉ l) :
    (sadd l x).length = l.length + 1 := by
  unfold sadd
  rw [if_neg h]
  simp

theorem camino_agree (padre padre2 : PMap) (fuente : Int) :
    ∀ (f : Nat) (v : Int) (steps : List (Int × Int × Int)),
      camino padre fuente f v = some steps →
      (∀ s ∈ steps, AL.get? padre2 s.2.1 = AL.get? padre s.2.1) →
      camino padre2 fuente f v = some steps := by
  intro f
  induction f with
  | zero =>
    intro v steps h _
    cases h
  | succ n ih =>
    intro v steps h hag
    unfold camino at h ⊢
    by_cases hv : v = fuente
    · rwa [if_pos hv] at h ⊢
    · rw [if_neg hv] at h ⊢
      rcases hp : AL.get? padre v with _ | ud
      · rw [hp] at h
        cases h
      · obtain ⟨u, d⟩ := ud
        rw [hp] at h
        dsimp only at h
        rcases hr : camino padre fuente n u with _ | r
        · rw [hr] at h
          cases h
        · rw [hr] at h
          simp only [Option.map_some'] at h
          cases h
          have hv2 : AL.get? padre2 v = some (u, d) := by
            have hh := hag (u, v, d) (List.mem_cons_self _ _)
            dsimp only at hh
            rw [hh, hp]
          rw [hv2]
          dsimp only
          rw [ih u r hr (fun s hs => hag s (List.mem_cons_of_mem _ hs))]
          rfl

theorem camino_ne_nil (padre : PMap) (fuente : Int) (f : Nat) (v : Int)
    (steps : List (Int × Int × Int)) (h : camino padre fuente f v = some steps)
    (hv : v ≠ fuente) : steps ≠ [] := by
  intro hnil
  apply hv
  have hc := camino_cadena padre fuente f v steps h
  rw [hnil] at hc
  exact hc

theorem dfs_intenta_basic (g : Net) (fuente : Int)
    (rec : Int → List Int → PMap → Option (Bool × List Int × PMap))
    (hrec : ∀ v vis p b vis2 p2, rec v vis p = some (b, vis2, p2) →
      (∀ x ∈ vis, x ∈ vis2) ∧
      (∀ k, k ∈ vis ∨ k = v → AL.get? p2 k = AL.get? p k) ∧
      (PadreOk g fuente p → PadreOk g fuente p2)) :
    ∀ (att : List (Int × Int)) (actual : Int) (vis : List Int) (padre : PMap)
      (b : Bool) (vis2 : List Int) (p2 : PMap),
      dfs_intenta g rec att actual vis padre = some (b, vis2, p2) →
      (∀ x ∈ vis, x ∈ vis2) ∧
      (∀ k ∈ vis, AL.get? p2 k = AL.get? padre k) ∧
      (PadreOk g fuente padre → PadreOk g fuente p2) := by
  intro att
  induction att with
  | nil =>
    intro actual vis padre b vis2 p2 h
    unfold dfs_intenta at h
    cases h
    exact ⟨fun x hx => hx, fun k _ => rfl, fun h => h⟩
  | cons a rest ih =>
    obtain ⟨vecino, d⟩ := a
    intro actual vis padre b vis2 p2 h
    unfold dfs_intenta at h
    by_cases hg : vecino ∉ vis ∧ 0 < residual g actual vecino d
    · rw [if_pos hg] at h
      rcases hr : rec vecino vis (AL.set padre vecino (actual, d)) with _ | ⟨b0, v2, q2⟩
      · rw [hr] at h
        cases h
      · rw [hr] at h
        obtain ⟨hm, hf, hp⟩ := hrec vecino vis _ b0 v2 q2 hr
        have hset : ∀ k ∈ vis,
            AL.get? (AL.set padre vecino (actual, d)) k = AL.get? padre k := by
          intro k hk
          rw [AL.get?_set, if_neg]
          intro hkv
          exact hg.1 (hkv ▸ hk)
        have hpset : PadreOk g fuente padre →
            PadreOk g fuente (AL.set padre vecino (actual, d)) := by
          intro hpo v u dd hv hget
          rw [AL.get?_set] at hget
          by_cases hvv : v = vecino
          · rw [if_pos hvv] at hget
            cases hget
            rw [hvv]
            exact hg.2
          · rw [if_neg hvv] at hget
            exact hpo v u dd hv hget
        cases b0
        · dsimp only at h
          obtain ⟨hm2, hf2, hp2⟩ := ih actual v2 q2 b vis2 p2 h
          refine ⟨fun x hx => hm2 x (hm x hx), ?_, fun hpo => hp2 (hp (hpset hpo))⟩
          intro k hk
          rw [hf2 k (hm k hk), hf k (Or.inl hk), hset k hk]
        · dsimp only at h
          cases h
          exact ⟨hm, fun k hk => by rw [hf k (Or.inl hk), hset k hk],
            fun hpo => hp (hpset hpo)⟩
    · rw [if_neg hg] at h
      exact ih actual vis padre b vis2 p2 h

theorem dfs_aumento_basic (g : Net) (fuente sumidero : Int) :
    ∀ (fuel : Nat) (actual : Int) (vis : List Int) (padre : PMap)
      (b : Bool) (vis2 : List Int) (p2 : PMap),
      dfs_aumento g sumidero fuel actual vis padre = some (b, vis2, p2) →
      (∀ x ∈ vis, x ∈ vis2) ∧
      (∀ k, k ∈ vis ∨ k = actual → AL.get? p2 k = AL.get? padre k) ∧
      (PadreOk g fuente padre → PadreOk g fuente p2) := by
  intro fuel
  induction fuel with
  | zero =>
    intro actual vis padre b vis2 p2 h
    cases h
  | succ n ih =>
    intro actual vis padre b vis2 p2 h
    unfold dfs_aumento at h
    by_cases hs : actual = sumidero
    · rw [if_pos hs] at h
      cases h
      exact ⟨fun x hx => hx, fun k _ => rfl, fun hp => hp⟩
    · rw [if_neg hs] at h
      obtain ⟨hm, hf, hp⟩ := dfs_intenta_basic g fuente _
        (fun v vis p b vis2 p2 hr => ih v vis p b vis2 p2 hr) _
        actual (sadd vis actual) padre b vis2 p2 h
      refine ⟨fun x hx => hm x (mem_sadd.mpr (Or.inl hx)), ?_, hp⟩
      intro k hk
      exact hf k (mem_sadd.mpr hk)

end Net


/-! ## Depth-first search: the fuel bound is never hit -/

namespace Net

theorem dfs_intenta_total (g : Net) (L : List Int) (n : Nat)
    (rec : Int → List Int → PMap → Option (Bool × List Int × PMap))
    (hrec : ∀ v vis p, vis.Nodup → (∀ x ∈ vis, x ∈ L) → v ∉ vis → v ∈ L →
      n ≤ vis.length →
      ∃ b vis2 p2, rec v vis p = some (b, vis2, p2) ∧ vis2.Nodup ∧
        (∀ x ∈ vis2, x ∈ L) ∧ (∀ x ∈ vis, x ∈ vis2)) :
    ∀ (att : List (Int × Int)) (actual : Int) (vis : List Int) (padre : PMap),
      vis.Nodup → (∀ x ∈ vis, x ∈ L) → (∀ a ∈ att, a.1 ∈ L) → n ≤ vis.length →
      ∃ b vis2 p2, dfs_intenta g rec att actual vis padre = some (b, vis2, p2) ∧
        vis2.Nodup ∧ (∀ x ∈ vis2, x ∈ L) ∧ (∀ x ∈ vis, x ∈ vis2) := by
  intro att
  induction att with
  | nil =>
    intro actual vis padre hnd hsub _ _
    exact ⟨false, vis, padre, rfl, hnd, hsub, fun x hx => hx⟩
  | cons a rest ih =>
    obtain ⟨vecino, d⟩ := a
    intro actual vis padre hnd hsub hatt hn
    unfold dfs_intenta
    by_cases hg : vecino ∉ vis ∧ 0 < residual g actual vecino d
    · rw [if_pos hg]
      obtain ⟨b0, v2, q2, hr, hnd2, hsub2, hm2⟩ :=
        hrec vecino vis (AL.set padre vecino (actual, d)) hnd hsub hg.1
          (hatt (vecino, d) (List.mem_cons_self _ _)) hn
      rw [hr]
      cases b0
      · dsimp only
        have hn2 : n ≤ v2.length :=
          le_trans hn (nodup_subset_length hnd hm2)
        obtain ⟨b, vis2, p2, hres, hnd3, hsub3, hm3⟩ :=
          ih actual v2 q2 hnd2 hsub2
            (fun x hx => hatt x (List.mem_cons_of_mem _ hx)) hn2
        exact ⟨b, vis2, p2, hres, hnd3, hsub3, fun x hx => hm3 x (hm2 x hx)⟩
      · exact ⟨true, v2, q2, rfl, hnd2, hsub2, hm2⟩
    · rw [if_neg hg]
      exact ih actual vis padre hnd hsub
        (fun x hx => hatt x (List.mem_cons_of_mem _ hx)) hn

theorem dfs_aumento_total (g : Net) (L : List Int) (sumidero : Int)
    (hady : ∀ u v, v ∈ adyOf g u → v ∈ L) :
    ∀ (fuel : Nat) (actual : Int) (vis : List Int) (padre : PMap),
      vis.Nodup → (∀ x ∈ vis, x ∈ L) → actual ∉ vis → actual ∈ L →
      L.length + 1 ≤ fuel + vis.length →
      ∃ b vis2 p2, dfs_aumento g sumidero fuel actual vis padre = some (b, vis2, p2) ∧
        vis2.Nodup ∧ (∀ x ∈ vis2, x ∈ L) ∧ (∀ x ∈ vis, x ∈ vis2) := by
  intro fuel
  induction fuel with
  | zero =>
    intro actual vis padre hnd hsub hav haL hbound
    exfalso
    have hlen : (actual :: vis).length ≤ L.length :=
      nodup_subset_length (List.nodup_cons.mpr ⟨hav, hnd⟩)
        (by
          intro x hx
          rcases List.mem_cons.mp hx with rfl | hx2
          · exact haL
          · exact hsub x hx2)
    simp only [List.length_cons] at hlen
    omega
  | succ n ih =>
    intro actual vis padre hnd hsub hav haL hbound
    unfold dfs_aumento
    by_cases hs : actual = sumidero
    · rw [if_pos hs]
      exact ⟨true, vis, padre, rfl, hnd, hsub, fun x hx => hx⟩
    · rw [if_neg hs]
      have hn : vis.length + 1 ≤ (sadd vis actual).length := by
        rw [length_sadd_not_mem hav]
      obtain ⟨b, vis2, p2, hres, hnd2, hsub2, hm2⟩ :=
        dfs_intenta_total g L (vis.length + 1) (dfs_aumento g sumidero n)
          (fun v vis0 p hnd0 hsub0 hv0 hvL hn0 =>
            ih v vis0 p hnd0 hsub0 hv0 hvL (by omega))
          (intentos (adyOf g actual)) actual (sadd vis actual) padre
          (nodup_sadd actual hnd)
          (by
            intro x hx
            rcases mem_sadd.mp hx with hx2 | rfl
            · exact hsub x hx2
            · exact haL)
          (fun a ha => hady actual a.1 (mem_fst_intentos ha)) hn
      exact ⟨b, vis2, p2, hres, hnd2, hsub2,
        fun x hx => hm2 x (mem_sadd.mpr (Or.inl hx))⟩

end Net


/-! ## Depth-first search: a successful search leaves a walk to the sink -/

namespace Net

theorem dfs_intenta_walk (g : Net) (fuente sumidero : Int)
    (rec : Int → List Int → PMap → Option (Bool × List Int × PMap))
    (hrecB : ∀ v vis p b vis2 p2, rec v vis p = some (b, vis2, p2) →
      (∀ x ∈ vis, x ∈ vis2) ∧
      (∀ k, k ∈ vis ∨ k = v → AL.get? p2 k = AL.get? p k) ∧
      (PadreOk g fuente p → PadreOk g fuente p2))
    (hrecW : ∀ v vis p vis2 p2, rec v vis p = some (true, vis2, p2) →
      (∃ f steps, camino p fuente f v = some steps ∧
        ∀ s ∈ steps, s.2.1 ∈ sadd vis v) →
      fuente ∈ sadd vis v →
      ∃ f2 steps2, camino p2 fuente f2 sumidero = some steps2) :
    ∀ (att : List (Int × Int)) (actual : Int) (vis : List Int) (padre : PMap)
      (vis2 : List Int) (p2 : PMap),
      dfs_intenta g rec att actual vis padre = some (true, vis2, p2) →
      (∃ f steps, camino padre fuente f actual = some steps ∧
        ∀ s ∈ steps, s.2.1 ∈ vis) →
      fuente ∈ vis →
      ∃ f2 steps2, camino p2 fuente f2 sumidero = some steps2 := by
  intro att
  induction att with
  | nil =>
    intro actual vis padre vis2 p2 h _ _
    unfold dfs_intenta at h
    simp at h
  | cons a rest ih =>
    obtain ⟨vecino, d⟩ := a
    intro actual vis padre vis2 p2 h hwalk hfv
    unfold dfs_intenta at h
    by_cases hg : vecino ∉ vis ∧ 0 < residual g actual vecino d
    · rw [if_pos hg] at h
      rcases hr : rec vecino vis (AL.set padre vecino (actual, d)) with _ | ⟨b0, v2, q2⟩
      · rw [hr] at h
        cases h
      · rw [hr] at h
        obtain ⟨f, steps, hst, hch⟩ := hwalk
        have hagree : ∀ s ∈ steps,
            AL.get? (AL.set padre vecino (actual, d)) s.2.1 = AL.get? padre s.2.1 := by
          intro s hs
          rw [AL.get?_set, if_neg]
          intro he
          exact hg.1 (he ▸ hch s hs)
        have hst2 := camino_agree padre (AL.set padre vecino (actual, d)) fuente
          f actual steps hst hagree
        cases b0
        · dsimp only at h
          obtain ⟨hm, hf, _⟩ := hrecB vecino vis _ false v2 q2 hr
          have hagree2 : ∀ s ∈ steps, AL.get? q2 s.2.1 = AL.get? padre s.2.1 := by
            intro s hs
            rw [hf s.2.1 (Or.inl (hch s hs)), hagree s hs]
          refine ih actual v2 q2 vis2 p2 h
            ⟨f, steps, camino_agree padre q2 fuente f actual steps hst hagree2,
              fun s hs => hm s.2.1 (hch s hs)⟩ (hm fuente hfv)
        · dsimp only at h
          cases h
          have hvf : vecino ≠ fuente := by
            intro he
            exact hg.1 (by rw [he]; exact hfv)
          have hnewwalk : camino (AL.set padre vecino (actual, d)) fuente (f + 1) vecino
              = some ((actual, vecino, d) :: steps) := by
            unfold camino
            rw [if_neg hvf, AL.get?_set, if_pos rfl]
            dsimp only
            rw [hst2]
            rfl
          refine hrecW vecino vis _ vis2 p2 hr
            ⟨f + 1, (actual, vecino, d) :: steps, hnewwalk, ?_⟩
            (mem_sadd.mpr (Or.inl hfv))
          intro s hs
          rcases List.mem_cons.mp hs with rfl | hs2
          · exact mem_sadd.mpr (Or.inr rfl)
          · exact mem_sadd.mpr (Or.inl (hch s hs2))
    · rw [if_neg hg] at h
      exact ih actual vis padre vis2 p2 h hwalk hfv

theorem dfs_aumento_walk (g : Net) (fuente sumidero : Int) :
    ∀ (fuel : Nat) (actual : Int) (vis : List Int) (padre : PMap)
      (vis2 : List Int) (p2 : PMap),
      dfs_aumento g sumidero fuel actual vis padre = some (true, vis2, p2) →
      (∃ f steps, camino padre fuente f actual = some steps ∧
        ∀ s ∈ steps, s.2.1 ∈ sadd vis actual) →
      fuente ∈ sadd vis actual →
      ∃ f2 steps2, camino p2 fuente f2 sumidero = some steps2 := by
  intro fuel
  induction fuel with
  | zero =>
    intro actual vis padre vis2 p2 h _ _
    cases h
  | succ n ih =>
    intro actual vis padre vis2 p2 h hwalk hfv
    unfold dfs_aumento at h
    by_cases hs : actual = sumidero
    · rw [if_pos hs] at h
      cases h
      obtain ⟨f, steps, hst, _⟩ := hwalk
      exact ⟨f, steps, by rw [← hs]; exact hst⟩
    · rw [if_neg hs] at h
      exact dfs_intenta_walk g fuente sumidero (dfs_aumento g sumidero n)
        (fun v vis p b vis2 p2 hr => dfs_aumento_basic g fuente sumidero n v vis p b vis2 p2 hr)
        (fun v vis p vis2 p2 hr hw hf => ih v vis p vis2 p2 hr hw hf)
        (intentos (adyOf g actual)) actual (sadd vis actual) padre vis2 p2 h
        hwalk hfv

end Net


/-! ## Depth-first search: a failed search has explored a residual-closed set -/

namespace Net

theorem dfs_intenta_closed (g : Net) (fuente sumidero : Int)
    (rec : Int → List Int → PMap → Option (Bool × List Int × PMap))
    (hrecB : ∀ v vis p b vis2 p2, rec v vis p = some (b, vis2, p2) →
      (∀ x ∈ vis, x ∈ vis2) ∧
      (∀ k, k ∈ vis ∨ k = v → AL.get? p2 k = AL.get? p k) ∧
      (PadreOk g fuente p → PadreOk g fuente p2))
    (hrecC : ∀ v vis p vis2 p2, rec v vis p = some (false, vis2, p2) →
      explorado g vis vis2 ∧
      (∀ w ∈ adyOf g v,
        (0 < residual_adelante g v w ∨ 0 < residual_atras g v w) → w ∈ vis2) ∧
      v ∈ vis2 ∧ (sumidero ∉ vis → sumidero ∉ vis2)) :
    ∀ (att : List (Int × Int)) (actual : Int) (vis : List Int) (padre : PMap)
      (vis2 : List Int) (p2 : PMap),
      dfs_intenta g rec att actual vis padre = some (false, vis2, p2) →
      explorado g vis vis2 ∧
      (∀ a ∈ att, 0 < residual g actual a.1 a.2 → a.1 ∈ vis2) ∧
      (∀ x ∈ vis, x ∈ vis2) ∧
      (sumidero ∉ vis → sumidero ∉ vis2) := by
  intro att
  induction att with
  | nil =>
    intro actual vis padre vis2 p2 h
    unfold dfs_intenta at h
    cases h
    refine ⟨?_, ?_, fun x hx => hx, fun hx => hx⟩
    · intro u hu hnu
      exact absurd hu hnu
    · intro a ha
      cases ha
  | cons a rest ih =>
    obtain ⟨vecino, d⟩ := a
    intro actual vis padre vis2 p2 h
    unfold dfs_intenta at h
    by_cases hg : vecino ∉ vis ∧ 0 < residual g actual vecino d
    · rw [if_pos hg] at h
      rcases hr : rec vecino vis (AL.set padre vecino (actual, d)) with _ | ⟨b0, v2, q2⟩
      · rw [hr] at h
        cases h
      · rw [hr] at h
        cases b0
        · dsimp only at h
          obtain ⟨hE1, hN1, hv1, hs1⟩ := hrecC vecino vis _ v2 q2 hr
          obtain ⟨hmB, _, _⟩ := hrecB vecino vis _ false v2 q2 hr
          obtain ⟨hE2, hA2, hm2, hs2⟩ := ih actual v2 q2 vis2 p2 h
          refine ⟨?_, ?_, fun x hx => hm2 x (hmB x hx), fun hx => hs2 (hs1 hx)⟩
          · intro u hu hnu v hv hres
            by_cases hu2 : u ∈ v2
            · exact hm2 v (hE1 u hu2 hnu v hv hres)
            · exact hE2 u hu hu2 v hv hres
          · intro a ha hres
            rcases List.mem_cons.mp ha with rfl | ha2
            · exact hm2 vecino hv1
            · exact hA2 a ha2 hres
        · dsimp only at h
          simp at h
    · rw [if_neg hg] at h
      obtain ⟨hE, hA, hm, hs⟩ := ih actual vis padre vis2 p2 h
      refine ⟨hE, ?_, hm, hs⟩
      intro a ha hres
      rcases List.mem_cons.mp ha with rfl | ha2
      · have hv : vecino ∈ vis := by
          by_contra hnv
          exact hg ⟨hnv, hres⟩
        exact hm vecino hv
      · exact hA a ha2 hres

theorem dfs_aumento_closed (g : Net) (fuente sumidero : Int) :
    ∀ (fuel : Nat) (actual : Int) (vis : List Int) (padre : PMap)
      (vis2 : List Int) (p2 : PMap),
      dfs_aumento g sumidero fuel actual vis padre = some (false, vis2, p2) →
      explorado g vis vis2 ∧
      (∀ w ∈ adyOf g actual,
        (0 < residual_adelante g actual w ∨ 0 < residual_atras g actual w) → w ∈ vis2) ∧
      actual ∈ vis2 ∧ (sumidero ∉ vis → sumidero ∉ vis2) := by
  intro fuel
  induction fuel with
  | zero =>
    intro actual vis padre vis2 p2 h
    cases h
  | succ n ih =>
    intro actual vis padre vis2 p2 h
    unfold dfs_aumento at h
    by_cases hs : actual = sumidero
    · rw [if_pos hs] at h
      simp at h
    · rw [if_neg hs] at h
      obtain ⟨hE, hA, hM, hS⟩ := dfs_intenta_closed g fuente sumidero
        (dfs_aumento g sumidero n)
        (fun v vis p b vis2 p2 hr =>
          dfs_aumento_basic g fuente sumidero n v vis p b vis2 p2 hr)
        (fun v vis p vis2 p2 hr => ih v vis p vis2 p2 hr)
        (intentos (adyOf g actual)) actual (sadd vis actual) padre vis2 p2 h
      have hcov : ∀ w ∈ adyOf g actual,
          (0 < residual_adelante g actual w ∨ 0 < residual_atras g actual w) →
            w ∈ vis2 := by
        intro w hw hres
        rcases hres with hres | hres
        · refine hA (w, 1) (intentos_cover hw).1 ?_
          unfold residual
          rw [if_pos rfl]
          exact hres
        · refine hA (w, -1) (intentos_cover hw).2 ?_
          unfold residual
          rw [if_neg (by norm_num)]
          exact hres
      refine ⟨?_, hcov, hM actual (mem_sadd.mpr (Or.inr rfl)), ?_⟩
      · intro u hu hnu v hv hres
        by_cases hua : u = actual
        · exact hcov v (hua ▸ hv) (hua ▸ hres)
        · exact hE u hu (fun hmem => (mem_sadd.mp hmem).elim hnu hua) v hv hres
      · intro hsv
        refine hS ?_
        intro hmem
        rcases mem_sadd.mp hmem with h2 | h2
        · exact hsv h2
        · exact hs h2.symm

end Net


/-! ## Breadth-first search: the neighbor pass -/

namespace Net

theorem get?_set_fresh {α : Type} (l : AL α) (k : Int) (v : α)
    (h : AL.get? l k = none) :
    ∀ k2 x, AL.get? l k2 = some x → AL.get? (AL.set l k v) k2 = some x := by
  intro k2 x hx
  rw [AL.get?_set]
  by_cases hk : k2 = k
  · exfalso
    rw [hk] at hx
    rw [hx] at h
    cases h
  · rw [if_neg hk]
    exact hx

theorem camino_fresh_write (padre : PMap) (fuente u v d : Int) (f : Nat)
    (steps : List (Int × Int × Int))
    (hnone : AL.get? padre v = none) (hvf : v ≠ fuente)
    (hw : camino padre fuente f u = some steps) :
    camino (AL.set padre v (u, d)) fuente (f + 1) v = some ((u, v, d) :: steps) := by
  unfold camino
  rw [if_neg hvf, AL.get?_set, if_pos rfl]
  dsimp only
  rw [camino_ext padre (AL.set padre v (u, d)) fuente
    (get?_set_fresh padre v (u, d) hnone) f u steps hw]
  rfl

theorem padreOk_set_fresh (g : Net) (fuente u v d : Int) (padre : PMap)
    (hpo : PadreOk g fuente padre) (hres : 0 < residual g u v d) :
    PadreOk g fuente (AL.set padre v (u, d)) := by
  intro w uu dd hw hget
  rw [AL.get?_set] at hget
  by_cases hwv : w = v
  · rw [if_pos hwv] at hget
    cases hget
    rw [hwv]
    exact hres
  · rw [if_neg hwv] at hget
    exact hpo w uu dd hw hget

theorem bfs_explora_inr (g : Net) (L : List Int) (fuente sumidero u : Int) :
    ∀ (att : List (Int × Int)) (q : List Int) (padre : PMap)
      (q2 : List Int) (padre2 : PMap),
      bfs_explora g sumidero u att q padre = .inr (q2, padre2) →
      (AL.keys padre).Nodup → (∀ x ∈ AL.keys padre, x ∈ L) →
      (∀ a ∈ att, a.1 ∈ L) → (∀ x ∈ q, x ∈ AL.keys padre) →
      u ∈ AL.keys padre → fuente ∈ AL.keys padre →
      (∀ w ∈ AL.keys padre, ∃ f steps, camino padre fuente f w = some steps) →
      PadreOk g fuente padre →
      BfsStep g L fuente sumidero q padre q2 padre2 ∧
      (∀ a ∈ att, 0 < residual g u a.1 a.2 → a.1 ∈ AL.keys padre2) := by
  intro att
  induction att with
  | nil =>
    intro q padre q2 padre2 h hnd hsub _ hq hu hf hwalks hpo
    cases h
    refine ⟨⟨hnd, hsub, fun k x hx => hx, fun x hx => hx,
      fun x hx => Or.inl hx, hq, fun x hx => hx, hwalks, hpo, le_refl _,
      fun hx => hx⟩, ?_⟩
    intro a ha
    cases ha
  | cons a rest ih =>
    obtain ⟨v, d⟩ := a
    intro q padre q2 padre2 h hnd hsub hatt hq hu hf hwalks hpo
    unfold bfs_explora at h
    by_cases hg : (AL.get? padre v).isNone ∧ 0 < residual g u v d
    · rw [if_pos hg] at h
      have hnone : AL.get? padre v = none := Option.isNone_iff_eq_none.mp hg.1
      have hvk : v ∉ AL.keys padre := (AL.get?_eq_none_iff padre v).mp hnone
      by_cases hvs : v = sumidero
      · rw [if_pos hvs] at h
        cases h
      · rw [if_neg hvs] at h
        have hkeys : AL.keys (AL.set padre v (u, d)) = AL.keys padre ++ [v] := by
          rw [AL.keys_set, if_neg hvk]
        have hsub2 : ∀ x ∈ AL.keys (AL.set padre v (u, d)), x ∈ L := by
          intro x hx
          rw [hkeys] at hx
          rcases List.mem_append.mp hx with hx | hx
          · exact hsub x hx
          · rcases List.mem_singleton.mp hx with rfl
            exact hatt (x, d) (List.mem_cons_self _ _)
        have hmemk : ∀ x ∈ AL.keys padre, x ∈ AL.keys (AL.set padre v (u, d)) := by
          intro x hx
          rw [hkeys]
          exact List.mem_append.mpr (Or.inl hx)
        have hvink : v ∈ AL.keys (AL.set padre v (u, d)) := by
          rw [hkeys]
          exact List.mem_append.mpr (Or.inr (List.mem_singleton.mpr rfl))
        have hvf : v ≠ fuente := by
          intro he
          exact hvk (he ▸ hf)
        have hwalks2 : ∀ w ∈ AL.keys (AL.set padre v (u, d)),
            ∃ f steps, camino (AL.set padre v (u, d)) fuente f w = some steps := by
          intro w hw
          rw [hkeys] at hw
          rcases List.mem_append.mp hw with hw | hw
          · obtain ⟨f0, steps0, hst⟩ := hwalks w hw
            exact ⟨f0, steps0, camino_ext padre _ fuente
              (get?_set_fresh padre v (u, d) hnone) f0 w steps0 hst⟩
          · rcases List.mem_singleton.mp hw with rfl
            obtain ⟨f0, steps0, hst⟩ := hwalks u hu
            exact ⟨f0 + 1, (u, w, d) :: steps0,
              camino_fresh_write padre fuente u w d f0 steps0 hnone hvf hst⟩
        obtain ⟨hstep, hcov⟩ := ih (q ++ [v]) (AL.set padre v (u, d)) q2 padre2 h
          (AL.nodup_keys_set padre v (u, d) hnd) hsub2
          (fun a ha => hatt a (List.mem_cons_of_mem _ ha))
          (by
            intro x hx
            rcases List.mem_append.mp hx with hx | hx
            · exact hmemk x (hq x hx)
            · rcases List.mem_singleton.mp hx with rfl
              exact hvink)
          (hmemk u hu) (hmemk fuente hf) hwalks2
          (padreOk_set_fresh g fuente u v d padre hpo hg.2)
        have hlenk : (AL.keys padre).length + 1 ≤ L.length := by
          have := nodup_subset_length (AL.nodup_keys_set padre v (u, d) hnd) hsub2
          rw [hkeys] at this
          simpa using this
        refine ⟨⟨hstep.nodup, hstep.sub,
          fun k x hx => hstep.ext k x (get?_set_fresh padre v (u, d) hnone k x hx),
          fun x hx => hstep.keysMono x (hmemk x hx), ?_, hstep.qsub,
          fun x hx => hstep.qmono x (List.mem_append.mpr (Or.inl hx)),
          hstep.walks, hstep.padreOk, ?_, ?_⟩, ?_⟩
        · intro x hx
          rcases hstep.newq x hx with hx2 | hx2
          · rw [hkeys] at hx2
            rcases List.mem_append.mp hx2 with hx3 | hx3
            · exact Or.inl hx3
            · rcases List.mem_singleton.mp hx3 with rfl
              exact Or.inr (hstep.qmono x (List.mem_append.mpr
                (Or.inr (List.mem_singleton.mpr rfl))))
          · exact Or.inr hx2
        · have hm := hstep.measure
          rw [hkeys] at hm
          simp only [List.length_append, List.length_singleton] at hm
          omega
        · intro hsk
          refine hstep.sink ?_
          rw [hkeys]
          intro hmem
          rcases List.mem_append.mp hmem with hmem | hmem
          · exact hsk hmem
          · exact hvs (List.mem_singleton.mp hmem).symm
        · intro a ha hres
          rcases List.mem_cons.mp ha with rfl | ha2
          · exact hstep.keysMono v hvink
          · exact hcov a ha2 hres
    · rw [if_neg hg] at h
      obtain ⟨hstep, hcov⟩ := ih q padre q2 padre2 h hnd hsub
        (fun a ha => hatt a (List.mem_cons_of_mem _ ha)) hq hu hf hwalks hpo
      refine ⟨hstep, ?_⟩
      intro a ha hres
      rcases List.mem_cons.mp ha with rfl | ha2
      · have hvk : v ∈ AL.keys padre := by
          by_contra hnk
          exact hg ⟨Option.isNone_iff_eq_none.mpr ((AL.get?_eq_none_iff padre v).mpr hnk),
            hres⟩
        exact hstep.keysMono v hvk
      · exact hcov a ha2 hres

theorem bfs_explora_inl (g : Net) (fuente sumidero u : Int) :
    ∀ (att : List (Int × Int)) (q : List Int) (padre : PMap) (padre2 : PMap),
      bfs_explora g sumidero u att q padre = .inl padre2 →
      u ∈ AL.keys padre → fuente ∈ AL.keys padre →
      (∀ w ∈ AL.keys padre, ∃ f steps, camino padre fuente f w = some steps) →
      PadreOk g fuente padre →
      (∃ f steps, camino padre2 fuente f sumidero = some steps) ∧
      PadreOk g fuente padre2 := by
  intro att
  induction att with
  | nil =>
    intro q padre padre2 h _ _ _ _
    cases h
  | cons a rest ih =>
    obtain ⟨v, d⟩ := a
    intro q padre padre2 h hu hf hwalks hpo
    unfold bfs_explora at h
    by_cases hg : (AL.get? padre v).isNone ∧ 0 < residual g u v d
    · rw [if_pos hg] at h
      have hnone : AL.get? padre v = none := Option.isNone_iff_eq_none.mp hg.1
      have hvk : v ∉ AL.keys padre := (AL.get?_eq_none_iff padre v).mp hnone
      have hvf : v ≠ fuente := by
        intro he
        exact hvk (he ▸ hf)
      have hkeys : AL.keys (AL.set padre v (u, d)) = AL.keys padre ++ [v] := by
        rw [AL.keys_set, if_neg hvk]
      by_cases hvs : v = sumidero
      · rw [if_pos hvs] at h
        cases h
        obtain ⟨f0, steps0, hst⟩ := hwalks u hu
        refine ⟨⟨f0 + 1, (u, v, d) :: steps0, ?_⟩,
          padreOk_set_fresh g fuente u v d padre hpo hg.2⟩
        rw [← hvs]
        exact camino_fresh_write padre fuente u v d f0 steps0 hnone hvf hst
      · rw [if_neg hvs] at h
        refine ih (q ++ [v]) (AL.set padre v (u, d)) padre2 h
          (by rw [hkeys]; exact List.mem_append.mpr (Or.inl hu))
          (by rw [hkeys]; exact List.mem_append.mpr (Or.inl hf))
          ?_ (padreOk_set_fresh g fuente u v d padre hpo hg.2)
        intro w hw
        rw [hkeys] at hw
        rcases List.mem_append.mp hw with hw | hw
        · obtain ⟨f0, steps0, hst⟩ := hwalks w hw
          exact ⟨f0, steps0, camino_ext padre _ fuente
            (get?_set_fresh padre v (u, d) hnone) f0 w steps0 hst⟩
        · rcases List.mem_singleton.mp hw with rfl
          obtain ⟨f0, steps0, hst⟩ := hwalks u hu
          exact ⟨f0 + 1, (u, w, d) :: steps0,
            camino_fresh_write padre fuente u w d f0 steps0 hnone hvf hst⟩
    · rw [if_neg hg] at h
      exact ih q padre padre2 h hu hf hwalks hpo

end Net


/-! ## Breadth-first search: the queue loop -/

namespace Net

theorem bfs_bucle_spec (g : Net) (L : List Int) (fuente sumidero : Int)
    (hady : ∀ u v, v ∈ adyOf g u → v ∈ L) :
    ∀ (fuel : Nat) (q : List Int) (padre : PMap),
      (AL.keys padre).Nodup → (∀ x ∈ AL.keys padre, x ∈ L) →
      (∀ x ∈ q, x ∈ AL.keys padre) → fuente ∈ AL.keys padre →
      (∀ w ∈ AL.keys padre, ∃ f steps, camino padre fuente f w = some steps) →
      PadreOk g fuente padre →
      sumidero ∉ AL.keys padre →
      (∀ w ∈ AL.keys padre, w ∈ q ∨
        ∀ v ∈ adyOf g w,
          (0 < residual_adelante g w v ∨ 0 < residual_atras g w v) →
            v ∈ AL.keys padre) →
      q.length + (L.length - (AL.keys padre).length) < fuel →
      (∃ padre2, bfs_bucle g sumidero fuel q padre = some (some padre2) ∧
        (∃ f steps, camino padre2 fuente f sumidero = some steps) ∧
        PadreOk g fuente padre2) ∨
      (bfs_bucle g sumidero fuel q padre = some none ∧
        ∃ R : List Int, fuente ∈ R ∧ sumidero ∉ R ∧ cerrado g R) := by
  intro fuel
  induction fuel with
  | zero =>
    intro q padre _ _ _ _ _ _ _ _ hbound
    omega
  | succ n ih =>
    intro q padre hnd hsub hq hf hwalks hpo hsk hclose hbound
    rcases q with _ | ⟨u, q1⟩
    · right
      refine ⟨rfl, AL.keys padre, hf, hsk, ?_⟩
      intro w hw v hv hres
      rcases hclose w hw with hcq | hcc
      · cases hcq
      · exact hcc v hv hres
    · have hu : u ∈ AL.keys padre := hq u (List.mem_cons_self _ _)
      have hus : u ≠ sumidero := by
        intro he
        exact hsk (he ▸ hu)
      rcases he : bfs_explora g sumidero u (intentos (adyOf g u)) q1 padre
        with padre2 | qp
      · have hrun : bfs_bucle g sumidero (n + 1) (u :: q1) padre
            = some (some padre2) := by
          unfold bfs_bucle
          dsimp only
          rw [if_neg hus, he]
        obtain ⟨hwalk2, hpo2⟩ := bfs_explora_inl g fuente sumidero u
          (intentos (adyOf g u)) q1 padre padre2 he hu hf hwalks hpo
        exact Or.inl ⟨padre2, hrun, hwalk2, hpo2⟩
      · obtain ⟨q2, padre2⟩ := qp
        have hrun : bfs_bucle g sumidero (n + 1) (u :: q1) padre
            = bfs_bucle g sumidero n q2 padre2 := by
          conv_lhs => unfold bfs_bucle
          dsimp only
          rw [if_neg hus, he]
        obtain ⟨hstep, hcov⟩ := bfs_explora_inr g L fuente sumidero u
          (intentos (adyOf g u)) q1 padre q2 padre2 he hnd hsub
          (fun a ha => hady u a.1 (mem_fst_intentos ha))
          (fun x hx => hq x (List.mem_cons_of_mem _ hx)) hu hf hwalks hpo
        have hcov2 : ∀ v ∈ adyOf g u,
            (0 < residual_adelante g u v ∨ 0 < residual_atras g u v) →
              v ∈ AL.keys padre2 := by
          intro v hv hres
          rcases hres with hres | hres
          · refine hcov (v, 1) (intentos_cover hv).1 ?_
            show 0 < residual g u v 1
            unfold residual
            rw [if_pos rfl]
            exact hres
          · refine hcov (v, -1) (intentos_cover hv).2 ?_
            show 0 < residual g u v (-1)
            unfold residual
            rw [if_neg (by norm_num)]
            exact hres
        have hclose2 : ∀ w ∈ AL.keys padre2, w ∈ q2 ∨
            ∀ v ∈ adyOf g w,
              (0 < residual_adelante g w v ∨ 0 < residual_atras g w v) →
                v ∈ AL.keys padre2 := by
          intro w hw
          rcases hstep.newq w hw with hwk | hwq
          · rcases hclose w hwk with hwq0 | hcc
            · rcases List.mem_cons.mp hwq0 with rfl | hq1
              · exact Or.inr hcov2
              · exact Or.inl (hstep.qmono w hq1)
            · exact Or.inr (fun v hv hres => hstep.keysMono v (hcc v hv hres))
          · exact Or.inl hwq
        have hbound2 : q2.length + (L.length - (AL.keys padre2).length) < n := by
          have hm := hstep.measure
          simp only [List.length_cons] at hbound
          omega
        rw [hrun]
        exact ih q2 padre2 hstep.nodup hstep.sub hstep.qsub
          (hstep.keysMono fuente hf) hstep.walks hstep.padreOk
          (hstep.sink hsk) hclose2 hbound2

theorem bfs_aumento_spec (g : Net) (fuente sumidero : Int)
    (hne : fuente ≠ sumidero) :
    (∃ padre2, bfs_aumento g fuente sumidero (dfsFuel g) = some (some padre2) ∧
      (∃ f steps, camino padre2 fuente f sumidero = some steps) ∧
      PadreOk g fuente padre2) ∨
    (bfs_aumento g fuente sumidero (dfsFuel g) = some none ∧
      ∃ R : List Int, fuente ∈ R ∧ sumidero ∉ R ∧ cerrado g R) := by
  unfold bfs_aumento
  have hkeys : AL.keys (AL.set ([] : PMap) fuente (fuente, 0)) = [fuente] := rfl
  refine bfs_bucle_spec g (poolDFS g fuente) fuente sumidero
    (fun u v hv => mem_poolDFS_of_ady g fuente u v hv) (dfsFuel g)
    [fuente] (AL.set [] fuente (fuente, 0)) ?_ ?_ ?_ ?_ ?_ ?_ ?_ ?_ ?_
  · rw [hkeys]
    exact List.nodup_singleton _
  · rw [hkeys]
    intro x hx
    rcases List.mem_singleton.mp hx with rfl
    exact List.mem_cons_self _ _
  · intro x hx
    rw [hkeys]
    exact hx
  · rw [hkeys]
    exact List.mem_singleton.mpr rfl
  · intro w hw
    rw [hkeys] at hw
    rcases List.mem_singleton.mp hw with rfl
    exact ⟨1, [], by rw [camino_self]⟩
  · intro v uu dd hv hget
    exfalso
    rw [AL.get?_set] at hget
    rw [if_neg hv] at hget
    cases hget
  · rw [hkeys]
    intro hmem
    exact hne (List.mem_singleton.mp hmem).symm
  · intro w hw
    rw [hkeys] at hw
    rcases List.mem_singleton.mp hw with rfl
    exact Or.inl (List.mem_singleton.mpr rfl)
  · rw [hkeys, dfsFuel_eq_pool g fuente]
    unfold poolDFS
    simp only [List.length_cons, List.length_singleton, List.length_nil]
    omega

end Net


/-! ## One augmentation of the main loops -/

namespace Net

theorem excessT_le_capOut (cap fl : AL (AL Int)) (V : Finset Int) (w : Int)
    (hok : FlowOk cap fl) : excessT fl V w ≤ capOut cap V w := by
  unfold excessT capOut
  refine Finset.sum_le_sum ?_
  intro v _
  have h1 := hok w v
  have h2 := hok v w
  omega

theorem flowOk_reiniciar (g : Net) (hwf : WF g) :
    FlowOk g.capacidad (reiniciar_flujos g).flujo := by
  intro u v
  rw [tabGet_reiniciar]
  exact ⟨le_refl 0, hwf.capGetNonneg u v⟩

theorem excessT_reiniciar (g : Net) (V : Finset Int) (w : Int) :
    excessT (reiniciar_flujos g).flujo V w = 0 := by
  unfold excessT
  refine Finset.sum_eq_zero ?_
  intro v _
  rw [tabGet_reiniciar, tabGet_reiniciar]
  ring

theorem paso_aumento (g : Net) (fuente sumidero : Int)
    (hne : sumidero ≠ fuente) (fl : AL (AL Int)) (padre : PMap)
    (hok : FlowOk g.capacidad fl)
    (hpo : PadreOk { g with flujo := fl } fuente padre)
    (hwalk : ∃ f steps, camino padre fuente f sumidero = some steps) :
    ∃ steps b,
      camino padre fuente (padre.length + 1) sumidero = some steps ∧
      cuello { g with flujo := fl } steps = some b ∧ 1 ≤ b ∧
      FlowOk g.capacidad (aplicar fl steps b) ∧
      (∀ w, excessT (aplicar fl steps b) (univNodes g) w
        = excessT fl (univNodes g) w
          + ((if w = fuente then b else 0) - (if w = sumidero then b else 0))) := by
  obtain ⟨f, steps, hst⟩ := hwalk
  have hst1 := camino_minfuel padre fuente f sumidero steps hst
  obtain ⟨hnd, hfn, _⟩ := camino_nodup padre fuente f sumidero steps hst
  have hlen : steps.length ≤ padre.length := by
    have hkeys : ∀ x ∈ steps.map (fun s => s.2.1), x ∈ AL.keys padre := by
      intro x hx
      obtain ⟨s, hs, hsx⟩ := List.mem_map.mp hx
      have hget := camino_mem padre fuente f sumidero steps hst s hs
      rw [← hsx, ← AL.isSome_get?_iff, hget]
      rfl
    have := nodup_subset_length hnd hkeys
    unfold AL.keys at this
    simpa using this
  have hst2 : camino padre fuente (padre.length + 1) sumidero = some steps := by
    have := camino_mono padre fuente (steps.length + 1)
      (padre.length - steps.length) sumidero steps hst1
    rwa [show steps.length + 1 + (padre.length - steps.length)
      = padre.length + 1 from by omega] at this
  have hres : ∀ s ∈ steps, 0 < residual { g with flujo := fl } s.1 s.2.1 s.2.2 := by
    intro s hs
    have hget := camino_mem padre fuente f sumidero steps hst s hs
    have hsf : s.2.1 ≠ fuente := by
      intro he
      exact hfn (he ▸ List.mem_map_of_mem (fun s => s.2.1) hs)
    exact hpo s.2.1 s.1 s.2.2 hsf hget
  have hnil : steps ≠ [] := camino_ne_nil padre fuente f sumidero steps hst hne
  obtain ⟨b, hcuello, hb1, hble⟩ := cuello_pos { g with flujo := fl } steps hnil hres
  have hmem : ∀ s ∈ steps, s.1 ∈ univNodes g ∧ s.2.1 ∈ univNodes g := by
    intro s hs
    have hrs := hres s hs
    unfold residual at hrs
    by_cases hd : s.2.2 = 1
    · rw [if_pos hd] at hrs
      unfold residual_adelante at hrs
      have hofl := (hok s.1 s.2.1).1
      exact mem_univNodes_of_capNonzero g s.1 s.2.1 (by
        show tabGet g.capacidad s.1 s.2.1 ≠ 0
        have h3 : tabGet { g with flujo := fl }.capacidad s.1 s.2.1
            - tabGet { g with flujo := fl }.flujo s.1 s.2.1 > 0 := hrs
        dsimp only at h3
        omega)
    · rw [if_neg hd] at hrs
      unfold residual_atras at hrs
      have hofl := (hok s.2.1 s.1).2
      have hcap : tabGet g.capacidad s.2.1 s.1 ≠ 0 := by
        have h3 : tabGet { g with flujo := fl }.flujo s.2.1 s.1 > 0 := hrs
        dsimp only at h3
        omega
      obtain ⟨h1, h2⟩ := mem_univNodes_of_capNonzero g s.2.1 s.1 hcap
      exact ⟨h2, h1⟩
  have hok2 : FlowOk g.capacidad (aplicar fl steps b) := by
    refine flowOk_aplicar g.capacidad b hb1 steps fl hok ?_ ?_ ?_
    · intro s hs hd
      have := hble s hs
      unfold residual at this
      rw [if_pos hd] at this
      unfold residual_adelante at this
      exact this
    · intro s hs hd
      have := hble s hs
      unfold residual at this
      rw [if_neg hd] at this
      unfold residual_atras at this
      exact this
    · exact cadena_tocados_nodup fuente steps sumidero
        (camino_cadena padre fuente f sumidero steps hst) hnd hfn
  refine ⟨steps, b, hst2, hcuello, hb1, hok2, ?_⟩
  intro w
  exact excessT_aplicar fl (univNodes g) b fuente sumidero steps
    (camino_cadena padre fuente f sumidero steps hst) hmem w

end Net


/-! ## Cuts: weak duality and the saturated cut of a failed search -/

namespace Net

theorem sum_excess_cross (fl : AL (AL Int)) (V S : Finset Int) (hS : S ⊆ V) :
    ∑ w ∈ S, excessT fl V w
      = ∑ u ∈ S, ∑ v ∈ V \ S, (tabGet fl u v - tabGet fl v u) := by
  unfold excessT
  have hsplit : ∀ w : Int, ∑ v ∈ V, (tabGet fl w v - tabGet fl v w)
      = ∑ v ∈ S, (tabGet fl w v - tabGet fl v w)
        + ∑ v ∈ V \ S, (tabGet fl w v - tabGet fl v w) := by
    intro w
    rw [add_comm, Finset.sum_sdiff hS]
  rw [Finset.sum_congr rfl (fun w _ => hsplit w), Finset.sum_add_distrib]
  have hzero : ∑ w ∈ S, ∑ v ∈ S, (tabGet fl w v - tabGet fl v w) = 0 := by
    have hone : ∀ w : Int, ∑ v ∈ S, (tabGet fl w v - tabGet fl v w)
        = (∑ v ∈ S, tabGet fl w v) - ∑ v ∈ S, tabGet fl v w :=
      fun w => Finset.sum_sub_distrib
    rw [Finset.sum_congr rfl (fun w _ => hone w), Finset.sum_sub_distrib,
      sub_eq_zero]
    exact Finset.sum_comm
  rw [hzero, zero_add]

theorem sum_excess_source (fl : AL (AL Int)) (V S : Finset Int)
    (fuente sumidero : Int) (hcons : Conserva fl V fuente sumidero)
    (hf : fuente ∈ S) (hs : sumidero ∉ S) :
    ∑ w ∈ S, excessT fl V w = excessT fl V fuente := by
  refine Finset.sum_eq_single_of_mem fuente hf ?_
  intro w hw hne
  exact hcons w hne (fun he => hs (he ▸ hw))

theorem excess_le_cutCap (cap fl : AL (AL Int)) (V S : Finset Int)
    (fuente sumidero : Int) (hok : FlowOk cap fl)
    (hcons : Conserva fl V fuente sumidero)
    (hf : fuente ∈ S) (hs : sumidero ∉ S) (hS : S ⊆ V) :
    excessT fl V fuente ≤ cutCap cap V S := by
  rw [← sum_excess_source fl V S fuente sumidero hcons hf hs,
    sum_excess_cross fl V S hS]
  unfold cutCap
  refine Finset.sum_le_sum ?_
  intro u _
  refine Finset.sum_le_sum ?_
  intro v _
  have h2 := hok u v
  have h3 := hok v u
  omega

theorem cut_of_cerrado (g : Net) (hwf : WF g) (fl : AL (AL Int))
    (hok : FlowOk g.capacidad fl) (R : List Int)
    (hc : cerrado { g with flujo := fl } R) (fuente sumidero : Int)
    (hfR : fuente ∈ R) (hsR : sumidero ∉ R)
    (hcons : Conserva fl (univNodes g) fuente sumidero)
    (hfV : fuente ∈ univNodes g) :
    ∃ S : Finset Int, fuente ∈ S ∧ sumidero ∉ S ∧ S ⊆ univNodes g ∧
      excessT fl (univNodes g) fuente = cutCap g.capacidad (univNodes g) S := by
  have hfS : fuente ∈ R.toFinset ∩ univNodes g :=
    Finset.mem_inter.mpr ⟨List.mem_toFinset.mpr hfR, hfV⟩
  have hsS : sumidero ∉ R.toFinset ∩ univNodes g := by
    intro hmem
    exact hsR (List.mem_toFinset.mp (Finset.mem_inter.mp hmem).1)
  refine ⟨R.toFinset ∩ univNodes g, hfS, hsS, Finset.inter_subset_right, ?_⟩
  rw [← sum_excess_source fl (univNodes g) (R.toFinset ∩ univNodes g)
      fuente sumidero hcons hfS hsS,
    sum_excess_cross fl (univNodes g) (R.toFinset ∩ univNodes g)
      Finset.inter_subset_right]
  unfold cutCap
  refine Finset.sum_congr rfl ?_
  intro u hu
  refine Finset.sum_congr rfl ?_
  intro v hv
  have huR : u ∈ R := List.mem_toFinset.mp (Finset.mem_inter.mp hu).1
  have hvV : v ∈ univNodes g := (Finset.mem_sdiff.mp hv).1
  have hvS : v ∉ R.toFinset ∩ univNodes g := (Finset.mem_sdiff.mp hv).2
  have hvR : v ∉ R := fun h =>
    hvS (Finset.mem_inter.mpr ⟨List.mem_toFinset.mpr h, hvV⟩)
  by_cases hady : v ∈ adyOf g u
  · have hnres : ¬(0 < residual_adelante { g with flujo := fl } u v
        ∨ 0 < residual_atras { g with flujo := fl } u v) := by
      intro hres
      exact hvR (hc u huR v hady hres)
    push_neg at hnres
    obtain ⟨h1a, h2a⟩ := hnres
    unfold residual_adelante at h1a
    unfold residual_atras at h2a
    dsimp only at h1a h2a
    have hokuv := hok u v
    have hokvu := hok v u
    omega
  · have hcap : tabGet g.capacidad u v = 0 := by
      rcases lt_or_eq_of_le (hwf.capGetNonneg u v) with h | h
      · exact absurd (hwf.capGetAdy h) hady
      · exact h.symm
    have hcapvu : tabGet g.capacidad v u = 0 := by
      rcases lt_or_eq_of_le (hwf.capGetNonneg v u) with h | h
      · exact absurd (hwf.adyMem (hwf.capGetAdy h)) hady
      · exact h.symm
    have hokuv := hok u v
    have hokvu := hok v u
    omega

end Net


/-! ## The Ford-Fulkerson loop: termination and exit invariants -/

namespace Net

theorem padreOk_nil (g : Net) (fuente : Int) : PadreOk g fuente [] := by
  intro v u d _ hget
  simp [AL.get?] at hget

theorem ff_bucle_term (g : Net) (fuente sumidero : Int)
    (hne : sumidero ≠ fuente) :
    ∀ (fuel : Nat) (fl : AL (AL Int)) (t0 : Int),
      FlowOk g.capacidad fl →
      (capOut g.capacidad (univNodes g) fuente
        - excessT fl (univNodes g) fuente).toNat < fuel →
      ∃ t fl2, ff_bucle g fuente sumidero fuel fl (some t0) = some (some t, fl2) := by
  intro fuel
  induction fuel with
  | zero =>
    intro fl t0 _ hm
    omega
  | succ n ih =>
    intro fl t0 hok hm
    obtain ⟨b, vis2, p2, hd, _, _, _⟩ :=
      dfs_aumento_total { g with flujo := fl }
        (poolDFS { g with flujo := fl } fuente) sumidero
        (fun u v hv => mem_poolDFS_of_ady _ fuente u v hv)
        (dfsFuel { g with flujo := fl }) fuente [] []
        List.nodup_nil (by intro x hx; cases hx) (List.not_mem_nil fuente)
        (List.mem_cons_self _ _)
        (by
          rw [dfsFuel_eq_pool { g with flujo := fl } fuente]
          simp)
    cases b
    · refine ⟨t0, fl, ?_⟩
      unfold ff_bucle
      dsimp only
      rw [hd]
    · have hpo2 : PadreOk { g with flujo := fl } fuente p2 :=
        (dfs_aumento_basic { g with flujo := fl } fuente sumidero
          (dfsFuel { g with flujo := fl }) fuente [] [] true vis2 p2 hd).2.2
          (padreOk_nil _ _)
      have hwalk : ∃ f steps, camino p2 fuente f sumidero = some steps :=
        dfs_aumento_walk { g with flujo := fl } fuente sumidero
          (dfsFuel { g with flujo := fl }) fuente [] [] vis2 p2 hd
          ⟨1, [], by rw [camino_self], by intro s hs; cases hs⟩
          (mem_sadd.mpr (Or.inr rfl))
      obtain ⟨steps, bv, hcam, hcuello, hb1, hok2, hexc⟩ :=
        paso_aumento g fuente sumidero hne fl p2 hok hpo2 hwalk
      have hex := hexc fuente
      rw [if_pos rfl, if_neg (fun he => hne he.symm)] at hex
      have hle := excessT_le_capOut g.capacidad (aplicar fl steps bv)
        (univNodes g) fuente hok2
      have hm2 : (capOut g.capacidad (univNodes g) fuente
          - excessT (aplicar fl steps bv) (univNodes g) fuente).toNat < n := by
        omega
      obtain ⟨t, fl2, hrun⟩ := ih (aplicar fl steps bv) (t0 + bv) hok2 hm2
      refine ⟨t, fl2, ?_⟩
      unfold ff_bucle
      dsimp only
      rw [hd]
      dsimp only
      rw [hcam]
      dsimp only
      rw [hcuello]
      exact hrun

theorem ff_bucle_exit (g : Net) (hwf : WF g) (fuente sumidero : Int)
    (hne : sumidero ≠ fuente) (hfV : fuente ∈ univNodes g) :
    ∀ (fuel : Nat) (fl : AL (AL Int)) (total t : Option Int) (fl2 : AL (AL Int)),
      ff_bucle g fuente sumidero fuel fl total = some (t, fl2) →
      FlowOk g.capacidad fl →
      Conserva fl (univNodes g) fuente sumidero →
      total = some (excessT fl (univNodes g) fuente) →
      FlowOk g.capacidad fl2 ∧ Conserva fl2 (univNodes g) fuente sumidero ∧
      t = some (excessT fl2 (univNodes g) fuente) ∧
      ∃ S : Finset Int, fuente ∈ S ∧ sumidero ∉ S ∧ S ⊆ univNodes g ∧
        excessT fl2 (univNodes g) fuente = cutCap g.capacidad (univNodes g) S := by
  intro fuel
  induction fuel with
  | zero =>
    intro fl total t fl2 h
    cases h
  | succ n ih =>
    intro fl total t fl2 h hok hcons htot
    unfold ff_bucle at h
    dsimp only at h
    rcases hd : dfs_aumento { g with flujo := fl } sumidero
        (dfsFuel { g with flujo := fl }) fuente [] [] with _ | ⟨b, vis2, p2⟩
    · rw [hd] at h
      cases h
    · rw [hd] at h
      cases b
      · dsimp only at h
        cases h
        refine ⟨hok, hcons, htot, ?_⟩
        obtain ⟨hE, hcov, hact, hsnot⟩ :=
          dfs_aumento_closed { g with flujo := fl } fuente sumidero
            (dfsFuel { g with flujo := fl }) fuente [] [] vis2 p2 hd
        refine cut_of_cerrado g hwf fl hok vis2 ?_ fuente sumidero hact
          (hsnot (List.not_mem_nil sumidero)) hcons hfV
        intro u hu v hv hres
        exact hE u hu (List.not_mem_nil u) v hv hres
      · dsimp only at h
        have hpo2 : PadreOk { g with flujo := fl } fuente p2 :=
          (dfs_aumento_basic { g with flujo := fl } fuente sumidero
            (dfsFuel { g with flujo := fl }) fuente [] [] true vis2 p2 hd).2.2
            (padreOk_nil _ _)
        have hwalk : ∃ f steps, camino p2 fuente f sumidero = some steps :=
          dfs_aumento_walk { g with flujo := fl } fuente sumidero
            (dfsFuel { g with flujo := fl }) fuente [] [] vis2 p2 hd
            ⟨1, [], by rw [camino_self], by intro s hs; cases hs⟩
            (mem_sadd.mpr (Or.inr rfl))
        obtain ⟨steps, bv, hcam, hcuello, hb1, hok2, hexc⟩ :=
          paso_aumento g fuente sumidero hne fl p2 hok hpo2 hwalk
        rw [hcam] at h
        dsimp only at h
        rw [hcuello] at h
        have hex := hexc fuente
        rw [if_pos rfl, if_neg (fun he => hne he.symm)] at hex
        have hcons2 : Conserva (aplicar fl steps bv) (univNodes g)
            fuente sumidero := by
          intro w hw1 hw2
          rw [hexc w, if_neg hw1, if_neg hw2, hcons w hw1 hw2]
          ring
        have htot2 : addOpt total (some bv)
            = some (excessT (aplicar fl steps bv) (univNodes g) fuente) := by
          rw [htot]
          show some (excessT fl (univNodes g) fuente + bv) = _
          rw [hex]
          ring_nf
        exact ih (aplicar fl steps bv) (addOpt total (some bv)) t fl2 h
          hok2 hcons2 htot2

end Net


/-! ## The Edmonds-Karp loop: termination and exit invariants -/

namespace Net

theorem ek_bucle_term (g : Net) (fuente sumidero : Int)
    (hne : sumidero ≠ fuente) :
    ∀ (fuel : Nat) (fl : AL (AL Int)) (t0 : Int),
      FlowOk g.capacidad fl →
      (capOut g.capacidad (univNodes g) fuente
        - excessT fl (univNodes g) fuente).toNat < fuel →
      ∃ t fl2, ek_bucle g fuente sumidero fuel fl (some t0) = some (some t, fl2) := by
  intro fuel
  induction fuel with
  | zero =>
    intro fl t0 _ hm
    omega
  | succ n ih =>
    intro fl t0 hok hm
    rcases bfs_aumento_spec { g with flujo := fl } fuente sumidero
        (fun he => hne he.symm) with ⟨padre2, heq, hwalk, hpo2⟩ | ⟨heq, _⟩
    · obtain ⟨steps, bv, hcam, hcuello, hb1, hok2, hexc⟩ :=
        paso_aumento g fuente sumidero hne fl padre2 hok hpo2 hwalk
      have hex := hexc fuente
      rw [if_pos rfl, if_neg (fun he => hne he.symm)] at hex
      have hle := excessT_le_capOut g.capacidad (aplicar fl steps bv)
        (univNodes g) fuente hok2
      have hm2 : (capOut g.capacidad (univNodes g) fuente
          - excessT (aplicar fl steps bv) (univNodes g) fuente).toNat < n := by
        omega
      obtain ⟨t, fl2, hrun⟩ := ih (aplicar fl steps bv) (t0 + bv) hok2 hm2
      refine ⟨t, fl2, ?_⟩
      unfold ek_bucle
      dsimp only
      rw [heq]
      dsimp only
      rw [hcam]
      dsimp only
      rw [hcuello]
      exact hrun
    · refine ⟨t0, fl, ?_⟩
      unfold ek_bucle
      dsimp only
      rw [heq]

theorem ek_bucle_exit (g : Net) (hwf : WF g) (fuente sumidero : Int)
    (hne : sumidero ≠ fuente) (hfV : fuente ∈ univNodes g) :
    ∀ (fuel : Nat) (fl : AL (AL Int)) (total t : Option Int) (fl2 : AL (AL Int)),
      ek_bucle g fuente sumidero fuel fl total = some (t, fl2) →
      FlowOk g.capacidad fl →
      Conserva fl (univNodes g) fuente sumidero →
      total = some (excessT fl (univNodes g) fuente) →
      FlowOk g.capacidad fl2 ∧ Conserva fl2 (univNodes g) fuente sumidero ∧
      t = some (excessT fl2 (univNodes g) fuente) ∧
      ∃ S : Finset Int, fuente ∈ S ∧ sumidero ∉ S ∧ S ⊆ univNodes g ∧
        excessT fl2 (univNodes g) fuente = cutCap g.capacidad (univNodes g) S := by
  intro fuel
  induction fuel with
  | zero =>
    intro fl total t fl2 h
    cases h
  | succ n ih =>
    intro fl total t fl2 h hok hcons htot
    unfold ek_bucle at h
    dsimp only at h
    rcases bfs_aumento_spec { g with flujo := fl } fuente sumidero
        (fun he => hne he.symm) with ⟨padre2, heq, hwalk, hpo2⟩ | ⟨heq, hR⟩
    · rw [heq] at h
      dsimp only at h
      obtain ⟨steps, bv, hcam, hcuello, hb1, hok2, hexc⟩ :=
        paso_aumento g fuente sumidero hne fl padre2 hok hpo2 hwalk
      rw [hcam] at h
      dsimp only at h
      rw [hcuello] at h
      have hex := hexc fuente
      rw [if_pos rfl, if_neg (fun he => hne he.symm)] at hex
      have hcons2 : Conserva (aplicar fl steps bv) (univNodes g)
          fuente sumidero := by
        intro w hw1 hw2
        rw [hexc w, if_neg hw1, if_neg hw2, hcons w hw1 hw2]
        ring
      have htot2 : addOpt total (some bv)
          = some (excessT (aplicar fl steps bv) (univNodes g) fuente) := by
        rw [htot]
        show some (excessT fl (univNodes g) fuente + bv) = _
        rw [hex]
        ring_nf
      exact ih (aplicar fl steps bv) (addOpt total (some bv)) t fl2 h
        hok2 hcons2 htot2
    · rw [heq] at h
      dsimp only at h
      cases h
      refine ⟨hok, hcons, htot, ?_⟩
      obtain ⟨R, hfR, hsR, hcR⟩ := hR
      exact cut_of_cerrado g hwf fl hok R hcR fuente sumidero hfR hsR hcons hfV

end Net


/-! ## Solver-level wrappers -/

namespace Net

theorem wf_reiniciar (g : Net) (hwf : WF g) : WF (reiniciar_flujos g) := by
  refine ⟨hwf.capPos, hwf.capKeys, hwf.capRows, ?_, ?_, hwf.adyKeys, hwf.adyRows,
    hwf.nodosNodup, hwf.adySym, hwf.capAdy⟩
  · show (AL.keys (g.flujo.map (fun p => (p.1, p.2.map (fun q => (q.1, (0 : Int))))))).Nodup
    rw [AL.keys_map_snd (fun _ row => row.map (fun q => (q.1, 0)))]
    exact hwf.flKeys
  · intro p hp
    obtain ⟨q, hq, hpq⟩ := List.mem_map.mp hp
    rw [← hpq]
    show (AL.keys (q.2.map (fun r => (r.1, (0 : Int))))).Nodup
    have hk : AL.keys (q.2.map (fun r => (r.1, (0 : Int)))) = AL.keys q.2 := by
      unfold AL.keys
      rw [List.map_map]
      rfl
    rw [hk]
    exact hwf.flRows q hq

theorem mem_univNodes_of_nodos (g : Net) (u : Int) (h : u ∈ g.nodos) :
    u ∈ univNodes g := by
  unfold univNodes
  simp only [List.mem_toFinset, List.mem_append]
  left
  left
  exact h

theorem ford_terminates (g : Net) (hwf : WF g) (fuente sumidero : Int)
    (hne : fuente ≠ sumidero) (hf : fuente ∈ g.nodos) (hs : sumidero ∈ g.nodos) :
    ∃ fuel t m,
      (ford_fulkerson_dfs g fuente sumidero fuel).2 = .ok (some (some t, m)) := by
  have hok0 : FlowOk g.capacidad (reiniciar_flujos g).flujo := flowOk_reiniciar g hwf
  obtain ⟨t, fl2, hrun⟩ := ff_bucle_term (reiniciar_flujos g) fuente sumidero
    (Ne.symm hne)
    ((capOut (reiniciar_flujos g).capacidad (univNodes (reiniciar_flujos g)) fuente
      - excessT (reiniciar_flujos g).flujo
          (univNodes (reiniciar_flujos g)) fuente).toNat + 1)
    (reiniciar_flujos g).flujo 0 hok0 (by omega)
  refine ⟨(capOut (reiniciar_flujos g).capacidad
      (univNodes (reiniciar_flujos g)) fuente
    - excessT (reiniciar_flujos g).flujo
        (univNodes (reiniciar_flujos g)) fuente).toNat + 1,
    t, mapa_flujo g.capacidad fl2, ?_⟩
  unfold ford_fulkerson_dfs
  rw [if_pos ⟨hf, hs⟩]
  dsimp only
  rw [hrun]
  rfl

theorem edmonds_terminates (g : Net) (hwf : WF g) (fuente sumidero : Int)
    (hne : fuente ≠ sumidero) (hf : fuente ∈ g.nodos) (hs : sumidero ∈ g.nodos) :
    ∃ fuel t m,
      (edmonds_karp_bfs g fuente sumidero fuel).2 = .ok (some (some t, m)) := by
  have hok0 : FlowOk g.capacidad (reiniciar_flujos g).flujo := flowOk_reiniciar g hwf
  obtain ⟨t, fl2, hrun⟩ := ek_bucle_term (reiniciar_flujos g) fuente sumidero
    (Ne.symm hne)
    ((capOut (reiniciar_flujos g).capacidad (univNodes (reiniciar_flujos g)) fuente
      - excessT (reiniciar_flujos g).flujo
          (univNodes (reiniciar_flujos g)) fuente).toNat + 1)
    (reiniciar_flujos g).flujo 0 hok0 (by omega)
  refine ⟨(capOut (reiniciar_flujos g).capacidad
      (univNodes (reiniciar_flujos g)) fuente
    - excessT (reiniciar_flujos g).flujo
        (univNodes (reiniciar_flujos g)) fuente).toNat + 1,
    t, mapa_flujo g.capacidad fl2, ?_⟩
  unfold edmonds_karp_bfs
  rw [if_pos ⟨hf, hs⟩]
  dsimp only
  rw [hrun]
  rfl

theorem ford_ok_props (g : Net) (hwf : WF g) (fuente sumidero : Int) (fuel : Nat)
    (t : Option Int) (m : List ((Int × Int) × Int)) (gf : Net)
    (h : ford_fulkerson_dfs g fuente sumidero fuel = (gf, .ok (some (t, m)))) :
    FlowOk g.capacidad gf.flujo ∧
    Conserva gf.flujo (univNodes g) fuente sumidero ∧
    t = some (excessT gf.flujo (univNodes g) fuente) ∧
    (∃ S : Finset Int, fuente ∈ S ∧ sumidero ∉ S ∧ S ⊆ univNodes g ∧
      excessT gf.flujo (univNodes g) fuente = cutCap g.capacidad (univNodes g) S) ∧
    m = mapa_flujo g.capacidad gf.flujo ∧ fuente ∈ g.nodos ∧ sumidero ∈ g.nodos := by
  obtain ⟨⟨hf, hs⟩, fl, hrun, hgf, hm⟩ := ff_ok_inv g fuente sumidero fuel t m gf h
  rcases eq_or_ne fuente sumidero with rfl | hne
  · exfalso
    rw [ff_bucle_self] at hrun
    cases hrun
  · obtain ⟨hok2, hcons2, ht2, hcut⟩ := ff_bucle_exit (reiniciar_flujos g)
      (wf_reiniciar g hwf) fuente sumidero (Ne.symm hne)
      (mem_univNodes_of_nodos g fuente hf) fuel
      (reiniciar_flujos g).flujo (some 0) t fl hrun
      (flowOk_reiniciar g hwf)
      (fun w h1 h2 => excessT_reiniciar g _ w)
      (by rw [excessT_reiniciar])
    subst hgf
    exact ⟨hok2, hcons2, ht2, hcut, hm, hf, hs⟩

theorem edmonds_ok_props (g : Net) (hwf : WF g) (fuente sumidero : Int) (fuel : Nat)
    (t : Option Int) (m : List ((Int × Int) × Int)) (gf : Net)
    (h : edmonds_karp_bfs g fuente sumidero fuel = (gf, .ok (some (t, m)))) :
    FlowOk g.capacidad gf.flujo ∧
    Conserva gf.flujo (univNodes g) fuente sumidero ∧
    t = some (excessT gf.flujo (univNodes g) fuente) ∧
    (∃ S : Finset Int, fuente ∈ S ∧ sumidero ∉ S ∧ S ⊆ univNodes g ∧
      excessT gf.flujo (univNodes g) fuente = cutCap g.capacidad (univNodes g) S) ∧
    m = mapa_flujo g.capacidad gf.flujo ∧ fuente ∈ g.nodos ∧ sumidero ∈ g.nodos := by
  obtain ⟨⟨hf, hs⟩, fl, hrun, hgf, hm⟩ := ek_ok_inv g fuente sumidero fuel t m gf h
  rcases eq_or_ne fuente sumidero with rfl | hne
  · exfalso
    rw [ek_bucle_self] at hrun
    cases hrun
  · obtain ⟨hok2, hcons2, ht2, hcut⟩ := ek_bucle_exit (reiniciar_flujos g)
      (wf_reiniciar g hwf) fuente sumidero (Ne.symm hne)
      (mem_univNodes_of_nodos g fuente hf) fuel
      (reiniciar_flujos g).flujo (some 0) t fl hrun
      (flowOk_reiniciar g hwf)
      (fun w h1 h2 => excessT_reiniciar g _ w)
      (by rw [excessT_reiniciar])
    subst hgf
    exact ⟨hok2, hcons2, ht2, hcut, hm, hf, hs⟩

end Net


/-! ## Claim C2: bottleneck and termination -/

namespace Net

/-- Counterexample to C2 as stated: with source equal to sink (a call the spec
allows: both endpoints are in the node set), the very first depth-first search
finds an "augmenting path" immediately, yet the bottleneck over its empty
backtrack walk is `float("inf")`, not a finite positive integer, and neither
solver's loop ever terminates (the model returns `.ok none`, "fuel ran out",
at every fuel). -/
theorem C2_counterexample :
    dfs_aumento { ejemploA with flujo := (reiniciar_flujos ejemploA).flujo }
        0 1 0 [] [] = some (true, [], [])
    ∧ cuello { ejemploA with flujo := (reiniciar_flujos ejemploA).flujo } [] = none
    ∧ ∀ fuel : Nat, (ford_fulkerson_dfs ejemploA 0 0 fuel).2 = Except.ok none
      ∧ (edmonds_karp_bfs ejemploA 0 0 fuel).2 = Except.ok none := by
  refine ⟨dfs_aumento_self _ 0 0 [] [], rfl,
    fun fuel => solver_self_none ejemploA 0 (by decide) fuel⟩

/-- C2, amended: restricted to calls with source ≠ sink, the claim holds. On a
well-formed network whose node set contains both distinct endpoints: whenever
the search phase hands back a predecessor map holding a walk to the sink (its
entries written under the positive-residual guard), the backtrack walk
succeeds and the computed bottleneck is a finite integer of at least 1, so the
accumulated total strictly increases; consequently both augmenting loops
terminate after finitely many iterations with a finite total (with source
equal to sink neither loop ever terminates — see the counterexample). -/
theorem C2_positive_bottleneck_termination (g : Net) (hwf : WF g)
    (fuente sumidero : Int) (hne : fuente ≠ sumidero)
    (hf : fuente ∈ g.nodos) (hs : sumidero ∈ g.nodos) :
    (∀ fl padre, FlowOk g.capacidad fl →
      PadreOk { g with flujo := fl } fuente padre →
      (∃ f steps, camino padre fuente f sumidero = some steps) →
      ∃ steps b, camino padre fuente (padre.length + 1) sumidero = some steps ∧
        cuello { g with flujo := fl } steps = some b ∧ 1 ≤ b)
    ∧ (∃ fuel t m, (ford_fulkerson_dfs g fuente sumidero fuel).2
        = Except.ok (some (some t, m)))
    ∧ (∃ fuel t m, (edmonds_karp_bfs g fuente sumidero fuel).2
        = Except.ok (some (some t, m))) := by
  refine ⟨?_, ford_terminates g hwf fuente sumidero hne hf hs,
    edmonds_terminates g hwf fuente sumidero hne hf hs⟩
  intro fl padre hok hpo hwalk
  obtain ⟨steps, b, hcam, hcuello, hb1, _, _⟩ :=
    paso_aumento g fuente sumidero (Ne.symm hne) fl padre hok hpo hwalk
  exact ⟨steps, b, hcam, hcuello, hb1⟩

theorem C2_witness :
    WF ejemploA ∧ (0 : Int) ≠ 3
    ∧ (0 : Int) ∈ ejemploA.nodos ∧ (3 : Int) ∈ ejemploA.nodos
    ∧ ((∀ fl padre, FlowOk ejemploA.capacidad fl →
        PadreOk { ejemploA with flujo := fl } 0 padre →
        (∃ f steps, camino padre 0 f 3 = some steps) →
        ∃ steps b, camino padre 0 (padre.length + 1) 3 = some steps ∧
          cuello { ejemploA with flujo := fl } steps = some b ∧ 1 ≤ b)
      ∧ (∃ fuel t m, (ford_fulkerson_dfs ejemploA 0 3 fuel).2
          = Except.ok (some (some t, m)))
      ∧ (∃ fuel t m, (edmonds_karp_bfs ejemploA 0 3 fuel).2
          = Except.ok (some (some t, m)))) :=
  ⟨wf_ejemploA, by decide, by decide, by decide,
    C2_positive_bottleneck_termination ejemploA wf_ejemploA 0 3 (by decide)
      (by decide) (by decide)⟩

end Net


/-! ## Claim C3: both solvers compute the same total -/

namespace Net

/-- C3: on a fixed well-formed network, any completed `maxFlowDFS` run and any
completed `maxFlowBFS` run (any fuels) return the same total max-flow value,
even though the two returned edge-flow maps may differ. Proof: each returned
total is the net outflow of the source, which equals the capacity of the cut
its failed final search certifies (max-flow/min-cut), and each total is also
bounded by every such cut (weak duality), so the two agree. -/
theorem C3_dfs_bfs_same_total (g : Net) (hwf : WF g) (fuente sumidero : Int)
    (fuel1 fuel2 : Nat) (t1 t2 : Option Int)
    (m1 m2 : List ((Int × Int) × Int)) (g1 g2 : Net)
    (h1 : ford_fulkerson_dfs g fuente sumidero fuel1 = (g1, .ok (some (t1, m1))))
    (h2 : edmonds_karp_bfs g fuente sumidero fuel2 = (g2, .ok (some (t2, m2)))) :
    t1 = t2 := by
  obtain ⟨hok1, hcons1, ht1, ⟨S1, hf1, hs1, hsub1, hcut1⟩, _, _, _⟩ :=
    ford_ok_props g hwf fuente sumidero fuel1 t1 m1 g1 h1
  obtain ⟨hok2, hcons2, ht2, ⟨S2, hf2, hs2, hsub2, hcut2⟩, _, _, _⟩ :=
    edmonds_ok_props g hwf fuente sumidero fuel2 t2 m2 g2 h2
  have hle1 : excessT g1.flujo (univNodes g) fuente
      ≤ excessT g2.flujo (univNodes g) fuente := by
    calc excessT g1.flujo (univNodes g) fuente
        ≤ cutCap g.capacidad (univNodes g) S2 :=
          excess_le_cutCap g.capacidad g1.flujo (univNodes g) S2 fuente sumidero
            hok1 hcons1 hf2 hs2 hsub2
      _ = excessT g2.flujo (univNodes g) fuente := hcut2.symm
  have hle2 : excessT g2.flujo (univNodes g) fuente
      ≤ excessT g1.flujo (univNodes g) fuente := by
    calc excessT g2.flujo (univNodes g) fuente
        ≤ cutCap g.capacidad (univNodes g) S1 :=
          excess_le_cutCap g.capacidad g2.flujo (univNodes g) S1 fuente sumidero
            hok2 hcons2 hf1 hs1 hsub1
      _ = excessT g1.flujo (univNodes g) fuente := hcut1.symm
  rw [ht1, ht2]
  congr 1
  omega

theorem C3_witness :
    ford_fulkerson_dfs ejemploA 0 3 20
      = ((ford_fulkerson_dfs ejemploA 0 3 20).1,
        .ok (some (some 16,
          ([((0, 1), 9), ((0, 2), 7), ((1, 3), 8), ((1, 2), 1), ((2, 3), 8)] :
            List ((Int × Int) × Int)))))
    ∧ edmonds_karp_bfs ejemploA 0 3 20
      = ((edmonds_karp_bfs ejemploA 0 3 20).1,
        .ok (some (some 16,
          ([((0, 1), 8), ((0, 2), 8), ((1, 3), 8), ((1, 2), 0), ((2, 3), 8)] :
            List ((Int × Int) × Int)))))
    ∧ (some (16 : Int) : Option Int) = some 16 :=
  ⟨by decide, by decide,
    C3_dfs_bfs_same_total ejemploA wf_ejemploA 0 3 20 20 (some 16) (some 16)
      ([((0, 1), 9), ((0, 2), 7), ((1, 3), 8), ((1, 2), 1), ((2, 3), 8)] :
        List ((Int × Int) × Int))
      ([((0, 1), 8), ((0, 2), 8), ((1, 3), 8), ((1, 2), 0), ((2, 3), 8)] :
        List ((Int × Int) × Int))
      (ford_fulkerson_dfs ejemploA 0 3 20).1
      (edmonds_karp_bfs ejemploA 0 3 20).1
      (by decide) (by decide)⟩

end Net


/-! ## The returned map as sums over the universe -/

namespace Net

theorem flatMap_congr_mem {α β : Type} (l : List α) (f f2 : α → List β)
    (h : ∀ a ∈ l, f a = f2 a) : l.flatMap f = l.flatMap f2 := by
  induction l with
  | nil => rfl
  | cons a rest ih =>
    rw [List.flatMap_cons, List.flatMap_cons, h a (List.mem_cons_self _ _),
      ih (fun x hx => h x (List.mem_cons_of_mem _ hx))]

theorem mapa_flujo_eq_crudo (g : Net) (hwf : WF g) (fl : AL (AL Int))
    (hok : FlowOk g.capacidad fl) :
    mapa_flujo g.capacidad fl = mapa_crudo g.capacidad fl := by
  unfold mapa_flujo mapa_crudo
  refine flatMap_congr_mem _ _ _ ?_
  intro p hp
  refine List.map_congr_left ?_
  intro q hq
  have hrow : AL.get? g.capacidad p.1 = some p.2 :=
    AL.get?_of_mem_nodup hwf.capKeys hp
  have hcapval : tabGet g.capacidad p.1 q.1 = q.2 := by
    unfold tabGet AL.getD
    rw [hrow]
    simp only [Option.getD_some]
    rw [AL.get?_of_mem_nodup (hwf.capRows p hp) hq]
    rfl
  have h1 := (hok p.1 q.1).1
  have h2 := (hok p.1 q.1).2
  rw [hcapval] at h2
  congr 1
  rw [min_eq_right h2, max_eq_right h1]

theorem filter_fst_row_ne {w k : Int} (hne : ¬(k = w)) (row : AL Int)
    (val : Int × Int → Int) :
    (row.map (fun q => ((k, q.1), val q))).filter (fun e => e.1.1 = w) = [] := by
  induction row with
  | nil => rfl
  | cons q rest ih =>
    rw [List.map_cons, List.filter_cons]
    simp only [decide_eq_true_eq]
    rw [if_neg hne]
    exact ih

theorem filter_fst_row_eq (w : Int) (row : AL Int) (val : Int × Int → Int) :
    (row.map (fun q => ((w, q.1), val q))).filter (fun e => e.1.1 = w)
      = row.map (fun q => ((w, q.1), val q)) := by
  induction row with
  | nil => rfl
  | cons q rest ih =>
    rw [List.map_cons, List.filter_cons]
    simp only [decide_eq_true_eq]
    rw [if_pos trivial, ih]

theorem filter_fst_crudo_nil (fl : AL (AL Int)) (w : Int) :
    ∀ (cap : AL (AL Int)), w ∉ AL.keys cap →
      (mapa_crudo cap fl).filter (fun e => e.1.1 = w) = [] := by
  intro cap
  induction cap with
  | nil =>
    intro _
    rfl
  | cons p rest ih =>
    intro hw
    have hpk : ¬(p.1 = w) := by
      intro h
      exact hw (by rw [← h]; exact List.mem_cons_self _ _)
    unfold mapa_crudo
    rw [List.flatMap_cons, List.filter_append]
    rw [filter_fst_row_ne hpk p.2 (fun q => tabGet fl p.1 q.1)]
    rw [List.nil_append]
    exact ih (fun h => hw (List.mem_cons_of_mem _ h))

theorem filter_fst_mapa_crudo (fl : AL (AL Int)) (w : Int) :
    ∀ (cap : AL (AL Int)), (AL.keys cap).Nodup →
      (mapa_crudo cap fl).filter (fun e => e.1.1 = w)
        = (AL.getD cap w []).map (fun q => ((w, q.1), tabGet fl w q.1)) := by
  intro cap
  induction cap with
  | nil =>
    intro _
    rfl
  | cons p rest ih =>
    intro hnd
    have hnd2 := hnd
    unfold AL.keys at hnd2
    rw [List.map_cons, List.nodup_cons] at hnd2
    unfold mapa_crudo
    rw [List.flatMap_cons, List.filter_append]
    by_cases hpw : p.1 = w
    · rw [← hpw]
      rw [filter_fst_row_eq p.1 p.2 (fun q => tabGet fl p.1 q.1)]
      have hrest : (mapa_crudo rest fl).filter (fun e => e.1.1 = p.1) = [] :=
        filter_fst_crudo_nil fl p.1 rest hnd2.1
      unfold mapa_crudo at hrest
      rw [hrest, List.append_nil]
      have hget : AL.getD (p :: rest) p.1 [] = p.2 := by
        unfold AL.getD AL.get?
        obtain ⟨k, row⟩ := p
        rw [if_pos rfl]
        rfl
      rw [hget]
    · rw [filter_fst_row_ne hpw p.2 (fun q => tabGet fl p.1 q.1), List.nil_append]
      have hget : AL.getD (p :: rest) w [] = AL.getD rest w [] := by
        obtain ⟨k, row⟩ := p
        unfold AL.getD
        rw [show AL.get? ((k, row) :: rest) w
          = if w = k then some row else AL.get? rest w from rfl]
        rw [if_neg (fun h => hpw h.symm)]
      rw [hget]
      exact ih hnd2.2

theorem tabGet_zero_of_not_mem_row (cap : AL (AL Int)) (w x : Int)
    (hx : x ∉ AL.keys (AL.getD cap w [])) : tabGet cap w x = 0 := by
  unfold tabGet
  show (AL.get? (AL.getD cap w []) x).getD 0 = 0
  rw [(AL.get?_eq_none_iff _ x).mpr hx]
  rfl

theorem tabGet_zero_of_no_row (cap : AL (AL Int)) (x w : Int)
    (hx : x ∉ AL.keys cap) : tabGet cap x w = 0 := by
  have h := (AL.get?_eq_none_iff cap x).mpr hx
  unfold tabGet
  show (AL.get? (AL.getD cap x []) w).getD 0 = 0
  unfold AL.getD
  rw [h]
  rfl

theorem row_keys_sub_univ (g : Net) (w : Int) :
    ∀ x ∈ AL.keys (AL.getD g.capacidad w []), x ∈ univNodes g := by
  intro x hx
  unfold AL.getD at hx
  rcases hrow : AL.get? g.capacidad w with _ | row
  · rw [hrow] at hx
    simp [AL.keys] at hx
  · rw [hrow] at hx
    simp only [Option.getD_some] at hx
    unfold univNodes
    simp only [List.mem_toFinset, List.mem_append, List.mem_flatMap]
    right
    exact ⟨(w, row), AL.mem_of_get?_eq_some hrow, hx⟩

theorem cap_keys_sub_univ (g : Net) :
    ∀ x ∈ AL.keys g.capacidad, x ∈ univNodes g := by
  intro x hx
  unfold univNodes
  simp only [List.mem_toFinset, List.mem_append]
  left
  right
  exact hx

theorem outSum_crudo (g : Net) (hwf : WF g) (fl : AL (AL Int))
    (hok : FlowOk g.capacidad fl) (w : Int) :
    outSum (mapa_crudo g.capacidad fl) w = ∑ x ∈ univNodes g, tabGet fl w x := by
  unfold outSum
  rw [filter_fst_mapa_crudo fl w g.capacidad hwf.capKeys, List.map_map]
  show ((AL.getD g.capacidad w []).map (fun q => tabGet fl w q.1)).sum = _
  have hrownd : (AL.keys (AL.getD g.capacidad w [])).Nodup := by
    unfold AL.getD
    rcases hrow : AL.get? g.capacidad w with _ | row
    · simp [AL.keys]
    · exact hwf.capRows (w, row) (AL.mem_of_get?_eq_some hrow)
  have hsum : ((AL.getD g.capacidad w []).map (fun q => tabGet fl w q.1)).sum
      = ∑ x ∈ (AL.keys (AL.getD g.capacidad w [])).toFinset, tabGet fl w x := by
    rw [List.sum_toFinset _ hrownd]
    unfold AL.keys
    rw [List.map_map]
    rfl
  rw [hsum]
  refine Finset.sum_subset ?_ ?_
  · intro x hx
    exact row_keys_sub_univ g w x (List.mem_toFinset.mp hx)
  · intro x _ hnx
    have hcap := tabGet_zero_of_not_mem_row g.capacidad w x
      (fun h => hnx (List.mem_toFinset.mpr h))
    have h1 := hok w x
    omega

theorem filter_snd_map_nil (fl : AL (AL Int)) (k w : Int) (row : AL Int)
    (hw : w ∉ AL.keys row) :
    (row.map (fun q => ((k, q.1), tabGet fl k q.1))).filter
      (fun e => e.1.2 = w) = [] := by
  induction row with
  | nil => rfl
  | cons q rest ih =>
    have hqw : ¬(q.1 = w) := by
      intro h
      exact hw (by rw [← h]; exact List.mem_cons_self _ _)
    rw [List.map_cons, List.filter_cons]
    simp only [decide_eq_true_eq]
    rw [if_neg hqw]
    exact ih (fun h => hw (List.mem_cons_of_mem _ h))

theorem inSum_row (fl : AL (AL Int)) (k w : Int) :
    ∀ (row : AL Int), (AL.keys row).Nodup →
      (AL.get? row w = none → tabGet fl k w = 0) →
      (((row.map (fun q => ((k, q.1), tabGet fl k q.1))).filter
          (fun e => e.1.2 = w)).map Prod.snd).sum = tabGet fl k w := by
  intro row
  induction row with
  | nil =>
    intro _ hzero
    exact (hzero rfl).symm
  | cons q rest ih =>
    intro hnd hzero
    have hnd2 := hnd
    unfold AL.keys at hnd2
    rw [List.map_cons, List.nodup_cons] at hnd2
    rw [List.map_cons, List.filter_cons]
    simp only [decide_eq_true_eq]
    by_cases hqw : q.1 = w
    · rw [if_pos hqw]
      rw [filter_snd_map_nil fl k w rest (hqw ▸ hnd2.1)]
      rw [List.map_cons]
      show tabGet fl k q.1 + ([] : List Int).sum = tabGet fl k w
      rw [hqw]
      simp
    · rw [if_neg hqw]
      refine ih hnd2.2 ?_
      intro hnone
      refine hzero ?_
      unfold AL.get?
      rw [if_neg (fun h => hqw h.symm)]
      exact hnone

theorem inSum_crudo_list (fl : AL (AL Int)) (w : Int) :
    ∀ (cap : AL (AL Int)),
      (∀ p ∈ cap, (AL.keys p.2).Nodup) →
      (∀ p ∈ cap, AL.get? p.2 w = none → tabGet fl p.1 w = 0) →
      inSum (mapa_crudo cap fl) w
        = ((AL.keys cap).map (fun k => tabGet fl k w)).sum := by
  intro cap
  induction cap with
  | nil =>
    intro _ _
    rfl
  | cons p rest ih =>
    intro hrows hzero
    unfold inSum mapa_crudo
    rw [List.flatMap_cons, List.filter_append, List.map_append, List.sum_append]
    have hrow := inSum_row fl p.1 w p.2 (hrows p (List.mem_cons_self _ _))
      (hzero p (List.mem_cons_self _ _))
    have hrest := ih (fun x hx => hrows x (List.mem_cons_of_mem _ hx))
      (fun x hx => hzero x (List.mem_cons_of_mem _ hx))
    unfold inSum mapa_crudo at hrest
    rw [hrow, hrest]
    rfl

theorem inSum_crudo (g : Net) (hwf : WF g) (fl : AL (AL Int))
    (hok : FlowOk g.capacidad fl) (w : Int) :
    inSum (mapa_crudo g.capacidad fl) w = ∑ x ∈ univNodes g, tabGet fl x w := by
  have hzero : ∀ p ∈ g.capacidad, AL.get? p.2 w = none → tabGet fl p.1 w = 0 := by
    intro p hp hnone
    have hcap : tabGet g.capacidad p.1 w = 0 := by
      unfold tabGet AL.getD
      rw [AL.get?_of_mem_nodup hwf.capKeys hp]
      simp only [Option.getD_some]
      rw [hnone]
      rfl
    have h1 := hok p.1 w
    omega
  rw [inSum_crudo_list fl w g.capacidad hwf.capRows hzero]
  have hsum : ((AL.keys g.capacidad).map (fun k => tabGet fl k w)).sum
      = ∑ x ∈ (AL.keys g.capacidad).toFinset, tabGet fl x w := by
    rw [List.sum_toFinset _ hwf.capKeys]
  rw [hsum]
  refine Finset.sum_subset ?_ ?_
  · intro x hx
    exact cap_keys_sub_univ g x (List.mem_toFinset.mp hx)
  · intro x _ hnx
    have hcap := tabGet_zero_of_no_row g.capacidad x w
      (fun h => hnx (List.mem_toFinset.mpr h))
    have h1 := hok x w
    omega

theorem conserva_mapa (g : Net) (hwf : WF g) (fl : AL (AL Int))
    (hok : FlowOk g.capacidad fl)
    (hcons : Conserva fl (univNodes g) fuente sumidero)
    (w : Int) (hw1 : w ≠ fuente) (hw2 : w ≠ sumidero) :
    outSum (mapa_flujo g.capacidad fl) w = inSum (mapa_flujo g.capacidad fl) w := by
  rw [mapa_flujo_eq_crudo g hwf fl hok, outSum_crudo g hwf fl hok w,
    inSum_crudo g hwf fl hok w]
  have hexc := hcons w hw1 hw2
  unfold excessT at hexc
  rw [Finset.sum_sub_distrib] at hexc
  omega

end Net


/-! ## Claims C5 and C9: conservation and flow bounds -/

namespace Net

/-- C5: for every terminating run of either solver, the returned edge-flow map
conserves flow at every node other than the chosen source and sink: the sum of
the map's values over edges leaving `w` equals the sum over edges entering
`w`. -/
theorem C5_flow_conservation (g : Net) (hwf : WF g) (fuente sumidero : Int)
    (w : Int) (hw1 : w ≠ fuente) (hw2 : w ≠ sumidero) :
    ∀ (fuel : Nat) (t : Option Int) (m : List ((Int × Int) × Int)) (gf : Net),
      (ford_fulkerson_dfs g fuente sumidero fuel = (gf, .ok (some (t, m)))
        ∨ edmonds_karp_bfs g fuente sumidero fuel = (gf, .ok (some (t, m)))) →
      outSum m w = inSum m w := by
  intro fuel t m gf h
  rcases h with h | h
  · obtain ⟨hok, hcons, _, _, hm, _, _⟩ :=
      ford_ok_props g hwf fuente sumidero fuel t m gf h
    rw [hm]
    exact conserva_mapa g hwf gf.flujo hok hcons w hw1 hw2
  · obtain ⟨hok, hcons, _, _, hm, _, _⟩ :=
      edmonds_ok_props g hwf fuente sumidero fuel t m gf h
    rw [hm]
    exact conserva_mapa g hwf gf.flujo hok hcons w hw1 hw2

theorem C5_witness :
    WF ejemploA ∧ ((1 : Int) ≠ 0) ∧ ((1 : Int) ≠ 3)
    ∧ outSum ([((0, 1), 9), ((0, 2), 7), ((1, 3), 8), ((1, 2), 1), ((2, 3), 8)] :
        List ((Int × Int) × Int)) 1
      = inSum ([((0, 1), 9), ((0, 2), 7), ((1, 3), 8), ((1, 2), 1), ((2, 3), 8)] :
        List ((Int × Int) × Int)) 1 :=
  ⟨wf_ejemploA, by decide, by decide,
    C5_flow_conservation ejemploA wf_ejemploA 0 3 1 (by decide) (by decide)
      20 (some 16)
      ([((0, 1), 9), ((0, 2), 7), ((1, 3), 8), ((1, 2), 1), ((2, 3), 8)] :
        List ((Int × Int) × Int))
      (ford_fulkerson_dfs ejemploA 0 3 20).1
      (Or.inl (by decide))⟩

/-- C9: for every completed run of either solver, the stored flows of the
final state lie within `[0, capacity]` pointwise (capacity read as 0 for
absent edges) — the augmentation steps preserve this invariant throughout the
run — so the final clamping step `max(0, min(cap, flujo))` changes no value:
the returned edge-flow map equals the raw stored flows on the stored
positive-capacity edges. -/
theorem C9_flows_in_bounds_clamp_identity (g : Net) (hwf : WF g)
    (fuente sumidero : Int) :
    ∀ (fuel : Nat) (t : Option Int) (m : List ((Int × Int) × Int)) (gf : Net),
      (ford_fulkerson_dfs g fuente sumidero fuel = (gf, .ok (some (t, m)))
        ∨ edmonds_karp_bfs g fuente sumidero fuel = (gf, .ok (some (t, m)))) →
      FlowOk g.capacidad gf.flujo ∧ m = mapa_crudo g.capacidad gf.flujo := by
  intro fuel t m gf h
  rcases h with h | h
  · obtain ⟨hok, _, _, _, hm, _, _⟩ :=
      ford_ok_props g hwf fuente sumidero fuel t m gf h
    exact ⟨hok, by rw [hm, mapa_flujo_eq_crudo g hwf gf.flujo hok]⟩
  · obtain ⟨hok, _, _, _, hm, _, _⟩ :=
      edmonds_ok_props g hwf fuente sumidero fuel t m gf h
    exact ⟨hok, by rw [hm, mapa_flujo_eq_crudo g hwf gf.flujo hok]⟩

theorem C9_witness :
    WF ejemploA
    ∧ (FlowOk ejemploA.capacidad (edmonds_karp_bfs ejemploA 0 3 20).1.flujo
      ∧ ([((0, 1), 8), ((0, 2), 8), ((1, 3), 8), ((1, 2), 0), ((2, 3), 8)] :
          List ((Int × Int) × Int))
        = mapa_crudo ejemploA.capacidad (edmonds_karp_bfs ejemploA 0 3 20).1.flujo) :=
  ⟨wf_ejemploA,
    C9_flows_in_bounds_clamp_identity ejemploA wf_ejemploA 0 3 20 (some 16)
      ([((0, 1), 8), ((0, 2), 8), ((1, 3), 8), ((1, 2), 0), ((2, 3), 8)] :
        List ((Int × Int) × Int))
      (edmonds_karp_bfs ejemploA 0 3 20).1
      (Or.inr (by decide))⟩

end Net

end Proyecto6
